import Mathlib

/-!
# simplehttp: a shallow embedding of `simplehttp.go`

The package composes a request from the fields of an `HTTPClient`, hands it to
`(*http.Client).Do` and normalises the answer into an `HTTPResponse`.

Conventions of the embedding

* A Go `string` / `[]byte` is a list of bytes (`GoString`); `str` turns an ASCII
  literal into its bytes.
* A Go map is an association list with pairwise distinct keys (`GoMap`); the
  order of its entries carries no meaning.  Every `range` loop over a map
  visits the pairs in an order chosen afresh for that loop: a `RangeOrder`,
  part of the environment of each call.
  A map-typed field is an `Option`: `none` is the nil map.
* The standard-library functions called by `sendRequest` (`json.Marshal`,
  `http.NewRequest`, `url.Parse`, `url.Values`, `http.Header.Set`) are
  transcribed from the Go standard library (go1.22) under namespaces named after
  their packages.  Shifts and masks on bytes are written with `/`, `%`, `*`, `+`.
  Errors of the library are values (`GoError`) rendered by `Error`, as in Go.
* The environment of a call (`Env`) is `(*http.Client).Do` together with
  `io.ReadAll` on the response body, the visiting orders of the `range` loops,
  and the printability tables of `strconv`, which are not reproduced here.
-/

namespace simplehttp

/-! ## Strings and maps -/

abbrev Byte := Fin 256

abbrev GoString := List Byte

/-- Bytes of an ASCII literal. -/
def str (s : String) : GoString := s.toList.map (fun c => Fin.ofNat c.toNat)

/-- A non-nil Go map with string keys. -/
abbrev GoMap (V : Type) := AList (fun _ : GoString => V)

namespace GoMap

/-- Value of `make(map[string]V)`. -/
def make {V : Type} : GoMap V := ∅

/-- Value of `len(m)`; zero for the nil map. -/
def len {V : Type} : Option (GoMap V) → Nat
  | none => 0
  | some m => m.entries.length

/-- The pairs a map holds; none for the nil map. -/
def pairs {V : Type} : Option (GoMap V) → List (GoString × V)
  | none => []
  | some m => m.entries.map (fun e => (e.1, e.2))

/-- Value of `m[k]` with the comma-ok flag folded into the option. -/
def index {V : Type} : Option (GoMap V) → GoString → Option V
  | none, _ => none
  | some m, k => m.lookup k

/-- Effect of `m[k] = v` on a non-nil map. -/
def set {V : Type} (m : GoMap V) (k : GoString) (v : V) : GoMap V := m.insert k v

/-- Map literal from a list of pairs, later pairs overwriting earlier ones. -/
def ofList {V : Type} (l : List (GoString × V)) : GoMap V :=
  l.foldl (fun m kv => m.set kv.1 kv.2) make

end GoMap

/-- The visiting orders of the `range` loops of one call: loop number `loop`
visits the pairs `l` of its map in the order `visit loop l`, some
rearrangement of them.  Go chooses the order anew for every loop. -/
structure RangeOrder where
  visit : {V : Type} → Nat → List (GoString × V) → List (GoString × V)
  perm : ∀ {V : Type} (loop : Nat) (l : List (GoString × V)), (visit loop l).Perm l

/-- Pairs visited by `for k, v := range m` in loop number `loop`, in visiting
order; none for the nil map. -/
def GoMap.range {V : Type} (o : RangeOrder) (loop : Nat) (m : Option (GoMap V)) :
    List (GoString × V) :=
  o.visit loop (GoMap.pairs m)

namespace strings

/-- Go `strings.Cut(s, sep)` for a one-byte separator. -/
def Cut (s : GoString) (sep : Byte) : GoString × GoString × Bool :=
  match s with
  | [] => ([], [], false)
  | c :: t =>
    if c = sep then ([], t, true)
    else
      let r := Cut t sep
      (c :: r.1, r.2.1, r.2.2)

/-- Go `strings.Contains(s, sep)` for a one-byte separator. -/
def ContainsByte (s : GoString) (sep : Byte) : Bool := s.contains sep

/-- Go `strings.HasPrefix`. -/
def HasPrefix (s p : GoString) : Bool := p.isPrefixOf s

/-- Go `strings.HasSuffix`. -/
def HasSuffix (s p : GoString) : Bool := p.isSuffixOf s

/-- Go `strings.Index(s, sub)`, with `none` for -1. -/
def Index (s sub : GoString) : Option Nat :=
  match s with
  | [] => if sub = [] then some 0 else none
  | c :: t =>
    if sub.isPrefixOf (c :: t) then some 0
    else (Index t sub).map (· + 1)

/-- Go `strings.LastIndex(s, sep)` for a one-byte separator, with `none` for -1. -/
def LastIndexByte (s : GoString) (sep : Byte) : Option Nat :=
  match s with
  | [] => none
  | c :: t =>
    match LastIndexByte t sep with
    | some i => some (i + 1)
    | none => if c = sep then some 0 else none

/-- Go `strings.Count(s, sep)` for a one-byte separator. -/
def CountByte (s : GoString) (sep : Byte) : Nat := s.count sep

/-- Go `strings.ToLower` on ASCII letters (the only use is on a URL scheme). -/
def ToLower (s : GoString) : GoString :=
  s.map (fun c => if 0x41 ≤ c.val ∧ c.val ≤ 0x5A then Fin.ofNat (c.val + 32) else c)

end strings

/-! ## unicode/utf8 -/

namespace utf8

def RuneError : Nat := 0xFFFD

def RuneSelf : Nat := 0x80

def UTFMax : Nat := 4

/-- Table `first` of the Go package restricted to lead bytes of multi-byte
sequences: the sequence length and the accepted range of the second byte.
`none` stands for the entries `as` (ASCII) and `xx` (invalid). -/
def first (b : Byte) : Option (Nat × Nat × Nat) :=
  if 0xC2 ≤ b.val ∧ b.val ≤ 0xDF then some (2, 0x80, 0xBF)
  else if b.val = 0xE0 then some (3, 0xA0, 0xBF)
  else if 0xE1 ≤ b.val ∧ b.val ≤ 0xEC then some (3, 0x80, 0xBF)
  else if b.val = 0xED then some (3, 0x80, 0x9F)
  else if 0xEE ≤ b.val ∧ b.val ≤ 0xEF then some (3, 0x80, 0xBF)
  else if b.val = 0xF0 then some (4, 0x90, 0xBF)
  else if 0xF1 ≤ b.val ∧ b.val ≤ 0xF3 then some (4, 0x80, 0xBF)
  else if b.val = 0xF4 then some (4, 0x80, 0x8F)
  else none

/-- Go `utf8.DecodeRuneInString`: the rune and the number of bytes it occupies. -/
def DecodeRuneInString (s : GoString) : Nat × Nat :=
  match s with
  | [] => (RuneError, 0)
  | s0 :: t =>
    if s0.val < RuneSelf then (s0.val, 1)
    else
      match first s0 with
      | none => (RuneError, 1)
      | some (sz, lo, hi) =>
        if s.length < sz then (RuneError, 1)
        else
          match t with
          | [] => (RuneError, 1)
          | s1 :: t1 =>
            if s1.val < lo ∨ hi < s1.val then (RuneError, 1)
            else if sz ≤ 2 then (s0.val % 32 * 64 + s1.val % 64, 2)
            else
              match t1 with
              | [] => (RuneError, 1)
              | s2 :: t2 =>
                if s2.val < 0x80 ∨ 0xBF < s2.val then (RuneError, 1)
                else if sz ≤ 3 then
                  (s0.val % 16 * 4096 + s1.val % 64 * 64 + s2.val % 64, 3)
                else
                  match t2 with
                  | [] => (RuneError, 1)
                  | s3 :: _ =>
                    if s3.val < 0x80 ∨ 0xBF < s3.val then (RuneError, 1)
                    else
                      (s0.val % 8 * 262144 + s1.val % 64 * 4096 + s2.val % 64 * 64
                        + s3.val % 64, 4)

/-- Go `utf8.AppendRune(nil, r)` for a non-negative rune. -/
def EncodeRune (r : Nat) : GoString :=
  if r ≤ 0x7F then [Fin.ofNat r]
  else if r ≤ 0x7FF then [Fin.ofNat (0xC0 + r / 64), Fin.ofNat (0x80 + r % 64)]
  else if r > 0x10FFFF ∨ (0xD800 ≤ r ∧ r ≤ 0xDFFF) then [0xEF, 0xBF, 0xBD]
  else if r ≤ 0xFFFF then
    [Fin.ofNat (0xE0 + r / 4096), Fin.ofNat (0x80 + r / 64 % 64), Fin.ofNat (0x80 + r % 64)]
  else
    [Fin.ofNat (0xF0 + r / 262144), Fin.ofNat (0x80 + r / 4096 % 64),
      Fin.ofNat (0x80 + r / 64 % 64), Fin.ofNat (0x80 + r % 64)]

/-- Loop of Go `utf8.ValidString`: no position decodes to `(RuneError, 1)`. -/
def validLoop : Nat → GoString → Bool
  | _, [] => true
  | 0, _ :: _ => false
  | fuel + 1, c :: t =>
    let d := DecodeRuneInString (c :: t)
    if d.1 = RuneError ∧ d.2 = 1 then false
    else validLoop fuel ((c :: t).drop d.2)

/-- Go `utf8.ValidString`. -/
def ValidString (s : GoString) : Bool := validLoop s.length s

end utf8

/-! ## strconv and error values -/

namespace strconv

def lowerhex : GoString := str "0123456789abcdef"

/-- Go `strconv.IsPrint`.  The runes up to U+00FF are decided as in the
package; `table` stands for the package's tables, which decide the others. -/
def IsPrint (table : Nat → Bool) (r : Nat) : Bool :=
  if r ≤ 0xFF then
    if 0x20 ≤ r ∧ r ≤ 0x7E then true
    else if 0xA1 ≤ r ∧ r ≤ 0xFF then decide (r ≠ 0xAD)
    else false
  else table r

/-- Go `utf8.ValidRune`. -/
def ValidRune (r : Nat) : Bool := decide (r < 0xD800 ∨ (0xDFFF < r ∧ r ≤ 0x10FFFF))

/-- Go `appendEscapedRune(buf, r, quote, false, false)` with the double quote
as `quote`: the bytes appended. -/
def appendEscapedRune (table : Nat → Bool) (r : Nat) : GoString :=
  if r = 0x22 ∨ r = 0x5C then [0x5C, Fin.ofNat r]
  else if IsPrint table r then utf8.EncodeRune r
  else if r = 0x07 then str "\\a"
  else if r = 0x08 then str "\\b"
  else if r = 0x0C then str "\\f"
  else if r = 0x0A then str "\\n"
  else if r = 0x0D then str "\\r"
  else if r = 0x09 then str "\\t"
  else if r = 0x0B then str "\\v"
  else if r < 0x20 ∨ r = 0x7F then
    [0x5C, 0x78, lowerhex.getD (r / 16 % 16) 0, lowerhex.getD (r % 16) 0]
  else
    let r1 := if ValidRune r then r else 0xFFFD
    if r1 < 0x10000 then
      [0x5C, 0x75, lowerhex.getD (r1 / 4096 % 16) 0, lowerhex.getD (r1 / 256 % 16) 0,
        lowerhex.getD (r1 / 16 % 16) 0, lowerhex.getD (r1 % 16) 0]
    else
      [0x5C, 0x55, lowerhex.getD (r1 / 268435456 % 16) 0,
        lowerhex.getD (r1 / 16777216 % 16) 0, lowerhex.getD (r1 / 1048576 % 16) 0,
        lowerhex.getD (r1 / 65536 % 16) 0, lowerhex.getD (r1 / 4096 % 16) 0,
        lowerhex.getD (r1 / 256 % 16) 0, lowerhex.getD (r1 / 16 % 16) 0,
        lowerhex.getD (r1 % 16) 0]

/-- Loop of Go `appendQuotedWith`: the bytes written for the rest of the
string. -/
def quoteLoop (table : Nat → Bool) : Nat → GoString → GoString
  | _, [] => []
  | 0, _ :: _ => []
  | fuel + 1, c :: t =>
    let d := if utf8.RuneSelf ≤ c.val then utf8.DecodeRuneInString (c :: t) else (c.val, 1)
    if d.2 = 1 ∧ d.1 = utf8.RuneError then
      [0x5C, 0x78, lowerhex.getD (c.val / 16) 0, lowerhex.getD (c.val % 16) 0]
        ++ quoteLoop table fuel t
    else appendEscapedRune table d.1 ++ quoteLoop table fuel ((c :: t).drop d.2)

/-- Go `strconv.Quote`, which also renders the verb `%q` of a string. -/
def Quote (table : Nat → Bool) (s : GoString) : GoString :=
  [0x22] ++ quoteLoop table s.length s ++ [0x22]

end strconv

/-- The error values of the standard library that reach this package:
`errors.New` with a fixed text; a text with one operand under `%q`
(`url.EscapeError`, `url.InvalidHostError`, `fmt.Errorf`); and `*url.Error`. -/
inductive GoError
  | New (text : GoString)
  | Quoted (before operand after : GoString)
  | URLError (Op URL : GoString) (Err : GoError)
  deriving DecidableEq, Repr

/-- The method `Error()` of an error value. -/
def GoError.Error (table : Nat → Bool) : GoError → GoString
  | .New text => text
  | .Quoted before operand after => before ++ strconv.Quote table operand ++ after
  | .URLError Op URL Err =>
    Op ++ str " " ++ strconv.Quote table URL ++ str ": " ++ GoError.Error table Err

/-! ## encoding/json -/

namespace json

/-- Digit table `hex` of the encoder. -/
def hex : GoString := str "0123456789abcdef"

/-- Table `htmlSafeSet`: ASCII bytes written verbatim inside a JSON string when
HTML escaping is on (as it is for `json.Marshal`). -/
def htmlSafeSet (b : Byte) : Bool :=
  decide (0x20 ≤ b.val ∧ b.val < 0x80 ∧ b.val ≠ 0x22 ∧ b.val ≠ 0x26 ∧ b.val ≠ 0x3C
    ∧ b.val ≠ 0x3E ∧ b.val ≠ 0x5C)

/-- Escape written by `appendString` for an ASCII byte outside `htmlSafeSet`. -/
def escapeByte (b : Byte) : GoString :=
  if b = 0x5C ∨ b = 0x22 then [0x5C, b]
  else if b = 0x08 then [0x5C, 0x62]
  else if b = 0x0C then [0x5C, 0x66]
  else if b = 0x0A then [0x5C, 0x6E]
  else if b = 0x0D then [0x5C, 0x72]
  else if b = 0x09 then [0x5C, 0x74]
  else [0x5C, 0x75, 0x30, 0x30, hex.getD (b.val / 16) 0, hex.getD (b.val % 16) 0]

/-- Main loop of `appendString(dst, src, true)`: the bytes written for the rest
of the source from the current index on. -/
def appendStringLoop : Nat → GoString → GoString
  | _, [] => []
  | 0, _ :: _ => []
  | fuel + 1, b :: t =>
    if b.val < utf8.RuneSelf then
      if htmlSafeSet b then b :: appendStringLoop fuel t
      else escapeByte b ++ appendStringLoop fuel t
    else
      let n := min (b :: t).length utf8.UTFMax
      let d := utf8.DecodeRuneInString ((b :: t).take n)
      if d.1 = utf8.RuneError ∧ d.2 = 1 then
        str "\\ufffd" ++ appendStringLoop fuel t
      else if d.1 = 0x2028 ∨ d.1 = 0x2029 then
        [0x5C, 0x75, 0x32, 0x30, 0x32, hex.getD (d.1 % 16) 0]
          ++ appendStringLoop fuel ((b :: t).drop d.2)
      else (b :: t).take d.2 ++ appendStringLoop fuel ((b :: t).drop d.2)

/-- Go `appendString(nil, src, true)`: the quoted JSON string literal. -/
def appendString (src : GoString) : GoString :=
  [0x22] ++ appendStringLoop src.length src ++ [0x22]

/-- Members written by the map encoder for the sorted pairs. -/
def encodeMembers : List (GoString × GoString) → GoString
  | [] => []
  | [kv] => appendString kv.1 ++ [0x3A] ++ appendString kv.2
  | kv :: rest => appendString kv.1 ++ [0x3A] ++ appendString kv.2 ++ [0x2C] ++ encodeMembers rest

/-- Go `json.Marshal(m)` for `m` of type `map[string]string`: `null` for the nil
map, otherwise the object with the pairs sorted by key (the keys being
distinct, the order in which the encoder collects the pairs is immaterial).
No value of this type makes the encoder fail, so the error is always nil. -/
def Marshal (m : Option (GoMap GoString)) : Except GoError GoString :=
  match m with
  | none => .ok (str "null")
  | some _ =>
    .ok ([0x7B] ++ encodeMembers (List.insertionSort (fun a b => a.1 ≤ b.1) (GoMap.pairs m))
      ++ [0x7D])

/-- White space skipped by the scanner. -/
def isSpace (c : Byte) : Bool := decide (c = 0x20 ∨ c = 0x09 ∨ c = 0x0D ∨ c = 0x0A)

def skipSpace (s : GoString) : GoString := s.dropWhile isSpace

/-- Value of one hexadecimal digit, as in `getu4`. -/
def hexVal (c : Byte) : Option Nat :=
  if 0x30 ≤ c.val ∧ c.val ≤ 0x39 then some (c.val - 0x30)
  else if 0x61 ≤ c.val ∧ c.val ≤ 0x66 then some (c.val - 0x61 + 10)
  else if 0x41 ≤ c.val ∧ c.val ≤ 0x46 then some (c.val - 0x41 + 10)
  else none

/-- Go `getu4`: the code unit of a leading `\uXXXX`, `none` for -1. -/
def getu4 (s : GoString) : Option Nat :=
  match s with
  | c0 :: c1 :: h0 :: h1 :: h2 :: h3 :: _ =>
    if c0 = 0x5C ∧ c1 = 0x75 then
      match hexVal h0, hexVal h1, hexVal h2, hexVal h3 with
      | some a, some b, some c, some d => some (((a * 16 + b) * 16 + c) * 16 + d)
      | _, _, _, _ => none
    else none
  | _ => none

/-- Go `utf16.IsSurrogate`. -/
def IsSurrogate (r : Nat) : Bool := decide (0xD800 ≤ r ∧ r < 0xE000)

/-- Go `utf16.DecodeRune`, the second unit being `none` when `getu4` gave -1. -/
def utf16DecodeRune (r1 : Nat) (r2 : Option Nat) : Nat :=
  match r2 with
  | some r2 =>
    if 0xD800 ≤ r1 ∧ r1 < 0xDC00 ∧ 0xDC00 ≤ r2 ∧ r2 < 0xE000 then
      (r1 - 0xD800) * 1024 + (r2 - 0xDC00) + 0x10000
    else utf8.RuneError
  | none => utf8.RuneError

/-- Prefix the decoded part of a partial result. -/
def emit (x : GoString) (r : Option (GoString × GoString)) : Option (GoString × GoString) :=
  r.map (fun p => (x ++ p.1, p.2))

/-- Body of a JSON string literal after its opening quote, decoded as the Go
scanner and `unquote` do together: the decoded bytes and the input left after
the closing quote. -/
def unquoteLoop : Nat → GoString → Option (GoString × GoString)
  | 0, _ => none
  | _ + 1, [] => none
  | fuel + 1, c :: t =>
    if c = 0x22 then some ([], t)
    else if c = 0x5C then
      match t with
      | [] => none
      | e :: t1 =>
        if e = 0x22 ∨ e = 0x5C ∨ e = 0x2F then emit [e] (unquoteLoop fuel t1)
        else if e = 0x62 then emit [0x08] (unquoteLoop fuel t1)
        else if e = 0x66 then emit [0x0C] (unquoteLoop fuel t1)
        else if e = 0x6E then emit [0x0A] (unquoteLoop fuel t1)
        else if e = 0x72 then emit [0x0D] (unquoteLoop fuel t1)
        else if e = 0x74 then emit [0x09] (unquoteLoop fuel t1)
        else if e = 0x75 then
          match getu4 (c :: t) with
          | none => none
          | some rr =>
            if IsSurrogate rr then
              let dec := utf16DecodeRune rr (getu4 ((c :: t).drop 6))
              if dec ≠ utf8.RuneError then
                emit (utf8.EncodeRune dec) (unquoteLoop fuel ((c :: t).drop 12))
              else emit (utf8.EncodeRune utf8.RuneError) (unquoteLoop fuel ((c :: t).drop 6))
            else emit (utf8.EncodeRune rr) (unquoteLoop fuel ((c :: t).drop 6))
        else none
    else if c.val < 0x20 then none
    else if c.val < utf8.RuneSelf then emit [c] (unquoteLoop fuel t)
    else
      let d := utf8.DecodeRuneInString (c :: t)
      emit (utf8.EncodeRune d.1) (unquoteLoop fuel ((c :: t).drop d.2))

/-- A JSON string literal at the head of the input. -/
def parseString (s : GoString) : Option (GoString × GoString) :=
  match s with
  | [] => none
  | c :: t => if c = 0x22 then unquoteLoop (t.length + 1) t else none

/-- Members of an object up to and including the closing brace, which must end
the input (white space apart). -/
def parseMembers : Nat → GoString → Option (List (GoString × GoString))
  | 0, _ => none
  | fuel + 1, s =>
    match parseString (skipSpace s) with
    | none => none
    | some (k, s1) =>
      match skipSpace s1 with
      | [] => none
      | c :: s2 =>
        if c = 0x3A then
          match parseString (skipSpace s2) with
          | none => none
          | some (v, s3) =>
            match skipSpace s3 with
            | [] => none
            | d :: s4 =>
              if d = 0x2C then (parseMembers fuel s4).map (fun l => (k, v) :: l)
              else if d = 0x7D then (if skipSpace s4 = [] then some [(k, v)] else none)
              else none
        else none

/-- Go `json.Unmarshal(data, &m)` with `m` a nil `map[string]string`, for data
that is a JSON object whose values are strings (anything else is rejected
here): a repeated key keeps its last value. -/
def Unmarshal (data : GoString) : Option (GoMap GoString) :=
  match skipSpace data with
  | [] => none
  | c :: s =>
    if c = 0x7B then
      match skipSpace s with
      | [] => none
      | d :: s1 =>
        if d = 0x7D then (if skipSpace s1 = [] then some GoMap.make else none)
        else (parseMembers (s.length + 1) s).map GoMap.ofList
    else none

end json

/-! ## net/url -/

namespace url

/-- The escaping modes of the package. -/
inductive encoding
  | encodePath
  | encodePathSegment
  | encodeHost
  | encodeZone
  | encodeUserPassword
  | encodeQueryComponent
  | encodeFragment
  deriving DecidableEq, Repr

open encoding

def upperhex : GoString := str "0123456789ABCDEF"

def ishex (c : Byte) : Bool :=
  decide ((0x30 ≤ c.val ∧ c.val ≤ 0x39) ∨ (0x61 ≤ c.val ∧ c.val ≤ 0x66)
    ∨ (0x41 ≤ c.val ∧ c.val ≤ 0x46))

def unhex (c : Byte) : Nat :=
  if 0x30 ≤ c.val ∧ c.val ≤ 0x39 then c.val - 0x30
  else if 0x61 ≤ c.val ∧ c.val ≤ 0x66 then c.val - 0x61 + 10
  else if 0x41 ≤ c.val ∧ c.val ≤ 0x46 then c.val - 0x41 + 10
  else 0

/-- Go `shouldEscape(c, mode)`. -/
def shouldEscape (c : Byte) (mode : encoding) : Bool :=
  if (0x61 ≤ c.val ∧ c.val ≤ 0x7A) ∨ (0x41 ≤ c.val ∧ c.val ≤ 0x5A)
      ∨ (0x30 ≤ c.val ∧ c.val ≤ 0x39) then false
  else if (mode = encodeHost ∨ mode = encodeZone)
      ∧ c ∈ str "!$&\x27()*+,;=:[]<>\"" then false
  else if c ∈ str "-_.~" then false
  else if c ∈ str "$&+,/:;=?@" then
    match mode with
    | encodePath => decide (c = 0x3F)
    | encodePathSegment => decide (c = 0x2F ∨ c = 0x3B ∨ c = 0x2C ∨ c = 0x3F)
    | encodeUserPassword => decide (c = 0x40 ∨ c = 0x2F ∨ c = 0x3F ∨ c = 0x3A)
    | encodeQueryComponent => true
    | encodeFragment => false
    | _ => true
  else if mode = encodeFragment ∧ c ∈ str "!()*" then false
  else true

/-- Scan of Go `unescape` that checks the escapes; the error text on failure. -/
def unescapeCheck (mode : encoding) : GoString → Option GoError
  | [] => none
  | c :: t =>
    if c = 0x25 then
      match t with
      | h1 :: h2 :: t2 =>
        if !ishex h1 || !ishex h2 then
          some (.Quoted (str "invalid URL escape ") ((c :: t).take 3) [])
        else if mode = encodeHost ∧ unhex h1 < 8 ∧ [c, h1, h2] ≠ str "%25" then
          some (.Quoted (str "invalid URL escape ") [c, h1, h2] [])
        else if mode = encodeZone ∧ [c, h1, h2] ≠ str "%25"
            ∧ unhex h1 * 16 + unhex h2 ≠ 0x20
            ∧ shouldEscape (Fin.ofNat (unhex h1 * 16 + unhex h2)) encodeHost then
          some (.Quoted (str "invalid URL escape ") [c, h1, h2] [])
        else unescapeCheck mode t2
      | _ => some (.Quoted (str "invalid URL escape ") ((c :: t).take 3) [])
    else if c = 0x2B then unescapeCheck mode t
    else if (mode = encodeHost ∨ mode = encodeZone) ∧ c.val < 0x80
        ∧ shouldEscape c encodeHost then
      some (.Quoted (str "invalid character ") [c] (str " in host name"))
    else unescapeCheck mode t

/-- Second pass of Go `unescape`, run on a string whose escapes are well formed. -/
def unescapeBytes (mode : encoding) : GoString → GoString
  | [] => []
  | c :: t =>
    if c = 0x25 then
      match t with
      | h1 :: h2 :: t2 => Fin.ofNat (unhex h1 * 16 + unhex h2) :: unescapeBytes mode t2
      | _ => []
    else if c = 0x2B then
      (if mode = encodeQueryComponent then 0x20 else 0x2B) :: unescapeBytes mode t
    else c :: unescapeBytes mode t

/-- Go `unescape(s, mode)`. -/
def unescape (s : GoString) (mode : encoding) : Except GoError GoString :=
  match unescapeCheck mode s with
  | some e => .error e
  | none => .ok (unescapeBytes mode s)

/-- Go `escape(s, mode)`. -/
def escape (s : GoString) (mode : encoding) : GoString :=
  match s with
  | [] => []
  | c :: t =>
    if c = 0x20 ∧ mode = encodeQueryComponent then 0x2B :: escape t mode
    else if shouldEscape c mode then
      0x25 :: upperhex.getD (c.val / 16) 0 :: upperhex.getD (c.val % 16) 0 :: escape t mode
    else c :: escape t mode

/-- Go `url.QueryEscape`. -/
def QueryEscape (s : GoString) : GoString := escape s encodeQueryComponent

/-- Go `url.QueryUnescape`. -/
def QueryUnescape (s : GoString) : Except GoError GoString := unescape s encodeQueryComponent

/-- Go `url.Values`, a `map[string][]string`. -/
abbrev Values := GoMap (List GoString)

/-- Loop of Go `parseQuery`: the map after the pairs of `query` were appended
to `m`; malformed pairs are skipped (the error they raise is dropped by
`URL.Query`). -/
def parseQuery : Nat → Values → GoString → Values
  | 0, m, _ => m
  | fuel + 1, m, query =>
    if query = [] then m
    else
      let c := strings.Cut query 0x26
      let key := c.1
      let query := c.2.1
      if strings.ContainsByte key 0x3B then parseQuery fuel m query
      else if key = [] then parseQuery fuel m query
      else
        let kv := strings.Cut key 0x3D
        match QueryUnescape kv.1 with
        | .error _ => parseQuery fuel m query
        | .ok key1 =>
          match QueryUnescape kv.2.1 with
          | .error _ => parseQuery fuel m query
          | .ok value =>
            parseQuery fuel (m.set key1 ((GoMap.index (some m) key1).getD [] ++ [value])) query

/-- Go `url.ParseQuery` with the error dropped, as `URL.Query` uses it. -/
def ParseQuery (query : GoString) : Values := parseQuery query.length GoMap.make query

/-- Pairs written by `Values.Encode` for one key. -/
def encodePairs (keyEscaped : GoString) (vs : List GoString) : List GoString :=
  vs.map (fun v => keyEscaped ++ [0x3D] ++ QueryEscape v)

/-- Join the pairs with an ampersand (the guard `buf.Len() > 0`: every pair
holds at least the equals sign). -/
def joinAmp : List GoString → GoString
  | [] => []
  | [p] => p
  | p :: rest => p ++ [0x26] ++ joinAmp rest

/-- Go `Values.Add`. -/
def Values.Add (v : Values) (key value : GoString) : Values :=
  v.set key ((GoMap.index (some v) key).getD [] ++ [value])

/-- Go `Values.Encode`: keys sorted, every value of a key in order. -/
def Values.Encode (v : Values) : GoString :=
  if GoMap.len (some v) = 0 then []
  else
    let keys := List.insertionSort (· ≤ ·) v.keys
    joinAmp (keys.flatMap (fun k => encodePairs (QueryEscape k) ((GoMap.index (some v) k).getD [])))

/-- Go `url.Userinfo`. -/
structure Userinfo where
  username : GoString
  password : GoString
  passwordSet : Bool
  deriving DecidableEq, Repr

/-- Go `url.URL`. -/
structure URL where
  Scheme : GoString := []
  Opaque : GoString := []
  User : Option Userinfo := none
  Host : GoString := []
  Path : GoString := []
  RawPath : GoString := []
  OmitHost : Bool := false
  ForceQuery : Bool := false
  RawQuery : GoString := []
  Fragment : GoString := []
  RawFragment : GoString := []
  deriving DecidableEq, Repr

/-- Go `stringContainsCTLByte`. -/
def stringContainsCTLByte (s : GoString) : Bool := s.any (fun b => b.val < 0x20 ∨ b.val = 0x7F)

/-- Go `getScheme`: scheme and rest, or an error. -/
def getSchemeLoop (rawURL : GoString) : Nat → GoString → Except GoError (GoString × GoString)
  | _, [] => .ok ([], rawURL)
  | i, c :: t =>
    if (0x61 ≤ c.val ∧ c.val ≤ 0x7A) ∨ (0x41 ≤ c.val ∧ c.val ≤ 0x5A) then
      getSchemeLoop rawURL (i + 1) t
    else if (0x30 ≤ c.val ∧ c.val ≤ 0x39) ∨ c = 0x2B ∨ c = 0x2D ∨ c = 0x2E then
      if i = 0 then .ok ([], rawURL) else getSchemeLoop rawURL (i + 1) t
    else if c = 0x3A then
      if i = 0 then .error (.New (str "missing protocol scheme"))
      else .ok (rawURL.take i, t)
    else .ok ([], rawURL)

def getScheme (rawURL : GoString) : Except GoError (GoString × GoString) :=
  getSchemeLoop rawURL 0 rawURL

/-- Go `validOptionalPort`. -/
def validOptionalPort (port : GoString) : Bool :=
  match port with
  | [] => true
  | c :: t => c = 0x3A && t.all (fun b => 0x30 ≤ b.val ∧ b.val ≤ 0x39)

/-- Go `validUserinfo`. -/
def validUserinfo (s : GoString) : Bool :=
  s.all (fun r => (0x41 ≤ r.val ∧ r.val ≤ 0x5A) ∨ (0x61 ≤ r.val ∧ r.val ≤ 0x7A)
    ∨ (0x30 ≤ r.val ∧ r.val ≤ 0x39) ∨ r ∈ str "-._:~!$&\x27()*+,;=%@")

/-- Go `parseHost`. -/
def parseHost (host : GoString) : Except GoError GoString :=
  if strings.HasPrefix host [0x5B] then
    match strings.LastIndexByte host 0x5D with
    | none => .error (.New (str "missing \x27]\x27 in host"))
    | some i =>
      let colonPort := host.drop (i + 1)
      if !validOptionalPort colonPort then
        .error (.Quoted (str "invalid port ") colonPort (str " after host"))
      else
        match strings.Index (host.take i) (str "%25") with
        | some zone =>
          match unescape (host.take zone) encodeHost with
          | .error e => .error e
          | .ok host1 =>
            match unescape ((host.take i).drop zone) encodeZone with
            | .error e => .error e
            | .ok host2 =>
              match unescape (host.drop i) encodeHost with
              | .error e => .error e
              | .ok host3 => .ok (host1 ++ host2 ++ host3)
        | none => unescape host encodeHost
  else
    match strings.LastIndexByte host 0x3A with
    | some i =>
      let colonPort := host.drop i
      if !validOptionalPort colonPort then
        .error (.Quoted (str "invalid port ") colonPort (str " after host"))
      else unescape host encodeHost
    | none => unescape host encodeHost

/-- Go `parseAuthority`. -/
def parseAuthority (authority : GoString) : Except GoError (Option Userinfo × GoString) :=
  let i := strings.LastIndexByte authority 0x40
  let hostPart := match i with
    | none => authority
    | some i => authority.drop (i + 1)
  match parseHost hostPart with
  | .error e => .error e
  | .ok host =>
    match i with
    | none => .ok (none, host)
    | some i =>
      let userinfo := authority.take i
      if !validUserinfo userinfo then .error (.New (str "net/url: invalid userinfo"))
      else if !strings.ContainsByte userinfo 0x3A then
        match unescape userinfo encodeUserPassword with
        | .error e => .error e
        | .ok u => .ok (some ⟨u, [], false⟩, host)
      else
        let c := strings.Cut userinfo 0x3A
        match unescape c.1 encodeUserPassword with
        | .error e => .error e
        | .ok username =>
          match unescape c.2.1 encodeUserPassword with
          | .error e => .error e
          | .ok password => .ok (some ⟨username, password, true⟩, host)

/-- Go `(*URL).setPath`. -/
def URL.setPath (u : URL) (p : GoString) : Except GoError URL :=
  match unescape p encodePath with
  | .error e => .error e
  | .ok path =>
    if p = escape path encodePath then .ok { u with Path := path, RawPath := [] }
    else .ok { u with Path := path, RawPath := p }

/-- Go `(*URL).setFragment`. -/
def URL.setFragment (u : URL) (f : GoString) : Except GoError URL :=
  match unescape f encodeFragment with
  | .error e => .error e
  | .ok frag =>
    if f = escape frag encodeFragment then .ok { u with Fragment := frag, RawFragment := [] }
    else .ok { u with Fragment := frag, RawFragment := f }

/-- Go `parse(rawURL, false)`. -/
def parse (rawURL : GoString) : Except GoError URL :=
  if stringContainsCTLByte rawURL then
    .error (.New (str "net/url: invalid control character in URL"))
  else if rawURL = str "*" then .ok { Path := str "*" }
  else
    match getScheme rawURL with
    | .error e => .error e
    | .ok (scheme, rest0) =>
      let scheme := strings.ToLower scheme
      let forceQuery : Bool := strings.HasSuffix rest0 [0x3F] && strings.CountByte rest0 0x3F = 1
      let rest := if forceQuery then rest0.dropLast else (strings.Cut rest0 0x3F).1
      let rawQuery := if forceQuery then [] else (strings.Cut rest0 0x3F).2.1
      let u : URL := { Scheme := scheme, ForceQuery := forceQuery, RawQuery := rawQuery }
      if !strings.HasPrefix rest [0x2F] ∧ scheme ≠ [] then .ok { u with Opaque := rest }
      else if !strings.HasPrefix rest [0x2F]
          ∧ strings.ContainsByte (strings.Cut rest 0x2F).1 0x3A then
        .error (.New (str "first path segment in URL cannot contain colon"))
      else if (scheme ≠ [] ∨ !strings.HasPrefix rest (str "///"))
          ∧ strings.HasPrefix rest (str "//") then
        let a := rest.drop 2
        let authority := (strings.Cut a 0x2F).1
        let rest1 := if (strings.Cut a 0x2F).2.2 then 0x2F :: (strings.Cut a 0x2F).2.1 else []
        match parseAuthority authority with
        | .error e => .error e
        | .ok (user, host) => { u with User := user, Host := host }.setPath rest1
      else if scheme ≠ [] ∧ strings.HasPrefix rest [0x2F] then
        { u with OmitHost := true }.setPath rest
      else u.setPath rest

/-- Go `url.Parse`. -/
def Parse (rawURL : GoString) : Except GoError URL :=
  let c := strings.Cut rawURL 0x23
  match parse c.1 with
  | .error e => .error (.URLError (str "parse") c.1 e)
  | .ok u =>
    if c.2.1 = [] then .ok u
    else
      match u.setFragment c.2.1 with
      | .error e => .error (.URLError (str "parse") rawURL e)
      | .ok u1 => .ok u1

/-- Go `(*URL).Query`. -/
def URL.Query (u : URL) : Values := ParseQuery u.RawQuery

end url

/-! ## time -/

namespace time

/-- Go `time.Duration`: a count of nanoseconds. -/
abbrev Duration := Int

def Second : Duration := 1000000000

end time

/-! ## net/textproto, net/http -/

namespace textproto

/-- Go `validHeaderFieldByte`: the token bytes of RFC 7230. -/
def validHeaderFieldByte (c : Byte) : Bool :=
  decide ((0x30 ≤ c.val ∧ c.val ≤ 0x39) ∨ (0x61 ≤ c.val ∧ c.val ≤ 0x7A)
    ∨ (0x41 ≤ c.val ∧ c.val ≤ 0x5A) ∨ c ∈ str "!#$%&\x27*+-.^_\x60|~")

/-- Letter-case loop of Go `canonicalMIMEHeaderKey`; `upper` is the flag of the
same name. -/
def canonLoop : Bool → GoString → GoString
  | _, [] => []
  | upper, c :: t =>
    let c1 : Byte :=
      if upper ∧ 0x61 ≤ c.val ∧ c.val ≤ 0x7A then Fin.ofNat (c.val - 32)
      else if !upper ∧ 0x41 ≤ c.val ∧ c.val ≤ 0x5A then Fin.ofNat (c.val + 32)
      else c
    c1 :: canonLoop (c1 = 0x2D) t

/-- Go `canonicalMIMEHeaderKey` (the table of common headers only interns the
result). -/
def canonicalMIMEHeaderKey (a : GoString) : GoString :=
  if a.any (fun c => !validHeaderFieldByte c && c ≠ 0x20) then a
  else if a.any (fun c => !validHeaderFieldByte c) then a
  else canonLoop true a

/-- Quick check at the head of Go `CanonicalMIMEHeaderKey`; `s` is the whole key. -/
def quickLoop (s : GoString) : Bool → GoString → GoString
  | _, [] => s
  | upper, c :: t =>
    if !validHeaderFieldByte c then s
    else if upper ∧ 0x61 ≤ c.val ∧ c.val ≤ 0x7A then canonicalMIMEHeaderKey s
    else if !upper ∧ 0x41 ≤ c.val ∧ c.val ≤ 0x5A then canonicalMIMEHeaderKey s
    else quickLoop s (c = 0x2D) t

/-- Go `textproto.CanonicalMIMEHeaderKey`. -/
def CanonicalMIMEHeaderKey (s : GoString) : GoString := quickLoop s true s

end textproto

namespace http

def MethodGet : GoString := str "GET"

def MethodHead : GoString := str "HEAD"

def MethodPost : GoString := str "POST"

def MethodPut : GoString := str "PUT"

def MethodPatch : GoString := str "PATCH"

def MethodDelete : GoString := str "DELETE"

/-- Go `http.Header`, a `map[string][]string`. -/
abbrev Header := GoMap (List GoString)

/-- Go `Header.Set`. -/
def Header.Set (h : Header) (key value : GoString) : Header :=
  h.set (textproto.CanonicalMIMEHeaderKey key) [value]

/-- Go `Header.Values`. -/
def Header.Values (h : Header) (key : GoString) : List GoString :=
  (GoMap.index (some h) (textproto.CanonicalMIMEHeaderKey key)).getD []

/-- Go `http.Request`: the fields set by `NewRequest`.  `Body` is the content
the body reader yields, `none` standing for `http.NoBody`. -/
structure Request where
  Method : GoString
  URL : url.URL
  Header : Header
  Body : Option GoString
  ContentLength : Int
  Host : GoString
  deriving DecidableEq

/-- Go `validMethod`: a non-empty token. -/
def validMethod (method : GoString) : Bool :=
  decide (method.length > 0) && method.all textproto.validHeaderFieldByte

/-- Go `removeEmptyPort`. -/
def removeEmptyPort (host : GoString) : GoString :=
  let hasPort : Bool :=
    match strings.LastIndexByte host 0x3A, strings.LastIndexByte host 0x5D with
    | some i, some j => decide (i > j)
    | some _, none => true
    | none, _ => false
  if hasPort ∧ strings.HasSuffix host [0x3A] then host.dropLast else host

/-- Go `http.NewRequest(method, url, bytes.NewBuffer(body))`. -/
def NewRequest (method urlStr body : GoString) : Except GoError Request :=
  let method := if method = [] then str "GET" else method
  if !validMethod method then .error (.Quoted (str "net/http: invalid method ") method [])
  else
    match url.Parse urlStr with
    | .error e => .error e
    | .ok u =>
      let u := { u with Host := removeEmptyPort u.Host }
      .ok {
        Method := method
        URL := u
        Header := GoMap.make
        Body := if body.length = 0 then none else some body
        ContentLength := body.length
        Host := u.Host }

/-- Go `http.Client`: the field this package sets, and the identity of the
round tripper (`none` for nil, the default transport). -/
structure Client where
  Timeout : time.Duration
  Transport : Option Nat := none
  deriving DecidableEq, Repr

/-- Go `http.Response` as this package uses it: status code, headers, and the
outcome of `io.ReadAll(response.Body)` (the bytes, or the text of the read
error). -/
structure Response where
  StatusCode : Int
  Header : Option Header
  Body : Except GoString GoString

/-- Behaviour of `(*http.Client).Do` in the ambient network: a response, or
the text of the error. -/
abbrev Doer := Client → Request → Except GoString Response

end http

/-- The environment of one call of this package: the network, the visiting
orders of the call's `range` loops, and the printability tables of `strconv`
(which decide how `%q` writes a rune above U+00FF in an error text). -/
structure Env where
  Do : http.Doer
  order : RangeOrder
  isPrint : Nat → Bool

/-! ## Package simplehttp -/

def defaultTimeout : time.Duration := 10 * time.Second

structure HTTPClient where
  BaseURL : GoString
  Headers : Option (GoMap GoString)
  Data : Option (GoMap GoString)
  Params : Option (GoMap GoString)
  Client : Option http.Client

structure HTTPResponse where
  Body : GoString := []
  Code : Int := 0
  Headers : Option (GoMap (List GoString)) := none

/-- One call of `sendRequest`: the returned pair (`err = none` is the nil
error), what the call handed to the standard library on its way, and the
state of `*client` on return. -/
structure Call where
  resp : HTTPResponse
  err : Option GoString
  newRequestURL : Option GoString
  sent : Option http.Request
  client : HTTPClient

def New (baseURL : GoString) : HTTPClient :=
  { BaseURL := baseURL
    Headers := some GoMap.make
    Data := some GoMap.make
    Params := some GoMap.make
    Client := some { Timeout := defaultTimeout } }

/-- The method `SetTimeout`; `none` is the panic of the nil dereference. -/
def HTTPClient.SetTimeout (client : HTTPClient) (timeout : time.Duration) : Option HTTPClient :=
  match client.Client with
  | none => none
  | some c => some { client with Client := some { c with Timeout := timeout } }

def sendRequest (env : Env) (client : HTTPClient) (path method : GoString) : Call :=
  match client.Client with
  | none =>
    { resp := {}
      err := some (str "simplehttp: " ++ method ++ str " " ++ path ++ str ": http client is nil")
      newRequestURL := none, sent := none, client := client }
  | some httpClient =>
    -- create the request body, as appropriate
    match (if GoMap.len client.Data > 0 then json.Marshal client.Data else .ok []) with
    | .error err =>
      { resp := {}
        err := some (str "simplehttp: " ++ method ++ str " " ++ path
          ++ str ": marshaling request data: " ++ err.Error env.isPrint)
        newRequestURL := none, sent := none, client := client }
    | .ok requestData =>
      -- construct the request
      match http.NewRequest method (client.BaseURL ++ path) requestData with
      | .error err =>
        { resp := {}
          err := some (str "simplehttp: " ++ method ++ str " " ++ path
            ++ str ": creating request: " ++ err.Error env.isPrint)
          newRequestURL := some (client.BaseURL ++ path), sent := none, client := client }
      | .ok req =>
        let header :=
          (GoMap.range env.order 0 client.Headers).foldl (fun h kv => h.Set kv.1 kv.2) req.Header
        -- add query params, if any
        let q :=
          (GoMap.range env.order 1 client.Params).foldl (fun q kv => q.Add kv.1 kv.2)
            req.URL.Query
        let req := { req with Header := header, URL := { req.URL with RawQuery := q.Encode } }
        -- do :allthethings:
        match env.Do httpClient req with
        | .error err =>
          { resp := {}
            err := some (str "simplehttp: " ++ method ++ str " " ++ path ++ str ": " ++ err)
            newRequestURL := some (client.BaseURL ++ path), sent := some req, client := client }
        | .ok response =>
          match response.Body with
          | .error err =>
            { resp := {}
              err := some (str "simplehttp: " ++ method ++ str " " ++ path
                ++ str ": reading response body: " ++ err)
              newRequestURL := some (client.BaseURL ++ path), sent := some req, client := client }
          | .ok body =>
            let responseHeaders :=
              (GoMap.range env.order 2 response.Header).foldl (fun m kv => m.set kv.1 kv.2)
                GoMap.make
            { resp := { Body := body, Code := response.StatusCode, Headers := some responseHeaders }
              err := none
              newRequestURL := some (client.BaseURL ++ path), sent := some req, client := client }

def HTTPClient.Get (env : Env) (client : HTTPClient) (path : GoString) : Call :=
  sendRequest env client path http.MethodGet

def HTTPClient.Post (env : Env) (client : HTTPClient) (path : GoString) : Call :=
  sendRequest env client path http.MethodPost

def HTTPClient.Patch (env : Env) (client : HTTPClient) (path : GoString) : Call :=
  sendRequest env client path http.MethodPatch

def HTTPClient.Put (env : Env) (client : HTTPClient) (path : GoString) : Call :=
  sendRequest env client path http.MethodPut

def HTTPClient.Delete (env : Env) (client : HTTPClient) (path : GoString) : Call :=
  sendRequest env client path http.MethodDelete

def HTTPClient.Head (env : Env) (client : HTTPClient) (path : GoString) : Call :=
  sendRequest env client path http.MethodHead

/-! ## Concrete inputs used by the witnesses and counterexamples -/

/-- A client whose transport handle was set to nil. -/
def nilClient : HTTPClient := { New (str "https://example.com") with Client := none }

/-- The `range` loops visit the pairs in the order the map value lists them. -/
def listed : RangeOrder := { visit := fun _ l => l, perm := fun _ l => List.Perm.refl l }

/-- The `range` loops visit the pairs in the opposite order. -/
def reversed : RangeOrder :=
  { visit := fun _ l => l.reverse, perm := fun _ l => List.reverse_perm l }

/-- A network in which every request fails. -/
def refuse : Env :=
  { Do := fun _ _ => .error (str "connection refused"), order := listed
    isPrint := fun _ => true }

/-- The same network, with the `range` loops running the other way. -/
def refuseReversed : Env := { refuse with order := reversed }


/-! ## Auxiliary notions used in the statements -/

/-- The request `sendRequest` hands to the transport, given the request `req0`
returned by `http.NewRequest`: headers set from `Headers`, query re-encoded
with `Params` added, each in the visiting order of its loop. -/
def outgoing (o : RangeOrder) (client : HTTPClient) (req0 : http.Request) : http.Request :=
  { req0 with
    Header := (GoMap.range o 0 client.Headers).foldl (fun h kv => h.Set kv.1 kv.2) req0.Header
    URL := { req0.URL with
      RawQuery := url.Values.Encode
        ((GoMap.range o 1 client.Params).foldl (fun q kv => q.Add kv.1 kv.2)
          req0.URL.Query) } }

/-- The zero value of `HTTPResponse`. -/
def zeroResponse : HTTPResponse := { Body := [], Code := 0, Headers := none }

/-- A server that answers 429 with two `Set-Cookie` values and a JSON body. -/
def tooMany : Env :=
  { Do := fun _ _ =>
      .ok { StatusCode := 429
            Header := some (GoMap.ofList [(str "Set-Cookie", [str "a=1", str "b=2"])])
            Body := .ok (str "\x7b\"errMsg\":\"too many requests\"\x7d") }
    order := listed
    isPrint := fun _ => true }

/-- A server whose answer breaks off while the body is read. -/
def truncated : Env :=
  { Do := fun _ _ =>
      .ok { StatusCode := 200, Header := none, Body := .error (str "unexpected EOF") }
    order := listed
    isPrint := fun _ => true }

/-- A client with two header keys that differ only in letter case; the map
value lists `accept` first and `Accept` second. -/
def caseClash : HTTPClient :=
  { New (str "http://h") with
    Headers := some (GoMap.ofList [(str "Accept", str "2"), (str "accept", str "1")]) }

/-- A client with the two headers set in the `Head` test. -/
def headTestClient : HTTPClient :=
  { New (str "http://h") with
    Headers := some (GoMap.ofList
      [(str "accept", str "Application/JSON"), (str "Content-Type", str "Application/JSON")]) }

/-- Values of key `k` in a `url.Values`, as Go's `v[k]` gives them (no value
for an absent key). -/
def url.Values.Get (v : url.Values) (k : GoString) : List GoString :=
  (GoMap.index (some v) k).getD []

/-- One pair of a query string as `Values.Encode` writes it. -/
def url.encodePair (p : GoString × GoString) : GoString :=
  url.QueryEscape p.1 ++ [0x3D] ++ url.QueryEscape p.2

/-- The key/value pairs of a `url.Values` in the order `Values.Encode` writes
them: keys ascending, the values of a key in their order. -/
def url.Values.pairs (v : url.Values) : List (GoString × GoString) :=
  (List.insertionSort (· ≤ ·) v.keys).flatMap (fun k => (v.Get k).map (fun x => (k, x)))

/-- Values paired with key `k` in a list of pairs, in order. -/
def valuesOf (k : GoString) (l : List (GoString × GoString)) : List GoString :=
  (l.filter (fun p => p.1 = k)).map (fun p => p.2)

/-- The client of the test `SingleParam`. -/
def fooBar : HTTPClient :=
  { New (str "http://h") with Params := some (GoMap.ofList [(str "foo", str "bar")]) }

/-- The client of the test `MultipleParams`. -/
def abParams : HTTPClient :=
  { New (str "http://h") with
    Params := some (GoMap.ofList [(str "a", str "1"), (str "b", str "2")]) }

/-- A client with one query parameter whose key also occurs in the path used
with it. -/
def extraA : HTTPClient :=
  { New (str "http://h") with Params := some (GoMap.ofList [(str "a", str "2")]) }

/-- A client whose base URL already ends in a query string, with one query
parameter. -/
def queryInBase : HTTPClient :=
  { New (str "http://h?x=1") with Params := some (GoMap.ofList [(str "y", str "2")]) }

/-- The query string of a URL string: what stands between its first question
mark and its first number sign. -/
def queryOf (raw : GoString) : GoString :=
  (strings.Cut (strings.Cut raw 0x23).1 0x3F).2.1

/-- The client of the test `Post`: one body field. -/
def keyValue : HTTPClient :=
  { New (str "http://h") with Data := some (GoMap.ofList [(str "key", str "value")]) }

/-- A client whose single body field has a value that is not valid UTF-8 (the
one byte 0xFF). -/
def badUtf8 : HTTPClient :=
  { New (str "http://h") with Data := some (GoMap.ofList [(str "k", [0xFF])]) }

/-- The byte `canonLoop` writes for a byte whose lower-case form is `l`. -/
def textproto.canonByte (upper : Bool) (l : Byte) : Byte :=
  if upper ∧ 0x61 ≤ l.val ∧ l.val ≤ 0x7A then Fin.ofNat (l.val - 32) else l

/-- The loop `canonLoop` run on the lower-case form of a key. -/
def textproto.canonLower : Bool → GoString → GoString
  | _, [] => []
  | upper, l :: t =>
    textproto.canonByte upper l :: textproto.canonLower (textproto.canonByte upper l = 0x2D) t

/-! # Theorems -/

/-! ## Maps: copying an association list keeps every lookup -/

theorem foldl_insert_lookup {V : Type} (l : List (Sigma fun _ : GoString => V))
    (hl : l.NodupKeys) (acc : GoMap V) (k : GoString) :
    (l.foldl (fun a e => GoMap.set a e.1 e.2) acc).lookup k
      = (l.dlookup k <|> acc.lookup k) := by
  induction l generalizing acc with
  | nil => simp
  | cons e l ih =>
    obtain ⟨hnot, hl1⟩ := List.nodupKeys_cons.mp hl
    rw [List.foldl_cons, ih hl1]
    by_cases hk : k = e.1
    · subst hk
      have h0 : l.dlookup e.1 = none := List.dlookup_eq_none.mpr hnot
      cases e with
      | mk a b => simp [h0, GoMap.set, List.dlookup_cons_eq]
    · have h1 : (e :: l).dlookup k = l.dlookup k := by
        cases e with
        | mk a b => exact List.dlookup_cons_ne l ⟨a, b⟩ hk
      rw [h1]
      simp [GoMap.set, AList.lookup_insert_ne hk]

/-- A map built by assignments from pairs with distinct keys holds exactly
those pairs. -/
theorem foldl_set_lookup_iff {V : Type} (l : List (GoString × V))
    (hnd : (l.map Prod.fst).Nodup) (k : GoString) (v : V) :
    (l.foldl (fun a kv => GoMap.set a kv.1 kv.2) GoMap.make).lookup k = some v
      ↔ (k, v) ∈ l := by
  have hfold : l.foldl (fun a kv => GoMap.set a kv.1 kv.2) (GoMap.make : GoMap V)
      = (l.map (fun p => (⟨p.1, p.2⟩ : Sigma fun _ : GoString => V))).foldl
          (fun a e => GoMap.set a e.1 e.2) GoMap.make := by
    simp [List.foldl_map]
  have hnk : (l.map (fun p => (⟨p.1, p.2⟩ : Sigma fun _ : GoString => V))).NodupKeys := by
    simpa [List.NodupKeys, List.keys, List.map_map, Function.comp_def] using hnd
  rw [hfold, foldl_insert_lookup _ hnk]
  have hempty : (GoMap.make : GoMap V).lookup k = none := by simp [GoMap.make]
  rw [hempty]
  simp only [Option.orElse_none, Option.or_none, ← Option.mem_def]
  rw [List.mem_dlookup_iff hnk]
  simp only [List.mem_map]
  constructor
  · rintro ⟨p, hp, heq⟩
    cases p with
    | mk a b =>
      simp only [Sigma.mk.inj_iff, heq_eq_eq] at heq
      obtain ⟨rfl, rfl⟩ := heq
      exact hp
  · intro h
    exact ⟨(k, v), h, rfl⟩

/-- The pairs of a map are the pairs `(k, m[k])`. -/
theorem mem_pairs_iff {V : Type} (m : Option (GoMap V)) (k : GoString) (v : V) :
    (k, v) ∈ GoMap.pairs m ↔ GoMap.index m k = some v := by
  cases m with
  | none => simp [GoMap.pairs, GoMap.index]
  | some m =>
    simp only [GoMap.pairs, GoMap.index, List.mem_map]
    constructor
    · rintro ⟨e, he, heq⟩
      simp only [Prod.mk.injEq] at heq
      obtain ⟨rfl, rfl⟩ := heq
      exact AList.mem_lookup_iff.mpr (by cases e; exact he)
    · intro hv
      exact ⟨⟨k, v⟩, AList.mem_lookup_iff.mp hv, rfl⟩

theorem pairs_keys_nodup {V : Type} (m : Option (GoMap V)) :
    ((GoMap.pairs m).map Prod.fst).Nodup := by
  cases m with
  | none => simp [GoMap.pairs]
  | some m =>
    simp only [GoMap.pairs, List.map_map]
    exact m.nodupKeys

/-- A `range` loop visits the pairs of the map, each once. -/
theorem range_perm {V : Type} (o : RangeOrder) (loop : Nat) (m : Option (GoMap V)) :
    (GoMap.range o loop m).Perm (GoMap.pairs m) :=
  o.perm loop _

theorem range_keys_nodup {V : Type} (o : RangeOrder) (loop : Nat) (m : Option (GoMap V)) :
    ((GoMap.range o loop m).map Prod.fst).Nodup :=
  (((range_perm o loop m).map Prod.fst).nodup_iff).mpr (pairs_keys_nodup m)

theorem mem_range_iff {V : Type} (o : RangeOrder) (loop : Nat) (m : Option (GoMap V))
    (k : GoString) (v : V) :
    (k, v) ∈ GoMap.range o loop m ↔ GoMap.index m k = some v := by
  rw [(range_perm o loop m).mem_iff, mem_pairs_iff]

/-- Copying a map pair by pair, in whatever order the loop visits them, gives
a map with the same entries. -/
theorem range_foldl_set_lookup {V : Type} (o : RangeOrder) (loop : Nat)
    (m : Option (GoMap V)) (k : GoString) :
    ((GoMap.range o loop m).foldl (fun a kv => GoMap.set a kv.1 kv.2) GoMap.make).lookup k
      = GoMap.index m k := by
  apply Option.ext
  intro v
  rw [Option.mem_def, Option.mem_def,
    foldl_set_lookup_iff _ (range_keys_nodup o loop m), mem_range_iff]

/-! ## The shape of an error message -/

theorem errmsg_contains (method path tail : GoString) :
    method <:+: str "simplehttp: " ++ method ++ str " " ++ path ++ tail
      ∧ path <:+: str "simplehttp: " ++ method ++ str " " ++ path ++ tail :=
  ⟨⟨str "simplehttp: ", str " " ++ path ++ tail, by simp [List.append_assoc]⟩,
    ⟨str "simplehttp: " ++ method ++ str " ", tail, by simp [List.append_assoc]⟩⟩

theorem marshal_ok (m : Option (GoMap GoString)) : ∃ b, json.Marshal m = .ok b := by
  cases m with
  | none => exact ⟨_, rfl⟩
  | some m => exact ⟨_, rfl⟩

theorem sendRequest_nil (env : Env) (client : HTTPClient) (path method : GoString)
    (h : client.Client = none) :
    sendRequest env client path method =
      { resp := { Body := [], Code := 0, Headers := none }
        err := some (str "simplehttp: " ++ method ++ str " " ++ path ++ str ": http client is nil")
        newRequestURL := none, sent := none, client := client } := by
  unfold sendRequest
  rw [h]

/-- C1: with a nil transport handle every verb method (and the core send
operation with any method) returns the zero-value response and an error whose
message contains "http client is nil"; nothing is handed to request
construction or to the transport, and the outcome does not depend on the
transport at all. -/
theorem C1_nil_client_fails_before_io (env : Env) (client : HTTPClient) (path : GoString)
    (h : client.Client = none) :
    (∀ verb ∈ [HTTPClient.Get, HTTPClient.Post, HTTPClient.Patch, HTTPClient.Put,
        HTTPClient.Delete, HTTPClient.Head],
      (verb env client path).resp = { Body := [], Code := 0, Headers := none }
      ∧ (∃ msg, (verb env client path).err = some msg ∧ str "http client is nil" <:+: msg)
      ∧ (verb env client path).newRequestURL = none
      ∧ (verb env client path).sent = none
      ∧ ∀ env2 : Env, verb env2 client path = verb env client path)
    ∧ ∀ method,
      (sendRequest env client path method).resp = { Body := [], Code := 0, Headers := none }
      ∧ (∃ msg, (sendRequest env client path method).err = some msg
          ∧ str "http client is nil" <:+: msg)
      ∧ (sendRequest env client path method).newRequestURL = none
      ∧ (sendRequest env client path method).sent = none
      ∧ ∀ env2 : Env, sendRequest env2 client path method
          = sendRequest env client path method := by
  have key : ∀ method,
      (sendRequest env client path method).resp = { Body := [], Code := 0, Headers := none }
      ∧ (∃ msg, (sendRequest env client path method).err = some msg
          ∧ str "http client is nil" <:+: msg)
      ∧ (sendRequest env client path method).newRequestURL = none
      ∧ (sendRequest env client path method).sent = none
      ∧ ∀ env2 : Env, sendRequest env2 client path method
          = sendRequest env client path method := by
    intro method
    refine ⟨by rw [sendRequest_nil env client path method h], ?_,
      by rw [sendRequest_nil env client path method h],
      by rw [sendRequest_nil env client path method h], ?_⟩
    · refine ⟨_, by rw [sendRequest_nil env client path method h], ?_⟩
      exact ⟨str "simplehttp: " ++ method ++ str " " ++ path ++ str ": ", [], by
        simp [List.append_assoc, str]⟩
    · intro env2
      rw [sendRequest_nil env client path method h, sendRequest_nil env2 client path method h]
  refine ⟨?_, key⟩
  intro verb hverb
  simp only [List.mem_cons, List.mem_singleton, List.not_mem_nil, or_false] at hverb
  rcases hverb with rfl | rfl | rfl | rfl | rfl | rfl
  · exact key http.MethodGet
  · exact key http.MethodPost
  · exact key http.MethodPatch
  · exact key http.MethodPut
  · exact key http.MethodDelete
  · exact key http.MethodHead

theorem C1_nil_client_fails_before_io_witness :
    nilClient.Client = none
    ∧ (nilClient.Get refuse (str "/")).resp = { Body := [], Code := 0, Headers := none }
    ∧ (∃ msg, (nilClient.Get refuse (str "/")).err = some msg
        ∧ str "http client is nil" <:+: msg)
    ∧ (nilClient.Get refuse (str "/")).sent = none :=
  have h := (C1_nil_client_fails_before_io refuse nilClient (str "/") rfl).2 http.MethodGet
  ⟨rfl, h.1, h.2.1, h.2.2.2.1⟩

/-! ## Case analysis of one call -/

/-- Request body computed by `sendRequest`: the marshaled `Data` when the map
is non-empty, no bytes otherwise. -/
theorem requestData_ok (client : HTTPClient) :
    ∃ b, (if GoMap.len client.Data > 0 then json.Marshal client.Data else .ok [])
      = (Except.ok b : Except GoError GoString) := by
  split
  · exact marshal_ok _
  · exact ⟨_, rfl⟩

/-- The call after a successful request construction, as a function of what
the transport answers. -/
theorem sendRequest_built (env : Env) (client : HTTPClient) (path method : GoString)
    (hc : http.Client) (requestData : GoString) (req0 : http.Request)
    (hhc : client.Client = some hc)
    (hrd : (if GoMap.len client.Data > 0 then json.Marshal client.Data else .ok [])
          = (Except.ok requestData : Except GoError GoString))
    (hreq0 : http.NewRequest method (client.BaseURL ++ path) requestData = .ok req0) :
    sendRequest env client path method =
      match env.Do hc (outgoing env.order client req0) with
      | .error err =>
        { resp := zeroResponse
          err := some (str "simplehttp: " ++ method ++ str " " ++ path ++ str ": " ++ err)
          newRequestURL := some (client.BaseURL ++ path)
          sent := some (outgoing env.order client req0), client := client }
      | .ok response =>
        match response.Body with
        | .error err =>
          { resp := zeroResponse
            err := some (str "simplehttp: " ++ method ++ str " " ++ path
              ++ str ": reading response body: " ++ err)
            newRequestURL := some (client.BaseURL ++ path)
            sent := some (outgoing env.order client req0), client := client }
        | .ok body =>
          { resp := { Body := body, Code := response.StatusCode
                      Headers := some ((GoMap.range env.order 2 response.Header).foldl
                        (fun m kv => m.set kv.1 kv.2) GoMap.make) }
            err := none
            newRequestURL := some (client.BaseURL ++ path)
            sent := some (outgoing env.order client req0), client := client } := by
  unfold sendRequest
  simp only [hhc, hrd, hreq0]
  rfl

/-- The call when request construction fails. -/
theorem sendRequest_newRequest_error (env : Env) (client : HTTPClient)
    (path method : GoString) (hc : http.Client) (requestData : GoString) (e : GoError)
    (hhc : client.Client = some hc)
    (hrd : (if GoMap.len client.Data > 0 then json.Marshal client.Data else .ok [])
          = (Except.ok requestData : Except GoError GoString))
    (hreq0 : http.NewRequest method (client.BaseURL ++ path) requestData = .error e) :
    sendRequest env client path method =
      { resp := zeroResponse
        err := some (str "simplehttp: " ++ method ++ str " " ++ path
          ++ str ": creating request: " ++ e.Error env.isPrint)
        newRequestURL := some (client.BaseURL ++ path), sent := none, client := client } := by
  unfold sendRequest
  simp only [hhc, hrd, hreq0]
  rfl

/-- A call that reached the transport: the handle is present, request
construction succeeded, and the request sent is the constructed one with the
headers set and the query re-encoded. -/
theorem sendRequest_sent (env : Env) (client : HTTPClient) (path method : GoString)
    (req : http.Request) (h : (sendRequest env client path method).sent = some req) :
    ∃ hc requestData req0,
      client.Client = some hc
      ∧ (if GoMap.len client.Data > 0 then json.Marshal client.Data else .ok [])
          = (Except.ok requestData : Except GoError GoString)
      ∧ http.NewRequest method (client.BaseURL ++ path) requestData = .ok req0
      ∧ req = outgoing env.order client req0 := by
  cases hhc : client.Client with
  | none => rw [sendRequest_nil env client path method hhc] at h; simp at h
  | some hc =>
    obtain ⟨requestData, hrd⟩ := requestData_ok client
    cases hreq0 : http.NewRequest method (client.BaseURL ++ path) requestData with
    | error e =>
      rw [sendRequest_newRequest_error env client path method hc requestData e hhc hrd hreq0] at h
      simp at h
    | ok req0 =>
      refine ⟨hc, requestData, req0, rfl, hrd, hreq0, ?_⟩
      rw [sendRequest_built env client path method hc requestData req0 hhc hrd hreq0] at h
      cases hdo : env.Do hc (outgoing env.order client req0) with
      | error err => rw [hdo] at h; simpa using h.symm
      | ok response =>
        rw [hdo] at h
        cases hb : response.Body with
        | error err => simp only [hb] at h; simpa using h.symm
        | ok body => simp only [hb] at h; simpa using h.symm

/-- C6: whenever the transport answers the request sent with a response whose
body reads completely, whatever the status code, the call returns a nil error,
the body as text, the status code, and a non-nil header map with exactly the
response's header names, each with the same sequence of values. -/
theorem C6_response_normalised (env : Env) (client : HTTPClient) (path method : GoString)
    (hc : http.Client) (req : http.Request) (response : http.Response) (body : GoString)
    (hhc : client.Client = some hc)
    (hsent : (sendRequest env client path method).sent = some req)
    (hdo : env.Do hc req = .ok response)
    (hbody : response.Body = .ok body) :
    (sendRequest env client path method).err = none
    ∧ (sendRequest env client path method).resp.Body = body
    ∧ (sendRequest env client path method).resp.Code = response.StatusCode
    ∧ ∃ hdrs, (sendRequest env client path method).resp.Headers = some hdrs
        ∧ ∀ k, hdrs.lookup k = GoMap.index response.Header k := by
  obtain ⟨hc1, requestData, req0, hhc1, hrd, hreq0, hreq⟩ :=
    sendRequest_sent env client path method req hsent
  have hcc : hc1 = hc := by rw [hhc] at hhc1; exact (Option.some.inj hhc1).symm
  subst hcc
  rw [sendRequest_built env client path method hc1 requestData req0 hhc hrd hreq0]
  rw [← hreq, hdo]
  simp only [hbody, true_and]
  exact ⟨_, rfl, fun k => range_foldl_set_lookup env.order 2 response.Header k⟩

theorem C6_response_normalised_witness :
    (New (str "https://example.com")).Client = some { Timeout := defaultTimeout }
    ∧ (sendRequest tooMany (New (str "https://example.com")) (str "/too-many")
        http.MethodGet).err = none
    ∧ (sendRequest tooMany (New (str "https://example.com")) (str "/too-many")
        http.MethodGet).resp.Body = str "\x7b\"errMsg\":\"too many requests\"\x7d"
    ∧ (sendRequest tooMany (New (str "https://example.com")) (str "/too-many")
        http.MethodGet).resp.Code = 429 :=
  have h := C6_response_normalised tooMany (New (str "https://example.com")) (str "/too-many")
    http.MethodGet { Timeout := defaultTimeout } _ _ _ rfl rfl rfl rfl
  ⟨rfl, h.1, h.2.1, h.2.2.1⟩

/-- C7: whenever the call returns a non-nil error, the response returned with
it is the zero value and the message contains the method and the path given
to the call; and when the transport fails on the request sent, the call
returns an error (wrapping the transport's) and the zero value, never a
response. -/
theorem C7_error_zero_response_and_context (env : Env) (client : HTTPClient)
    (path method : GoString) :
    (∀ msg, (sendRequest env client path method).err = some msg →
      (sendRequest env client path method).resp = zeroResponse
      ∧ method <:+: msg ∧ path <:+: msg)
    ∧ (∀ hc req e, client.Client = some hc →
        (sendRequest env client path method).sent = some req → env.Do hc req = .error e →
        (sendRequest env client path method).err
            = some (str "simplehttp: " ++ method ++ str " " ++ path ++ str ": " ++ e)
        ∧ (sendRequest env client path method).resp = zeroResponse) := by
  constructor
  · intro msg hmsg
    cases hhc : client.Client with
    | none =>
      rw [sendRequest_nil env client path method hhc] at hmsg ⊢
      simp only [Option.some.injEq] at hmsg
      subst hmsg
      exact ⟨rfl, errmsg_contains method path _⟩
    | some hc =>
      obtain ⟨requestData, hrd⟩ := requestData_ok client
      cases hreq0 : http.NewRequest method (client.BaseURL ++ path) requestData with
      | error e =>
        rw [sendRequest_newRequest_error env client path method hc requestData e hhc hrd hreq0]
          at hmsg ⊢
        simp only [Option.some.injEq] at hmsg
        subst hmsg
        refine ⟨rfl, ?_⟩
        have := errmsg_contains method path (str ": creating request: " ++ e.Error env.isPrint)
        simpa [List.append_assoc] using this
      | ok req0 =>
        rw [sendRequest_built env client path method hc requestData req0 hhc hrd hreq0]
          at hmsg ⊢
        cases hdo : env.Do hc (outgoing env.order client req0) with
        | error err =>
          simp only [hdo, Option.some.injEq] at hmsg ⊢
          subst hmsg
          refine ⟨trivial, ?_⟩
          have := errmsg_contains method path (str ": " ++ err)
          simpa [List.append_assoc] using this
        | ok response =>
          cases hb : response.Body with
          | error err =>
            simp only [hdo, hb, Option.some.injEq] at hmsg ⊢
            subst hmsg
            refine ⟨trivial, ?_⟩
            have := errmsg_contains method path (str ": reading response body: " ++ err)
            simpa [List.append_assoc] using this
          | ok body =>
            simp only [hdo, hb] at hmsg
            simp at hmsg
  · intro hc req e hhc hsent hdo
    obtain ⟨hc1, requestData, req0, hhc1, hrd, hreq0, hreq⟩ :=
      sendRequest_sent env client path method req hsent
    have hcc : hc1 = hc := by rw [hhc] at hhc1; exact (Option.some.inj hhc1).symm
    subst hcc
    rw [sendRequest_built env client path method hc1 requestData req0 hhc hrd hreq0]
    rw [← hreq, hdo]
    exact ⟨rfl, rfl⟩

/-- C8: each verb method is the core send operation with its method token,
and the six tokens are pairwise distinct. -/
theorem C8_verbs_are_sendRequest :
    (∀ (env : Env) (client : HTTPClient) (path : GoString),
      client.Get env path = sendRequest env client path (str "GET")
      ∧ client.Post env path = sendRequest env client path (str "POST")
      ∧ client.Patch env path = sendRequest env client path (str "PATCH")
      ∧ client.Put env path = sendRequest env client path (str "PUT")
      ∧ client.Delete env path = sendRequest env client path (str "DELETE")
      ∧ client.Head env path = sendRequest env client path (str "HEAD"))
    ∧ [str "GET", str "POST", str "PATCH", str "PUT", str "DELETE", str "HEAD"].Nodup :=
  ⟨fun _ _ _ => ⟨rfl, rfl, rfl, rfl, rfl, rfl⟩, by decide⟩

/-- C10: `New(s)` has base URL `s`, three non-nil empty maps, and a transport
handle whose timeout is 10 seconds (10 000 000 000 ns). -/
theorem C10_new_client (s : GoString) :
    (New s).BaseURL = s
    ∧ (New s).Headers = some GoMap.make ∧ GoMap.len (New s).Headers = 0
    ∧ (New s).Data = some GoMap.make ∧ GoMap.len (New s).Data = 0
    ∧ (New s).Params = some GoMap.make ∧ GoMap.len (New s).Params = 0
    ∧ ∃ c, (New s).Client = some c ∧ c.Timeout = 10 * time.Second
        ∧ c.Timeout = 10000000000 :=
  ⟨rfl, rfl, rfl, rfl, rfl, rfl, rfl, _, rfl, rfl, by decide⟩

theorem C7_error_zero_response_and_context_witness :
    (sendRequest truncated (New (str "https://example.com")) (str "/x") http.MethodGet).err
        = some (str "simplehttp: GET /x: reading response body: unexpected EOF")
    ∧ ((sendRequest truncated (New (str "https://example.com")) (str "/x")
          http.MethodGet).resp = zeroResponse
        ∧ http.MethodGet <:+: str "simplehttp: GET /x: reading response body: unexpected EOF"
        ∧ str "/x" <:+: str "simplehttp: GET /x: reading response body: unexpected EOF")
    ∧ ((sendRequest refuse (New (str "https://example.com")) (str "/x") http.MethodGet).err
          = some (str "simplehttp: " ++ http.MethodGet ++ str " " ++ str "/x" ++ str ": "
              ++ str "connection refused")
        ∧ (sendRequest refuse (New (str "https://example.com")) (str "/x")
            http.MethodGet).resp = zeroResponse) :=
  ⟨rfl,
    (C7_error_zero_response_and_context truncated (New (str "https://example.com")) (str "/x")
      http.MethodGet).1 _ rfl,
    (C7_error_zero_response_and_context refuse (New (str "https://example.com")) (str "/x")
      http.MethodGet).2 { Timeout := defaultTimeout } _ (str "connection refused") rfl rfl rfl⟩

/-! ## Request headers -/

theorem header_set_lookup_self (h : http.Header) (k v : GoString) :
    (h.Set k v).lookup (textproto.CanonicalMIMEHeaderKey k) = some [v] := by
  simp [http.Header.Set, GoMap.set]

theorem header_set_lookup_other (h : http.Header) (k v name : GoString)
    (hne : name ≠ textproto.CanonicalMIMEHeaderKey k) :
    (h.Set k v).lookup name = h.lookup name := by
  simp [http.Header.Set, GoMap.set, AList.lookup_insert_ne hne]

/-- Setting headers whose canonical names all differ from `name` leaves the
entry of `name` as it was. -/
theorem foldl_set_lookup_absent (l : List (GoString × GoString)) (h0 : http.Header)
    (name : GoString) (habs : ∀ kv ∈ l, textproto.CanonicalMIMEHeaderKey kv.1 ≠ name) :
    (l.foldl (fun h kv => h.Set kv.1 kv.2) h0).lookup name = h0.lookup name := by
  induction l generalizing h0 with
  | nil => rfl
  | cons kv l ih =>
    rw [List.foldl_cons, ih _ (fun x hx => habs x (List.mem_cons_of_mem _ hx))]
    exact header_set_lookup_other h0 kv.1 kv.2 name
      (fun hc => habs kv (List.mem_cons_self _ _) hc.symm)

/-- Setting headers with pairwise distinct canonical names leaves every one of
them with its own value. -/
theorem foldl_set_lookup_present (l : List (GoString × GoString)) (h0 : http.Header)
    (hnd : (l.map (fun kv => textproto.CanonicalMIMEHeaderKey kv.1)).Nodup)
    (kv : GoString × GoString) (hmem : kv ∈ l) :
    (l.foldl (fun h kv => h.Set kv.1 kv.2) h0).lookup
      (textproto.CanonicalMIMEHeaderKey kv.1) = some [kv.2] := by
  induction l generalizing h0 with
  | nil => simp at hmem
  | cons x l ih =>
    rw [List.map_cons, List.nodup_cons] at hnd
    rw [List.foldl_cons]
    rcases List.mem_cons.mp hmem with rfl | hin
    · rw [foldl_set_lookup_absent]
      · exact header_set_lookup_self h0 kv.1 kv.2
      · intro y hy hc
        exact hnd.1 (hc ▸ List.mem_map_of_mem (fun kv => textproto.CanonicalMIMEHeaderKey kv.1) hy)
    · exact ih _ hnd.2 hin

/-- With pairwise distinct canonical names the headers set do not depend on
the order of the entries. -/
theorem foldl_set_lookup_perm (l1 l2 : List (GoString × GoString)) (h0 : http.Header)
    (hnd : (l1.map (fun kv => textproto.CanonicalMIMEHeaderKey kv.1)).Nodup)
    (hperm : l1.Perm l2) (name : GoString) :
    (l1.foldl (fun h kv => h.Set kv.1 kv.2) h0).lookup name
      = (l2.foldl (fun h kv => h.Set kv.1 kv.2) h0).lookup name := by
  have hnd2 : (l2.map (fun kv => textproto.CanonicalMIMEHeaderKey kv.1)).Nodup :=
    (List.Perm.nodup_iff (List.Perm.map _ hperm)).mp hnd
  by_cases hex : ∃ kv ∈ l1, textproto.CanonicalMIMEHeaderKey kv.1 = name
  · obtain ⟨kv, hmem, hname⟩ := hex
    rw [← hname, foldl_set_lookup_present l1 h0 hnd kv hmem,
      foldl_set_lookup_present l2 h0 hnd2 kv (hperm.mem_iff.mp hmem)]
  · have habs1 : ∀ kv ∈ l1, textproto.CanonicalMIMEHeaderKey kv.1 ≠ name :=
      fun kv hmem hc => hex ⟨kv, hmem, hc⟩
    have habs2 : ∀ kv ∈ l2, textproto.CanonicalMIMEHeaderKey kv.1 ≠ name :=
      fun kv hmem hc => hex ⟨kv, hperm.mem_iff.mpr hmem, hc⟩
    rw [foldl_set_lookup_absent l1 h0 name habs1, foldl_set_lookup_absent l2 h0 name habs2]

/-- A successful `http.NewRequest`: the URL parsed, and the request returned. -/
theorem newRequest_ok (method urlStr body : GoString) (req0 : http.Request)
    (h : http.NewRequest method urlStr body = .ok req0) :
    ∃ u, url.Parse urlStr = .ok u
      ∧ req0 = { Method := if method = [] then str "GET" else method
                 URL := { u with Host := http.removeEmptyPort u.Host }
                 Header := GoMap.make
                 Body := if body.length = 0 then none else some body
                 ContentLength := body.length
                 Host := http.removeEmptyPort u.Host } := by
  unfold http.NewRequest at h
  simp only at h
  generalize (if method = [] then str "GET" else method) = m at h ⊢
  split at h
  · simp at h
  · cases hu : url.Parse urlStr with
    | error e => simp [hu] at h
    | ok u =>
      simp only [hu, Except.ok.injEq] at h
      exact ⟨u, rfl, h.symm⟩

/-- The request `http.NewRequest` returns has no header. -/
theorem newRequest_header (method urlStr body : GoString) (req0 : http.Request)
    (h : http.NewRequest method urlStr body = .ok req0) : req0.Header = GoMap.make := by
  obtain ⟨u, _, rfl⟩ := newRequest_ok method urlStr body req0 h
  rfl

/-! ## Header names: letter case -/

set_option maxRecDepth 100000 in

/-- The byte written by the letter-case loop depends on the byte read only
through its lower-case form, and so does being a header field byte. -/
theorem canonByte_spec : ∀ (upper : Bool) (c : Byte),
    (if upper ∧ 0x61 ≤ c.val ∧ c.val ≤ 0x7A then (Fin.ofNat (c.val - 32) : Byte)
      else if !upper ∧ 0x41 ≤ c.val ∧ c.val ≤ 0x5A then Fin.ofNat (c.val + 32)
      else c)
      = textproto.canonByte upper
          (if 0x41 ≤ c.val ∧ c.val ≤ 0x5A then Fin.ofNat (c.val + 32) else c)
    ∧ textproto.validHeaderFieldByte
          (if 0x41 ≤ c.val ∧ c.val ≤ 0x5A then Fin.ofNat (c.val + 32) else c)
        = textproto.validHeaderFieldByte c := by
  decide

theorem canonLoop_eq_canonLower (upper : Bool) (s : GoString) :
    textproto.canonLoop upper s = textproto.canonLower upper (strings.ToLower s) := by
  induction s generalizing upper with
  | nil => rfl
  | cons c t ih =>
    simp only [textproto.canonLoop, strings.ToLower, List.map_cons, textproto.canonLower]
    rw [(canonByte_spec upper c).1]
    congr 1
    exact ih _

theorem all_valid_toLower (s : GoString) :
    (strings.ToLower s).all textproto.validHeaderFieldByte
      = s.all textproto.validHeaderFieldByte := by
  induction s with
  | nil => rfl
  | cons c t ih =>
    simp only [strings.ToLower, List.map_cons, List.all_cons] at ih ⊢
    rw [(canonByte_spec true c).2, ih]

theorem canonicalMIMEHeaderKey_eq (s : GoString) :
    textproto.canonicalMIMEHeaderKey s
      = if s.all textproto.validHeaderFieldByte then textproto.canonLoop true s else s := by
  unfold textproto.canonicalMIMEHeaderKey
  by_cases h : s.all textproto.validHeaderFieldByte = true
  · have h1 : s.any (fun c => !textproto.validHeaderFieldByte c && decide (c ≠ 0x20)) = false := by
      simp only [List.any_eq_false, Bool.and_eq_true, Bool.not_eq_true', decide_eq_true_eq,
        not_and]
      intro x hx hv
      rw [List.all_eq_true] at h
      rw [h x hx] at hv
      exact absurd hv (by simp)
    have h2 : s.any (fun c => !textproto.validHeaderFieldByte c) = false := by
      simp only [List.any_eq_false, Bool.not_eq_true', Bool.not_eq_false]
      rw [List.all_eq_true] at h
      exact h
    simp only [h1, h2, h, Bool.false_eq_true, if_false, if_true]
  · have h2 : s.any (fun c => !textproto.validHeaderFieldByte c) = true := by
      simp only [List.all_eq_true, not_forall] at h
      obtain ⟨x, hx, hv⟩ := h
      exact List.any_eq_true.mpr ⟨x, hx, by simpa using hv⟩
    simp only [h2, if_true, h]
    split <;> rfl

/-- The quick check followed from a point where the key read so far is
already in canonical form. -/
theorem quickLoop_eq (pre t : GoString) (upper : Bool)
    (hpre : pre.all textproto.validHeaderFieldByte = true)
    (hcanon : ∀ t2, textproto.canonLoop true (pre ++ t2) = pre ++ textproto.canonLoop upper t2) :
    textproto.quickLoop (pre ++ t) upper t
      = if t.all textproto.validHeaderFieldByte then pre ++ textproto.canonLoop upper t
        else pre ++ t := by
  induction t generalizing pre upper with
  | nil => simp [textproto.quickLoop, textproto.canonLoop]
  | cons c t ih =>
    have hkey : textproto.canonicalMIMEHeaderKey (pre ++ c :: t)
        = if (c :: t).all textproto.validHeaderFieldByte
            then pre ++ textproto.canonLoop upper (c :: t) else pre ++ c :: t := by
      rw [canonicalMIMEHeaderKey_eq, List.all_append, hpre, Bool.true_and, hcanon]
    unfold textproto.quickLoop
    by_cases hv : textproto.validHeaderFieldByte c = true
    · simp only [hv, Bool.not_true, Bool.false_eq_true, if_false]
      split
      · exact hkey
      · rename_i h1
        split
        · exact hkey
        · rename_i h2
          have hc1 : textproto.canonLoop upper (c :: t)
              = c :: textproto.canonLoop (c = 0x2D) t := by
            simp only [textproto.canonLoop]
            rw [if_neg h1, if_neg h2]
          have := ih (pre ++ [c]) (decide (c = 0x2D)) (by simp [List.all_append, hpre, hv])
            (by
              intro t2
              rw [List.append_assoc, List.singleton_append, hcanon]
              simp only [textproto.canonLoop]
              rw [if_neg h1, if_neg h2]
              simp)
          rw [List.append_assoc, List.singleton_append] at this
          rw [this, hc1]
          simp [List.all_cons, hv]
    · simp [hv]

/-- The canonical form of a header name: letter case normalised when every
byte is a header field byte, the name itself otherwise. -/
theorem CanonicalMIMEHeaderKey_eq (s : GoString) :
    textproto.CanonicalMIMEHeaderKey s
      = if s.all textproto.validHeaderFieldByte then textproto.canonLoop true s else s := by
  have := quickLoop_eq [] s true rfl (fun t2 => rfl)
  simpa [textproto.CanonicalMIMEHeaderKey] using this

/-- Two names made of header field bytes that differ only in letter case have
the same canonical form. -/
theorem canonical_case_insensitive (k k2 : GoString)
    (hvalid : k.all textproto.validHeaderFieldByte = true)
    (hcase : strings.ToLower k2 = strings.ToLower k) :
    textproto.CanonicalMIMEHeaderKey k2 = textproto.CanonicalMIMEHeaderKey k := by
  have hvalid2 : k2.all textproto.validHeaderFieldByte = true := by
    rw [← all_valid_toLower, hcase, all_valid_toLower, hvalid]
  rw [CanonicalMIMEHeaderKey_eq, CanonicalMIMEHeaderKey_eq, hvalid, hvalid2, if_pos rfl,
    if_pos rfl, canonLoop_eq_canonLower, canonLoop_eq_canonLower, hcase]

/-! ## Percent-encoding of query components -/

set_option maxRecDepth 100000 in

/-- A byte that `QueryEscape` leaves as it is is none of the bytes that
structure a query string. -/
theorem unescaped_byte_plain : ∀ c : Byte, url.shouldEscape c url.encoding.encodeQueryComponent = false →
    c ≠ 0x25 ∧ c ≠ 0x2B ∧ c ≠ 0x26 ∧ c ≠ 0x3D ∧ c ≠ 0x3B ∧ c ≠ 0x20 := by
  decide

set_option maxRecDepth 100000 in

/-- The two digits written for an escaped byte are hexadecimal digits that
give the byte back, and none of them structures a query string. -/
theorem hex_digits_roundtrip : ∀ c : Byte,
    url.ishex (url.upperhex.getD (c.val / 16) 0) = true
    ∧ url.ishex (url.upperhex.getD (c.val % 16) 0) = true
    ∧ (Fin.ofNat (url.unhex (url.upperhex.getD (c.val / 16) 0) * 16
        + url.unhex (url.upperhex.getD (c.val % 16) 0)) : Byte) = c
    ∧ url.upperhex.getD (c.val / 16) 0 ∉ [(0x26 : Byte), 0x3D, 0x3B]
    ∧ url.upperhex.getD (c.val % 16) 0 ∉ [(0x26 : Byte), 0x3D, 0x3B] := by
  decide

/-- No byte written by `QueryEscape` is an ampersand, an equals sign or a
semicolon. -/
theorem queryEscape_plain (s : GoString) :
    ∀ x ∈ url.QueryEscape s, x ≠ 0x26 ∧ x ≠ 0x3D ∧ x ≠ 0x3B := by
  induction s with
  | nil => intro x hx; simp [url.QueryEscape, url.escape] at hx
  | cons c t ih =>
    intro x hx
    unfold url.QueryEscape url.escape at hx
    split at hx
    · rcases List.mem_cons.mp hx with rfl | hx1
      · decide
      · exact ih x hx1
    · split at hx
      · have hd := hex_digits_roundtrip c
        simp only [List.mem_cons] at hx
        rcases hx with rfl | rfl | rfl | hx1
        · decide
        · have := hd.2.2.2.1
          simp only [List.mem_cons, List.mem_singleton, List.not_mem_nil, or_false,
            not_or] at this
          exact this
        · have := hd.2.2.2.2
          simp only [List.mem_cons, List.mem_singleton, List.not_mem_nil, or_false,
            not_or] at this
          exact this
        · exact ih x hx1
      · rename_i hns
        rcases List.mem_cons.mp hx with rfl | hx1
        · have := unescaped_byte_plain x (by simpa using hns)
          exact ⟨this.2.2.1, this.2.2.2.1, this.2.2.2.2.1⟩
        · exact ih x hx1

theorem unescapeCheck_query_plain (c : Byte) (t : GoString) (h : c ≠ 0x25) :
    url.unescapeCheck url.encoding.encodeQueryComponent (c :: t)
      = url.unescapeCheck url.encoding.encodeQueryComponent t := by
  rcases t with _ | ⟨h1, _ | ⟨h2, t2⟩⟩ <;> simp [url.unescapeCheck, h]

theorem unescapeCheck_query_escape (h1 h2 : Byte) (t : GoString)
    (hh1 : url.ishex h1 = true) (hh2 : url.ishex h2 = true) :
    url.unescapeCheck url.encoding.encodeQueryComponent (0x25 :: h1 :: h2 :: t)
      = url.unescapeCheck url.encoding.encodeQueryComponent t := by
  simp [url.unescapeCheck, hh1, hh2]

theorem unescapeBytes_query_plus (t : GoString) :
    url.unescapeBytes url.encoding.encodeQueryComponent (0x2B :: t)
      = 0x20 :: url.unescapeBytes url.encoding.encodeQueryComponent t := by
  rcases t with _ | ⟨h1, _ | ⟨h2, t2⟩⟩ <;> simp [url.unescapeBytes]

theorem unescapeBytes_query_plain (c : Byte) (t : GoString) (h : c ≠ 0x25) (hp : c ≠ 0x2B) :
    url.unescapeBytes url.encoding.encodeQueryComponent (c :: t)
      = c :: url.unescapeBytes url.encoding.encodeQueryComponent t := by
  rcases t with _ | ⟨h1, _ | ⟨h2, t2⟩⟩ <;> simp [url.unescapeBytes, h, hp]

theorem unescapeBytes_query_escape (h1 h2 : Byte) (t : GoString) :
    url.unescapeBytes url.encoding.encodeQueryComponent (0x25 :: h1 :: h2 :: t)
      = Fin.ofNat (url.unhex h1 * 16 + url.unhex h2)
        :: url.unescapeBytes url.encoding.encodeQueryComponent t := by
  simp [url.unescapeBytes]

/-- Unescaping undoes escaping: `QueryUnescape (QueryEscape s) = s`. -/
theorem queryUnescape_queryEscape (s : GoString) :
    url.QueryUnescape (url.QueryEscape s) = .ok s := by
  have key : url.unescapeCheck url.encoding.encodeQueryComponent (url.QueryEscape s) = none
      ∧ url.unescapeBytes url.encoding.encodeQueryComponent (url.QueryEscape s) = s := by
    induction s with
    | nil => simp [url.QueryEscape, url.escape, url.unescapeCheck, url.unescapeBytes]
    | cons c t ih =>
      unfold url.QueryEscape url.escape
      split
      · rename_i hsp
        have hc : c = 0x20 := hsp.1
        subst hc
        rw [unescapeCheck_query_plain _ _ (by decide), unescapeBytes_query_plus]
        exact ⟨ih.1, by rw [show url.escape t url.encoding.encodeQueryComponent
          = url.QueryEscape t from rfl, ih.2]⟩
      · split
        · have hd := hex_digits_roundtrip c
          rw [unescapeCheck_query_escape _ _ _ hd.1 hd.2.1, unescapeBytes_query_escape,
            hd.2.2.1]
          exact ⟨ih.1, by rw [show url.escape t url.encoding.encodeQueryComponent
            = url.QueryEscape t from rfl, ih.2]⟩
        · rename_i hns
          have hp := unescaped_byte_plain c (by simpa using hns)
          rw [unescapeCheck_query_plain _ _ hp.1, unescapeBytes_query_plain _ _ hp.1 hp.2.1]
          exact ⟨ih.1, by rw [show url.escape t url.encoding.encodeQueryComponent
            = url.QueryEscape t from rfl, ih.2]⟩
  unfold url.QueryUnescape url.unescape
  rw [key.1, key.2]

/-! ## Parsing what `Values.Encode` wrote -/

theorem cut_append_sep (a b : GoString) (sep : Byte) (h : sep ∉ a) :
    strings.Cut (a ++ sep :: b) sep = (a, b, true) := by
  induction a with
  | nil => simp [strings.Cut]
  | cons c t ih =>
    have hc : c ≠ sep := fun e => h (e ▸ List.mem_cons_self _ _)
    have ht : sep ∉ t := fun e => h (List.mem_cons_of_mem _ e)
    simp [strings.Cut, hc, ih ht]

theorem cut_no_sep (a : GoString) (sep : Byte) (h : sep ∉ a) :
    strings.Cut a sep = (a, [], false) := by
  induction a with
  | nil => simp [strings.Cut]
  | cons c t ih =>
    have hc : c ≠ sep := fun e => h (e ▸ List.mem_cons_self _ _)
    have ht : sep ∉ t := fun e => h (List.mem_cons_of_mem _ e)
    simp [strings.Cut, hc, ih ht]

theorem encodePair_plain (p : GoString × GoString) :
    (0x26 : Byte) ∉ url.encodePair p ∧ (0x3B : Byte) ∉ url.encodePair p
      ∧ url.encodePair p ≠ [] := by
  refine ⟨?_, ?_, by simp [url.encodePair]⟩
  · intro h
    simp only [url.encodePair, List.mem_append, List.mem_singleton] at h
    rcases h with (h | h) | h
    · exact (queryEscape_plain p.1 _ h).1 rfl
    · exact absurd h (by decide)
    · exact (queryEscape_plain p.2 _ h).1 rfl
  · intro h
    simp only [url.encodePair, List.mem_append, List.mem_singleton] at h
    rcases h with (h | h) | h
    · exact (queryEscape_plain p.1 _ h).2.2 rfl
    · exact absurd h (by decide)
    · exact (queryEscape_plain p.2 _ h).2.2 rfl

theorem cut_encodePair (p : GoString × GoString) :
    strings.Cut (url.encodePair p) 0x3D = (url.QueryEscape p.1, url.QueryEscape p.2, true) := by
  have h : (0x3D : Byte) ∉ url.QueryEscape p.1 := fun h => (queryEscape_plain p.1 _ h).2.1 rfl
  simpa [url.encodePair] using cut_append_sep (url.QueryEscape p.1) (url.QueryEscape p.2) 0x3D h

/-- One round of `parseQuery` on a pair written by `Values.Encode`. -/
theorem parseQuery_step (fuel : Nat) (m : url.Values) (p : GoString × GoString)
    (query rest : GoString) (hcut : strings.Cut query 0x26 = (url.encodePair p, rest, true)
      ∨ strings.Cut query 0x26 = (url.encodePair p, rest, false)) (hq : query ≠ []) :
    url.parseQuery (fuel + 1) m query = url.parseQuery fuel (m.Add p.1 p.2) rest := by
  have hp := encodePair_plain p
  have h1 : (strings.Cut query 0x26).1 = url.encodePair p := by
    rcases hcut with h | h <;> rw [h]
  have h2 : (strings.Cut query 0x26).2.1 = rest := by
    rcases hcut with h | h <;> rw [h]
  rw [url.parseQuery]
  have h3 : List.contains (url.encodePair p) 0x3B = false := by
    simpa using hp.2.1
  simp only [hq, if_false, h1, h2, strings.ContainsByte, h3, hp.2.2, cut_encodePair,
    queryUnescape_queryEscape, url.Values.Add]
  simp

theorem parseQuery_nil (fuel : Nat) (m : url.Values) : url.parseQuery fuel m [] = m := by
  cases fuel <;> simp [url.parseQuery]

theorem joinAmp_cons_cons (p q : GoString) (rest : List GoString) :
    url.joinAmp (p :: q :: rest) = p ++ 0x26 :: url.joinAmp (q :: rest) := by
  simp [url.joinAmp]

theorem joinAmp_length (l : List GoString) (h : ∀ p ∈ l, p ≠ []) :
    l.length ≤ (url.joinAmp l).length := by
  induction l with
  | nil => simp
  | cons p rest ih =>
    have hp : 1 ≤ p.length := by
      have := h p (List.mem_cons_self _ _)
      cases p with
      | nil => exact absurd rfl this
      | cons _ _ => simp
    cases rest with
    | nil => simpa [url.joinAmp] using hp
    | cons q rest =>
      have := ih (fun x hx => h x (List.mem_cons_of_mem _ hx))
      rw [joinAmp_cons_cons]
      simp only [List.length_append, List.length_cons] at this ⊢
      omega

/-- Parsing the pairs written one after the other adds them one after the
other. -/
theorem parseQuery_joinAmp (pairs : List (GoString × GoString)) (fuel : Nat) (m : url.Values)
    (hfuel : pairs.length ≤ fuel) :
    url.parseQuery fuel m (url.joinAmp (pairs.map url.encodePair))
      = pairs.foldl (fun m p => url.Values.Add m p.1 p.2) m := by
  induction pairs generalizing fuel m with
  | nil => simp [url.joinAmp, parseQuery_nil]
  | cons p rest ih =>
    cases fuel with
    | zero => simp at hfuel
    | succ f =>
      have hp := encodePair_plain p
      cases rest with
      | nil =>
        rw [List.map_singleton, show url.joinAmp [url.encodePair p] = url.encodePair p from rfl,
          parseQuery_step f m p _ [] (Or.inr (cut_no_sep _ _ hp.1)) hp.2.2, parseQuery_nil]
        rfl
      | cons q rest =>
        rw [List.map_cons, List.map_cons, joinAmp_cons_cons,
          parseQuery_step f m p _ _ (Or.inl (cut_append_sep _ _ _ hp.1)) (by simp),
          ← List.map_cons, ih f _ (by simpa using hfuel)]
        rfl

theorem parseQuery_encoded (pairs : List (GoString × GoString)) :
    url.ParseQuery (url.joinAmp (pairs.map url.encodePair))
      = pairs.foldl (fun m p => url.Values.Add m p.1 p.2) GoMap.make := by
  unfold url.ParseQuery
  apply parseQuery_joinAmp
  have := joinAmp_length (pairs.map url.encodePair) (by
    intro p hp
    obtain ⟨x, _, rfl⟩ := List.mem_map.mp hp
    exact (encodePair_plain x).2.2)
  simpa using this

/-- The encoding `Values.Encode` writes: the pairs of the map joined by ampersands. -/
theorem encode_eq_joinAmp (v : url.Values) :
    url.Values.Encode v = url.joinAmp (v.pairs.map url.encodePair) := by
  unfold url.Values.Encode url.Values.pairs
  split
  · rename_i h
    have he : v.entries = [] := by
      simpa [GoMap.len] using h
    have hk : v.keys = [] := by simp [AList.keys, he]
    simp [hk, url.joinAmp]
  · simp only [List.map_flatMap, List.map_map]
    rfl

/-! ## `url.Values` as a multimap -/

theorem get_add (m : url.Values) (k key value : GoString) :
    (m.Add key value).Get k = if k = key then m.Get k ++ [value] else m.Get k := by
  unfold url.Values.Add url.Values.Get GoMap.index GoMap.set
  by_cases h : k = key
  · subst h; simp
  · simp [h, AList.lookup_insert_ne h]

theorem lookup_add (m : url.Values) (k key value : GoString) :
    (m.Add key value).lookup k
      = if k = key then some (m.Get k ++ [value]) else m.lookup k := by
  unfold url.Values.Add url.Values.Get GoMap.index GoMap.set
  by_cases h : k = key
  · subst h; simp
  · simp [h, AList.lookup_insert_ne h]

theorem valuesOf_cons (k : GoString) (p : GoString × GoString)
    (l : List (GoString × GoString)) :
    valuesOf k (p :: l) = if p.1 = k then p.2 :: valuesOf k l else valuesOf k l := by
  unfold valuesOf
  by_cases h : p.1 = k <;> simp [List.filter_cons, h]

/-- Adding pairs one after the other appends, for every key, its values in
order. -/
theorem get_foldl_add (l : List (GoString × GoString)) (m : url.Values) (k : GoString) :
    (l.foldl (fun m p => url.Values.Add m p.1 p.2) m).Get k = m.Get k ++ valuesOf k l := by
  induction l generalizing m with
  | nil => simp [valuesOf]
  | cons p rest ih =>
    rw [List.foldl_cons, ih, get_add, valuesOf_cons]
    by_cases h : p.1 = k
    · simp [h]
    · have h2 : ¬ k = p.1 := fun e => h e.symm
      simp [h, h2]

theorem lookup_foldl_add (l : List (GoString × GoString)) (m : url.Values) (k : GoString) :
    (l.foldl (fun m p => url.Values.Add m p.1 p.2) m).lookup k
      = if valuesOf k l = [] then m.lookup k else some (m.Get k ++ valuesOf k l) := by
  induction l generalizing m with
  | nil => simp [valuesOf]
  | cons p rest ih =>
    rw [List.foldl_cons, ih, get_add, lookup_add, valuesOf_cons]
    by_cases h : p.1 = k
    · subst h
      by_cases h3 : valuesOf p.1 rest = [] <;> simp [h3]
    · have h2 : ¬ k = p.1 := fun e => h e.symm
      simp [h, h2]

theorem get_make (k : GoString) : url.Values.Get GoMap.make k = [] := by
  simp [url.Values.Get, GoMap.index, GoMap.make]

theorem get_eq_nil_of_not_mem (v : url.Values) (k : GoString) (h : k ∉ v.keys) :
    v.Get k = [] := by
  have : v.lookup k = none := AList.lookup_eq_none.mpr h
  simp [url.Values.Get, GoMap.index, this]

theorem valuesOf_flatMap (v : url.Values) (k : GoString) (ks : List GoString)
    (hnd : ks.Nodup) :
    valuesOf k (ks.flatMap (fun k1 => (v.Get k1).map (fun x => (k1, x))))
      = if k ∈ ks then v.Get k else [] := by
  induction ks with
  | nil => simp [valuesOf]
  | cons a ks ih =>
    rw [List.nodup_cons] at hnd
    have hsplit : valuesOf k ((a :: ks).flatMap (fun k1 => (v.Get k1).map (fun x => (k1, x))))
        = valuesOf k ((v.Get a).map (fun x => (a, x)))
          ++ valuesOf k (ks.flatMap (fun k1 => (v.Get k1).map (fun x => (k1, x)))) := by
      simp [valuesOf, List.flatMap_cons, List.filter_append]
    rw [hsplit, ih hnd.2]
    by_cases h : a = k
    · subst h
      have h1 : valuesOf a ((v.Get a).map (fun x => (a, x))) = v.Get a := by
        simp [valuesOf, List.filter_map, Function.comp_def]
      simp [h1, hnd.1]
    · have h1 : valuesOf k ((v.Get a).map (fun x => (a, x))) = [] := by
        simp [valuesOf, List.filter_map, Function.comp_def, h]
      have h2 : ¬ k = a := fun e => h e.symm
      simp [h1, h2]

theorem sortedKeys_perm (v : url.Values) :
    (List.insertionSort (· ≤ ·) v.keys).Perm v.keys :=
  List.perm_insertionSort _ _

/-- The values of a key among the pairs of a map are the values the map holds
for it. -/
theorem valuesOf_pairs (v : url.Values) (k : GoString) : valuesOf k v.pairs = v.Get k := by
  unfold url.Values.pairs
  rw [valuesOf_flatMap v k _ ((sortedKeys_perm v).nodup_iff.mpr v.keys_nodup)]
  by_cases h : k ∈ v.keys
  · simp [(sortedKeys_perm v).mem_iff, h]
  · simp [(sortedKeys_perm v).mem_iff, h, get_eq_nil_of_not_mem v k h]

/-- Parsing what `Values.Encode` wrote gives back, for every key, the values
the map held. -/
theorem get_parseQuery_encode (v : url.Values) (k : GoString) :
    (url.ParseQuery v.Encode).Get k = v.Get k := by
  rw [encode_eq_joinAmp, parseQuery_encoded, get_foldl_add, get_make, valuesOf_pairs]
  rfl

/-! ## The query string of a parsed URL -/

theorem cut_skip (a b : GoString) (sep : Byte) (h : sep ∉ a) :
    (strings.Cut (a ++ b) sep).2 = (strings.Cut b sep).2 := by
  induction a with
  | nil => rfl
  | cons c t ih =>
    have hc : c ≠ sep := fun e => h (e ▸ List.mem_cons_self _ _)
    have ht : sep ∉ t := fun e => h (List.mem_cons_of_mem _ e)
    simp [strings.Cut, hc, ih ht]

theorem cut_fst_append (a b : GoString) (sep : Byte) (h : sep ∉ a) :
    (strings.Cut (a ++ b) sep).1 = a ++ (strings.Cut b sep).1 := by
  induction a with
  | nil => rfl
  | cons c t ih =>
    have hc : c ≠ sep := fun e => h (e ▸ List.mem_cons_self _ _)
    have ht : sep ∉ t := fun e => h (List.mem_cons_of_mem _ e)
    simp [strings.Cut, hc, ih ht]

theorem cut_not_mem_fst (s : GoString) (sep : Byte) : sep ∉ (strings.Cut s sep).1 := by
  induction s with
  | nil => simp [strings.Cut]
  | cons c t ih =>
    unfold strings.Cut
    split
    · simp
    · rename_i hc
      simp only [List.mem_cons, not_or]
      exact ⟨fun e => hc e.symm, ih⟩

/-- The scheme split off by `getScheme` holds no question mark: the query of
the rest is the query of the whole. -/
theorem getSchemeLoop_query (pre t scheme rest : GoString) (hpre : (0x3F : Byte) ∉ pre)
    (h : url.getSchemeLoop (pre ++ t) pre.length t = .ok (scheme, rest)) :
    (strings.Cut rest 0x3F).2 = (strings.Cut (pre ++ t) 0x3F).2 := by
  induction t generalizing pre with
  | nil =>
    simp only [url.getSchemeLoop, Except.ok.injEq, Prod.mk.injEq] at h
    rw [← h.2]
  | cons c t ih =>
    have hstep : pre ++ c :: t = (pre ++ [c]) ++ t := by simp
    have hlen : pre.length + 1 = (pre ++ [c]).length := by simp
    unfold url.getSchemeLoop at h
    split at h
    · rename_i hletter
      have hc : c ≠ 0x3F := by
        intro e; subst e; revert hletter; decide
      rw [hstep, hlen] at h
      rw [ih (pre ++ [c]) (by simp [hpre, Ne.symm hc]) h, hstep]
    · split at h
      · rename_i hdigit
        split at h
        · simp only [Except.ok.injEq, Prod.mk.injEq] at h
          rw [← h.2]
        · have hc : c ≠ 0x3F := by
            intro e; subst e; revert hdigit; decide
          rw [hstep, hlen] at h
          rw [ih (pre ++ [c]) (by simp [hpre, Ne.symm hc]) h, hstep]
      · split at h
        · rename_i hcolon
          split at h
          · simp at h
          · simp only [Except.ok.injEq, Prod.mk.injEq] at h
            rw [← h.2, hstep]
            exact (cut_skip (pre ++ [c]) t 0x3F (by
              subst hcolon
              simp only [List.mem_append, List.mem_singleton, not_or]
              exact ⟨hpre, by decide⟩)).symm
        · simp only [Except.ok.injEq, Prod.mk.injEq] at h
          rw [← h.2]

theorem getScheme_query (s scheme rest : GoString)
    (h : url.getScheme s = .ok (scheme, rest)) :
    (strings.Cut rest 0x3F).2 = (strings.Cut s 0x3F).2 :=
  getSchemeLoop_query [] s scheme rest (by simp) h

theorem setPath_rawQuery (u u1 : url.URL) (p : GoString) (h : u.setPath p = .ok u1) :
    u1.RawQuery = u.RawQuery := by
  unfold url.URL.setPath at h
  split at h
  · simp at h
  · split at h <;> (simp only [Except.ok.injEq] at h; rw [← h])

theorem setFragment_rawQuery (u u1 : url.URL) (f : GoString) (h : u.setFragment f = .ok u1) :
    u1.RawQuery = u.RawQuery := by
  unfold url.URL.setFragment at h
  split at h
  · simp at h
  · split at h <;> (simp only [Except.ok.injEq] at h; rw [← h])

/-- A string that ends in its only question mark has an empty query. -/
theorem cut_forceQuery (s : GoString) (h1 : strings.HasSuffix s [0x3F] = true)
    (h2 : strings.CountByte s 0x3F = 1) : (strings.Cut s 0x3F).2.1 = [] := by
  unfold strings.HasSuffix at h1
  rw [List.isSuffixOf_iff_suffix] at h1
  obtain ⟨a, rfl⟩ := h1
  have ha : (0x3F : Byte) ∉ a := by
    unfold strings.CountByte at h2
    rw [List.count_append] at h2
    simp only [List.count_singleton_self] at h2
    exact List.count_eq_zero.mp (by omega)
  rw [cut_append_sep a [] 0x3F ha]

/-- The raw query of a URL accepted by `parse` is what follows the first
question mark of the string. -/
theorem parse_rawQuery (s : GoString) (u : url.URL) (h : url.parse s = .ok u) :
    u.RawQuery = (strings.Cut s 0x3F).2.1 := by
  unfold url.parse at h
  split at h
  · simp at h
  · split at h
    · rename_i hstar
      simp only [Except.ok.injEq] at h
      rw [← h, hstar]
      decide
    · split at h
      · simp at h
      · rename_i scheme rest0 hscheme
        have hq := getScheme_query s scheme rest0 hscheme
        have hraw : (if (strings.HasSuffix rest0 [0x3F] && decide (strings.CountByte rest0 0x3F = 1))
            = true then [] else (strings.Cut rest0 0x3F).2.1) = (strings.Cut s 0x3F).2.1 := by
          split
          · rename_i hf
            simp only [Bool.and_eq_true, decide_eq_true_eq] at hf
            rw [← hq, cut_forceQuery rest0 hf.1 hf.2]
          · rw [hq]
        simp only at h
        rw [hraw] at h
        generalize (if (strings.HasSuffix rest0 [0x3F]
          && decide (strings.CountByte rest0 0x3F = 1)) = true then rest0.dropLast
          else (strings.Cut rest0 0x3F).1) = rest at h
        split at h
        · simp only [Except.ok.injEq] at h
          rw [← h]
        · split at h
          · simp at h
          · split at h
            · split at h
              · simp at h
              · rw [setPath_rawQuery _ _ _ h]
            · split at h
              · rw [setPath_rawQuery _ _ _ h]
              · rw [setPath_rawQuery _ _ _ h]

/-- The raw query of a URL accepted by `url.Parse`: what stands between the
first question mark and the first number sign. -/
theorem Parse_rawQuery (raw : GoString) (u : url.URL) (h : url.Parse raw = .ok u) :
    u.RawQuery = (strings.Cut (strings.Cut raw 0x23).1 0x3F).2.1 := by
  unfold url.Parse at h
  simp only at h
  split at h
  · simp at h
  · rename_i u0 hu0
    split at h
    · simp only [Except.ok.injEq] at h
      rw [← h]
      exact parse_rawQuery _ _ hu0
    · split at h
      · simp at h
      · rename_i u1 hu1
        simp only [Except.ok.injEq] at h
        rw [← h, setFragment_rawQuery _ _ _ hu1]
        exact parse_rawQuery _ _ hu0

/-- The raw query of the request `http.NewRequest` returns. -/
theorem newRequest_rawQuery (method urlStr body : GoString) (req0 : http.Request)
    (h : http.NewRequest method urlStr body = .ok req0) :
    req0.URL.RawQuery = (strings.Cut (strings.Cut urlStr 0x23).1 0x3F).2.1 := by
  obtain ⟨u, hu, rfl⟩ := newRequest_ok method urlStr body req0 h
  exact Parse_rawQuery urlStr u hu

theorem cut_eq_nil_of_not_mem (s : GoString) (sep : Byte) (h : sep ∉ s) :
    (strings.Cut s sep).2.1 = [] := by
  rw [cut_no_sep s sep h]

/-- A URL string without a question mark has no query. -/
theorem rawQuery_nil_of_no_question (raw : GoString) (h : (0x3F : Byte) ∉ raw) :
    (strings.Cut (strings.Cut raw 0x23).1 0x3F).2.1 = [] := by
  apply cut_eq_nil_of_not_mem
  intro hmem
  apply h
  have hsub : ∀ (s : GoString) (sep x : Byte), x ∈ (strings.Cut s sep).1 → x ∈ s := by
    intro s sep x
    induction s with
    | nil => simp [strings.Cut]
    | cons c t ih =>
      unfold strings.Cut
      split
      · simp
      · intro hx
        rcases List.mem_cons.mp hx with rfl | hx1
        · exact List.mem_cons_self _ _
        · exact List.mem_cons_of_mem _ (ih hx1)
  exact hsub raw 0x23 0x3F hmem

/-! ## Query parameters of the request sent -/

theorem lookup_eq_none_of_get_nil_foldl (l : List (GoString × GoString)) (k : GoString) :
    (l.foldl (fun m p => url.Values.Add m p.1 p.2) GoMap.make).lookup k
      = if valuesOf k l = [] then none else some (valuesOf k l) := by
  rw [lookup_foldl_add, get_make]
  simp [GoMap.make]

/-- Parsing what `Values.Encode` wrote: a key is present exactly when the map
held a value for it, with the values the map held. -/
theorem lookup_parseQuery_encode (v : url.Values) (k : GoString) :
    (url.ParseQuery v.Encode).lookup k = if v.Get k = [] then none else some (v.Get k) := by
  rw [encode_eq_joinAmp, parseQuery_encoded, lookup_eq_none_of_get_nil_foldl, valuesOf_pairs]

theorem mem_pairs (v : url.Values) (k x : GoString) (h : x ∈ v.Get k) : (k, x) ∈ v.pairs := by
  have hk : k ∈ v.keys := by
    by_contra hk
    rw [get_eq_nil_of_not_mem v k hk] at h
    simp at h
  unfold url.Values.pairs
  rw [List.mem_flatMap]
  exact ⟨k, (sortedKeys_perm v).mem_iff.mpr hk, List.mem_map.mpr ⟨x, h, rfl⟩⟩

theorem infix_joinAmp (l : List GoString) (p : GoString) (h : p ∈ l) : p <:+: url.joinAmp l := by
  induction l with
  | nil => simp at h
  | cons a rest ih =>
    cases rest with
    | nil =>
      simp only [List.mem_singleton] at h
      subst h
      exact ⟨[], [], by simp [url.joinAmp]⟩
    | cons b rest =>
      rw [joinAmp_cons_cons]
      rcases List.mem_cons.mp h with rfl | h1
      · exact ⟨[], 0x26 :: url.joinAmp (b :: rest), by simp⟩
      · obtain ⟨s, t, hst⟩ := ih h1
        exact ⟨a ++ 0x26 :: s, t, by simp [← hst]⟩

/-- Every pair of the map is written, percent-encoded, into the encoding. -/
theorem encodePair_infix_encode (v : url.Values) (k x : GoString) (h : x ∈ v.Get k) :
    url.encodePair (k, x) <:+: v.Encode := by
  rw [encode_eq_joinAmp]
  exact infix_joinAmp _ _ (List.mem_map_of_mem _ (mem_pairs v k x h))

/-- Two maps that hold the same values for every key have the same encoding. -/
theorem encode_congr (v1 v2 : url.Values) (h : ∀ k, v1.lookup k = v2.lookup k) :
    v1.Encode = v2.Encode := by
  rw [encode_eq_joinAmp, encode_eq_joinAmp]
  have hkeys : ∀ k, k ∈ v1.keys ↔ k ∈ v2.keys := by
    intro k
    rw [← AList.mem_keys, ← AList.mem_keys, ← AList.lookup_isSome, ← AList.lookup_isSome, h k]
  have hperm : v1.keys.Perm v2.keys :=
    (List.perm_ext_iff_of_nodup v1.keys_nodup v2.keys_nodup).mpr hkeys
  have hsorted : List.insertionSort (· ≤ ·) v1.keys = List.insertionSort (· ≤ ·) v2.keys :=
    List.eq_of_perm_of_sorted
      (((sortedKeys_perm v1).trans hperm).trans (sortedKeys_perm v2).symm)
      (List.sorted_insertionSort _ _) (List.sorted_insertionSort _ _)
  have hget : ∀ k, v1.Get k = v2.Get k := by
    intro k
    simp [url.Values.Get, GoMap.index, h k]
  unfold url.Values.pairs
  rw [hsorted]
  simp only [hget]

/-- The values paired with a key in the range of a map: the value of the key,
if it has one. -/
theorem valuesOf_entries (l : List (Sigma fun _ : GoString => GoString)) (hl : l.NodupKeys)
    (k : GoString) :
    valuesOf k (l.map (fun e => (e.1, e.2))) = (l.dlookup k).toList := by
  induction l with
  | nil => simp [valuesOf]
  | cons e l ih =>
    obtain ⟨hnot, hl1⟩ := List.nodupKeys_cons.mp hl
    rw [List.map_cons, valuesOf_cons, ih hl1]
    cases e with
    | mk a b =>
      by_cases h : a = k
      · subst h
        have h0 : l.dlookup a = none := List.dlookup_eq_none.mpr hnot
        simp [h0, List.dlookup_cons_eq]
      · have h2 : k ≠ a := fun e => h e.symm
        simp [h, List.dlookup_cons_ne l ⟨a, b⟩ h2]

/-- The values paired with a key in any arrangement of the pairs of a map:
the value of the key, if it has one. -/
theorem valuesOf_of_perm (l : List (GoString × GoString)) (m : Option (GoMap GoString))
    (h : l.Perm (GoMap.pairs m)) (k : GoString) :
    valuesOf k l = (GoMap.index m k).toList := by
  have hnd : (l.map Prod.fst).Nodup := ((h.map Prod.fst).nodup_iff).mpr (pairs_keys_nodup m)
  have hnk : (l.map (fun p => (⟨p.1, p.2⟩ : Sigma fun _ : GoString => GoString))).NodupKeys := by
    simpa [List.NodupKeys, List.keys, List.map_map, Function.comp_def] using hnd
  have hl : l = (l.map (fun p => (⟨p.1, p.2⟩ : Sigma fun _ : GoString => GoString))).map
      (fun e => (e.1, e.2)) := by
    simp [List.map_map, Function.comp_def]
  have hlook : (l.map (fun p => (⟨p.1, p.2⟩ : Sigma fun _ : GoString => GoString))).dlookup k
      = GoMap.index m k := by
    apply Option.ext
    intro v
    rw [List.mem_dlookup_iff hnk, Option.mem_def, ← mem_pairs_iff, ← h.mem_iff]
    simp only [List.mem_map]
    constructor
    · rintro ⟨p, hp, heq⟩
      cases p with
      | mk a b =>
        simp only [Sigma.mk.inj_iff, heq_eq_eq] at heq
        obtain ⟨rfl, rfl⟩ := heq
        exact hp
    · intro hp
      exact ⟨(k, v), hp, rfl⟩
  rw [hl, valuesOf_entries _ hnk, hlook]

theorem valuesOf_range (o : RangeOrder) (loop : Nat) (m : Option (GoMap GoString))
    (k : GoString) :
    valuesOf k (GoMap.range o loop m) = (GoMap.index m k).toList :=
  valuesOf_of_perm _ m (range_perm o loop m) k

theorem index_perm (m1 m2 : Option (GoMap GoString))
    (h : (GoMap.pairs m1).Perm (GoMap.pairs m2)) (k : GoString) :
    GoMap.index m1 k = GoMap.index m2 k := by
  apply Option.ext
  intro v
  rw [Option.mem_def, Option.mem_def, ← mem_pairs_iff, ← mem_pairs_iff, h.mem_iff]

/-- The raw query of the request sent: the encoding of the query of the URL
string with the parameters added. -/
theorem sent_rawQuery (env : Env) (client : HTTPClient) (path method : GoString)
    (req : http.Request) (h : (sendRequest env client path method).sent = some req) :
    req.URL.RawQuery = url.Values.Encode
      ((GoMap.range env.order 1 client.Params).foldl (fun q kv => url.Values.Add q kv.1 kv.2)
        (url.ParseQuery (queryOf (client.BaseURL ++ path)))) := by
  obtain ⟨_, _, req0, _, _, hreq0, rfl⟩ := sendRequest_sent env client path method req h
  have := newRequest_rawQuery _ _ _ _ hreq0
  simp only [outgoing, url.URL.Query, this, queryOf]

/-! ## UTF-8: re-encoding a decoded rune -/

set_option maxRecDepth 100000 in

/-- The entries of the table `first`. -/
theorem first_spec : ∀ c : Byte,
    (utf8.first c = none)
    ∨ (utf8.first c = some (2, 0x80, 0xBF) ∧ 0xC2 ≤ c.val ∧ c.val ≤ 0xDF)
    ∨ (utf8.first c = some (3, 0xA0, 0xBF) ∧ c.val = 0xE0)
    ∨ (utf8.first c = some (3, 0x80, 0xBF) ∧ 0xE1 ≤ c.val ∧ c.val ≤ 0xEF ∧ c.val ≠ 0xED)
    ∨ (utf8.first c = some (3, 0x80, 0x9F) ∧ c.val = 0xED)
    ∨ (utf8.first c = some (4, 0x90, 0xBF) ∧ c.val = 0xF0)
    ∨ (utf8.first c = some (4, 0x80, 0xBF) ∧ 0xF1 ≤ c.val ∧ c.val ≤ 0xF3)
    ∨ (utf8.first c = some (4, 0x80, 0x8F) ∧ c.val = 0xF4) := by
  decide

theorem byte_ofNat_eq (n : Nat) (c : Byte) (h : n = c.val) : (Fin.ofNat n : Byte) = c := by
  apply Fin.ext
  simp only [Fin.ofNat, Fin.val_mk]
  omega

theorem encode2 (c s1 : Byte) (h1 : 0xC2 ≤ c.val) (h2 : c.val ≤ 0xDF)
    (h3 : 0x80 ≤ s1.val) (h4 : s1.val ≤ 0xBF) :
    utf8.EncodeRune (c.val % 32 * 64 + s1.val % 64) = [c, s1] := by
  unfold utf8.EncodeRune
  rw [if_neg (by omega), if_pos (by omega)]
  rw [byte_ofNat_eq _ c (by omega), byte_ofNat_eq _ s1 (by omega)]

theorem encode3 (c s1 s2 : Byte) (h1 : 0xE0 ≤ c.val) (h2 : c.val ≤ 0xEF)
    (h3 : 0x80 ≤ s1.val) (h4 : s1.val ≤ 0xBF) (h5 : 0x80 ≤ s2.val) (h6 : s2.val ≤ 0xBF)
    (hE0 : c.val = 0xE0 → 0xA0 ≤ s1.val) (hED : c.val = 0xED → s1.val ≤ 0x9F) :
    utf8.EncodeRune (c.val % 16 * 4096 + s1.val % 64 * 64 + s2.val % 64) = [c, s1, s2] := by
  unfold utf8.EncodeRune
  rw [if_neg (by omega), if_neg (by omega), if_neg (by omega), if_pos (by omega)]
  rw [byte_ofNat_eq _ c (by omega), byte_ofNat_eq _ s1 (by omega),
    byte_ofNat_eq _ s2 (by omega)]

theorem encode4 (c s1 s2 s3 : Byte) (h1 : 0xF0 ≤ c.val) (h2 : c.val ≤ 0xF4)
    (h3 : 0x80 ≤ s1.val) (h4 : s1.val ≤ 0xBF) (h5 : 0x80 ≤ s2.val) (h6 : s2.val ≤ 0xBF)
    (h7 : 0x80 ≤ s3.val) (h8 : s3.val ≤ 0xBF)
    (hF0 : c.val = 0xF0 → 0x90 ≤ s1.val) (hF4 : c.val = 0xF4 → s1.val ≤ 0x8F) :
    utf8.EncodeRune (c.val % 8 * 262144 + s1.val % 64 * 4096 + s2.val % 64 * 64 + s3.val % 64)
      = [c, s1, s2, s3] := by
  unfold utf8.EncodeRune
  rw [if_neg (by omega), if_neg (by omega), if_neg (by omega), if_neg (by omega)]
  rw [byte_ofNat_eq _ c (by omega), byte_ofNat_eq _ s1 (by omega),
    byte_ofNat_eq _ s2 (by omega), byte_ofNat_eq _ s3 (by omega)]
theorem decode_nil_tail (c : Byte) (hc : 0x80 ≤ c.val) :
    utf8.DecodeRuneInString [c] = (utf8.RuneError, 1) := by
  have hlt : ¬ c.val < utf8.RuneSelf := by simp only [utf8.RuneSelf]; omega
  rcases first_spec c with h | ⟨h, _⟩ | ⟨h, _⟩ | ⟨h, _⟩ | ⟨h, _⟩ | ⟨h, _⟩ | ⟨h, _⟩ | ⟨h, _⟩ <;>
    simp [utf8.DecodeRuneInString, hlt, h]

theorem decode_sz2 (c s1 : Byte) (r : GoString) (lo hi : Nat) (hc : 0x80 ≤ c.val)
    (h : utf8.first c = some (2, lo, hi)) :
    utf8.DecodeRuneInString (c :: s1 :: r)
      = if s1.val < lo ∨ hi < s1.val then (utf8.RuneError, 1)
        else (c.val % 32 * 64 + s1.val % 64, 2) := by
  have hlt : ¬ c.val < utf8.RuneSelf := by simp only [utf8.RuneSelf]; omega
  simp [utf8.DecodeRuneInString, hlt, h]

theorem decode_sz3_short (c s1 : Byte) (lo hi : Nat) (hc : 0x80 ≤ c.val)
    (h : utf8.first c = some (3, lo, hi)) :
    utf8.DecodeRuneInString [c, s1] = (utf8.RuneError, 1) := by
  have hlt : ¬ c.val < utf8.RuneSelf := by simp only [utf8.RuneSelf]; omega
  simp [utf8.DecodeRuneInString, hlt, h]

theorem decode_sz3 (c s1 s2 : Byte) (r : GoString) (lo hi : Nat) (hc : 0x80 ≤ c.val)
    (h : utf8.first c = some (3, lo, hi)) :
    utf8.DecodeRuneInString (c :: s1 :: s2 :: r)
      = if s1.val < lo ∨ hi < s1.val then (utf8.RuneError, 1)
        else if s2.val < 0x80 ∨ 0xBF < s2.val then (utf8.RuneError, 1)
        else (c.val % 16 * 4096 + s1.val % 64 * 64 + s2.val % 64, 3) := by
  have hlt : ¬ c.val < utf8.RuneSelf := by simp only [utf8.RuneSelf]; omega
  simp [utf8.DecodeRuneInString, hlt, h]

theorem decode_sz4_short2 (c s1 : Byte) (lo hi : Nat) (hc : 0x80 ≤ c.val)
    (h : utf8.first c = some (4, lo, hi)) :
    utf8.DecodeRuneInString [c, s1] = (utf8.RuneError, 1) := by
  have hlt : ¬ c.val < utf8.RuneSelf := by simp only [utf8.RuneSelf]; omega
  simp [utf8.DecodeRuneInString, hlt, h]

theorem decode_sz4_short3 (c s1 s2 : Byte) (lo hi : Nat) (hc : 0x80 ≤ c.val)
    (h : utf8.first c = some (4, lo, hi)) :
    utf8.DecodeRuneInString [c, s1, s2] = (utf8.RuneError, 1) := by
  have hlt : ¬ c.val < utf8.RuneSelf := by simp only [utf8.RuneSelf]; omega
  simp [utf8.DecodeRuneInString, hlt, h]

theorem decode_sz4 (c s1 s2 s3 : Byte) (r : GoString) (lo hi : Nat) (hc : 0x80 ≤ c.val)
    (h : utf8.first c = some (4, lo, hi)) :
    utf8.DecodeRuneInString (c :: s1 :: s2 :: s3 :: r)
      = if s1.val < lo ∨ hi < s1.val then (utf8.RuneError, 1)
        else if s2.val < 0x80 ∨ 0xBF < s2.val then (utf8.RuneError, 1)
        else if s3.val < 0x80 ∨ 0xBF < s3.val then (utf8.RuneError, 1)
        else (c.val % 8 * 262144 + s1.val % 64 * 4096 + s2.val % 64 * 64 + s3.val % 64, 4) := by
  have hlt : ¬ c.val < utf8.RuneSelf := by simp only [utf8.RuneSelf]; omega
  simp [utf8.DecodeRuneInString, hlt, h]

theorem decode_none (c : Byte) (t : GoString) (hc : 0x80 ≤ c.val) (h : utf8.first c = none) :
    utf8.DecodeRuneInString (c :: t) = (utf8.RuneError, 1) := by
  have hlt : ¬ c.val < utf8.RuneSelf := by simp only [utf8.RuneSelf]; omega
  simp [utf8.DecodeRuneInString, hlt, h]

/-- A multi-byte sequence that decodes without error: the rune re-encodes to
the bytes it was read from, and what follows those bytes does not matter. -/
theorem decode_valid (c : Byte) (t : GoString) (hc : 0x80 ≤ c.val)
    (hv : ¬ ((utf8.DecodeRuneInString (c :: t)).1 = utf8.RuneError
      ∧ (utf8.DecodeRuneInString (c :: t)).2 = 1)) :
    ∃ bytes rest, c :: t = bytes ++ rest
      ∧ utf8.EncodeRune (utf8.DecodeRuneInString (c :: t)).1 = bytes
      ∧ bytes.length = (utf8.DecodeRuneInString (c :: t)).2
      ∧ 2 ≤ bytes.length ∧ bytes.length ≤ 4
      ∧ ∀ rest2, utf8.DecodeRuneInString (bytes ++ rest2)
          = utf8.DecodeRuneInString (c :: t) := by
  rcases first_spec c with h | ⟨h, h1, h2⟩ | ⟨h, h1⟩ | ⟨h, h1, h2, h3⟩ | ⟨h, h1⟩ | ⟨h, h1⟩
    | ⟨h, h1, h2⟩ | ⟨h, h1⟩
  · rw [decode_none c t hc h] at hv
    exact absurd ⟨rfl, rfl⟩ hv
  all_goals
    rcases t with _ | ⟨s1, _ | ⟨s2, _ | ⟨s3, r⟩⟩⟩
  all_goals
    first
    | (rw [decode_nil_tail c hc] at hv; exact absurd ⟨rfl, rfl⟩ hv)
    | (rw [decode_sz3_short c s1 _ _ hc h] at hv; exact absurd ⟨rfl, rfl⟩ hv)
    | (rw [decode_sz4_short2 c s1 _ _ hc h] at hv; exact absurd ⟨rfl, rfl⟩ hv)
    | (rw [decode_sz4_short3 c s1 s2 _ _ hc h] at hv; exact absurd ⟨rfl, rfl⟩ hv)
    | (rw [decode_sz2 c s1 _ _ _ hc h] at hv ⊢
       by_cases hb : s1.val < 0x80 ∨ 0xBF < s1.val
       · rw [if_pos hb] at hv; exact absurd ⟨rfl, rfl⟩ hv
       · rw [if_neg hb]
         refine ⟨[c, s1], _, rfl, encode2 c s1 (by omega) (by omega) (by omega) (by omega),
           rfl, by simp, by simp, ?_⟩
         intro rest2
         rw [show [c, s1] ++ rest2 = c :: s1 :: rest2 from rfl, decode_sz2 c s1 _ _ _ hc h,
           if_neg hb])
    | (rw [decode_sz3 c s1 s2 _ _ _ hc h] at hv ⊢
       split at hv
       · exact absurd ⟨rfl, rfl⟩ hv
       · rename_i hb1
         split at hv
         · exact absurd ⟨rfl, rfl⟩ hv
         · rename_i hb2
           rw [if_neg hb1, if_neg hb2]
           refine ⟨[c, s1, s2], _, rfl, encode3 c s1 s2 (by omega) (by omega) (by omega)
             (by omega) (by omega) (by omega) (by omega) (by omega), rfl, by simp, by simp, ?_⟩
           intro rest2
           rw [show [c, s1, s2] ++ rest2 = c :: s1 :: s2 :: rest2 from rfl,
             decode_sz3 c s1 s2 _ _ _ hc h, if_neg hb1, if_neg hb2])
    | (rw [decode_sz4 c s1 s2 s3 _ _ _ hc h] at hv ⊢
       split at hv
       · exact absurd ⟨rfl, rfl⟩ hv
       · rename_i hb1
         split at hv
         · exact absurd ⟨rfl, rfl⟩ hv
         · rename_i hb2
           split at hv
           · exact absurd ⟨rfl, rfl⟩ hv
           · rename_i hb3
             rw [if_neg hb1, if_neg hb2, if_neg hb3]
             refine ⟨[c, s1, s2, s3], _, rfl, encode4 c s1 s2 s3 (by omega) (by omega)
               (by omega) (by omega) (by omega) (by omega) (by omega) (by omega) (by omega)
               (by omega), rfl, by simp, by simp, ?_⟩
             intro rest2
             rw [show [c, s1, s2, s3] ++ rest2 = c :: s1 :: s2 :: s3 :: rest2 from rfl,
               decode_sz4 c s1 s2 s3 _ _ _ hc h, if_neg hb1, if_neg hb2, if_neg hb3])

/-! ## JSON strings: decoding what the encoder wrote -/

set_option maxRecDepth 100000 in

/-- The escapes `appendString` writes for the ASCII bytes it does not copy. -/
theorem escapeByte_spec : ∀ b : Byte, b.val < 0x80 → json.htmlSafeSet b = false →
    (json.escapeByte b = [0x5C, b] ∧ (b = 0x22 ∨ b = 0x5C))
    ∨ (json.escapeByte b = [0x5C, 0x62] ∧ b = 0x08)
    ∨ (json.escapeByte b = [0x5C, 0x66] ∧ b = 0x0C)
    ∨ (json.escapeByte b = [0x5C, 0x6E] ∧ b = 0x0A)
    ∨ (json.escapeByte b = [0x5C, 0x72] ∧ b = 0x0D)
    ∨ (json.escapeByte b = [0x5C, 0x74] ∧ b = 0x09)
    ∨ (json.escapeByte b = [0x5C, 0x75, 0x30, 0x30, json.hex.getD (b.val / 16) 0,
          json.hex.getD (b.val % 16) 0]
        ∧ json.hexVal (json.hex.getD (b.val / 16) 0) = some (b.val / 16)
        ∧ json.hexVal (json.hex.getD (b.val % 16) 0) = some (b.val % 16)) := by
  decide

set_option maxRecDepth 100000 in

/-- A byte copied verbatim is neither a quote nor a backslash nor a control. -/
theorem htmlSafe_plain : ∀ b : Byte, json.htmlSafeSet b = true →
    b ≠ 0x22 ∧ b ≠ 0x5C ∧ ¬ b.val < 0x20 ∧ b.val < 0x80 := by
  decide

theorem unquote_plain (f : Nat) (c : Byte) (t : GoString) (h1 : c ≠ 0x22) (h2 : c ≠ 0x5C)
    (h3 : ¬ c.val < 0x20) (h4 : c.val < 0x80) :
    json.unquoteLoop (f + 1) (c :: t) = json.emit [c] (json.unquoteLoop f t) := by
  have h5 : c.val < utf8.RuneSelf := h4
  rw [json.unquoteLoop.eq_def]
  simp only [h1, h2, h3, h5, if_false, if_true]

theorem unquote_quote (f : Nat) (t : GoString) :
    json.unquoteLoop (f + 1) (0x22 :: t) = some ([], t) := by
  rw [json.unquoteLoop.eq_def]
  simp

theorem unquote_escape2 (f : Nat) (e : Byte) (t : GoString) (h : e = 0x22 ∨ e = 0x5C) :
    json.unquoteLoop (f + 1) (0x5C :: e :: t) = json.emit [e] (json.unquoteLoop f t) := by
  rw [json.unquoteLoop]
  rcases h with rfl | rfl <;> simp

theorem unquote_escape_letter (f : Nat) (t : GoString) :
    json.unquoteLoop (f + 1) (0x5C :: 0x62 :: t) = json.emit [0x08] (json.unquoteLoop f t)
    ∧ json.unquoteLoop (f + 1) (0x5C :: 0x66 :: t) = json.emit [0x0C] (json.unquoteLoop f t)
    ∧ json.unquoteLoop (f + 1) (0x5C :: 0x6E :: t) = json.emit [0x0A] (json.unquoteLoop f t)
    ∧ json.unquoteLoop (f + 1) (0x5C :: 0x72 :: t) = json.emit [0x0D] (json.unquoteLoop f t)
    ∧ json.unquoteLoop (f + 1) (0x5C :: 0x74 :: t) = json.emit [0x09] (json.unquoteLoop f t) := by
  refine ⟨?_, ?_, ?_, ?_, ?_⟩ <;> (rw [json.unquoteLoop]; simp)

theorem unquote_u (f : Nat) (h0 h1 h2 h3 : Byte) (t : GoString) (rr : Nat)
    (hg : json.getu4 (0x5C :: 0x75 :: h0 :: h1 :: h2 :: h3 :: t) = some rr)
    (hs : json.IsSurrogate rr = false) :
    json.unquoteLoop (f + 1) (0x5C :: 0x75 :: h0 :: h1 :: h2 :: h3 :: t)
      = json.emit (utf8.EncodeRune rr) (json.unquoteLoop f t) := by
  rw [json.unquoteLoop]
  simp [hg, hs]

theorem unquote_multi (f : Nat) (c : Byte) (t : GoString) (h : 0x80 ≤ c.val) :
    json.unquoteLoop (f + 1) (c :: t)
      = json.emit (utf8.EncodeRune (utf8.DecodeRuneInString (c :: t)).1)
          (json.unquoteLoop f ((c :: t).drop (utf8.DecodeRuneInString (c :: t)).2)) := by
  have h1 : c ≠ 0x22 := by intro e; subst e; revert h; decide
  have h2 : c ≠ 0x5C := by intro e; subst e; revert h; decide
  have h3 : ¬ c.val < 0x20 := by omega
  have h5 : ¬ c.val < utf8.RuneSelf := by simp only [utf8.RuneSelf]; omega
  rw [json.unquoteLoop.eq_def]
  simp only [h1, h2, h3, h5, if_false]
theorem emit_some (x a r : GoString) : json.emit x (some (a, r)) = some (x ++ a, r) := rfl

theorem decode_ascii (b : Byte) (t : GoString) (h : b.val < 0x80) :
    utf8.DecodeRuneInString (b :: t) = (b.val, 1) := by
  have h5 : b.val < utf8.RuneSelf := h
  simp [utf8.DecodeRuneInString, h5]

theorem getu4_00 (h1 h2 : Byte) (t : GoString) (a b : Nat)
    (ha : json.hexVal h1 = some a) (hb : json.hexVal h2 = some b) :
    json.getu4 (0x5C :: 0x75 :: 0x30 :: 0x30 :: h1 :: h2 :: t) = some (a * 16 + b) := by
  have h0 : json.hexVal 0x30 = some 0 := by decide
  simp [json.getu4, h0, ha, hb]

theorem getu4_202 (h3 : Byte) (t : GoString) (b : Nat) (hb : json.hexVal h3 = some b) :
    json.getu4 (0x5C :: 0x75 :: 0x32 :: 0x30 :: 0x32 :: h3 :: t) = some (0x2020 + b) := by
  have h0 : json.hexVal 0x30 = some 0 := by decide
  have h2 : json.hexVal 0x32 = some 2 := by decide
  simp [json.getu4, h0, h2, hb]

/-- The encoder's step at the lead byte of a well-formed multi-byte sequence:
the sequence is copied, except U+2028 and U+2029, which are escaped. -/
theorem appendStringLoop_multi (f2 : Nat) (b : Byte) (t bytes rest0 : GoString)
    (hge : 0x80 ≤ b.val)
    (hv : ¬ ((utf8.DecodeRuneInString (b :: t)).1 = utf8.RuneError
      ∧ (utf8.DecodeRuneInString (b :: t)).2 = 1))
    (hsplit : b :: t = bytes ++ rest0)
    (hlen : bytes.length = (utf8.DecodeRuneInString (b :: t)).2)
    (h4 : bytes.length ≤ 4)
    (hdec : ∀ rest2, utf8.DecodeRuneInString (bytes ++ rest2)
      = utf8.DecodeRuneInString (b :: t)) :
    json.appendStringLoop (f2 + 1) (b :: t)
      = if (utf8.DecodeRuneInString (b :: t)).1 = 0x2028
          ∨ (utf8.DecodeRuneInString (b :: t)).1 = 0x2029 then
          [0x5C, 0x75, 0x32, 0x30, 0x32,
            json.hex.getD ((utf8.DecodeRuneInString (b :: t)).1 % 16) 0]
            ++ json.appendStringLoop f2 rest0
        else bytes ++ json.appendStringLoop f2 rest0 := by
  have hnotlt : ¬ b.val < utf8.RuneSelf := by simp only [utf8.RuneSelf]; omega
  have hlen2 : bytes.length ≤ (b :: t).length := by rw [hsplit]; simp
  have htake : (b :: t).take (min (b :: t).length utf8.UTFMax)
      = bytes ++ rest0.take (min (b :: t).length utf8.UTFMax - bytes.length) := by
    have hmin : bytes.length ≤ min (b :: t).length utf8.UTFMax := by
      simp only [utf8.UTFMax]; omega
    have hgen : ∀ n, bytes.length ≤ n →
        (b :: t).take n = bytes ++ rest0.take (n - bytes.length) := by
      intro n hn
      rw [hsplit, List.take_append_eq_append_take, List.take_of_length_le hn]
    exact hgen _ hmin
  have hdrop : (b :: t).drop (utf8.DecodeRuneInString (b :: t)).2 = rest0 := by
    rw [← hlen]
    conv_lhs => rw [hsplit]
    exact List.drop_left _ _
  have htk : (b :: t).take (utf8.DecodeRuneInString (b :: t)).2 = bytes := by
    rw [← hlen]
    conv_lhs => rw [hsplit]
    exact List.take_left _ _
  rw [json.appendStringLoop, if_neg hnotlt]
  simp only [htake, hdec, hv, if_false, hdrop, htk]

/-- Decoding what the encoder's loop wrote for a valid UTF-8 string, up to
the closing quote, gives the string back and stops right after the quote. -/
theorem unquote_appendStringLoop (n : Nat) : ∀ (s : GoString), s.length ≤ n →
    ∀ (f1 f2 f3 : Nat) (rest : GoString), s.length ≤ f1 → s.length ≤ f2 →
      utf8.validLoop f1 s = true → (json.appendStringLoop f2 s).length < f3 →
      json.unquoteLoop f3 (json.appendStringLoop f2 s ++ 0x22 :: rest) = some (s, rest) := by
  induction n with
  | zero =>
    intro s hs f1 f2 f3 rest _ _ _ hf3
    have : s = [] := List.length_eq_zero.mp (by omega)
    subst this
    cases f3 with
    | zero => simp at hf3
    | succ f3 =>
      cases f2 <;> simp only [json.appendStringLoop, List.nil_append] <;> exact unquote_quote f3 rest
  | succ n ih =>
    intro s hs f1 f2 f3 rest hf1 hf2 hvalid hf3
    cases s with
    | nil =>
      cases f3 with
      | zero => simp at hf3
      | succ f3 =>
        cases f2 <;> simp only [json.appendStringLoop, List.nil_append] <;>
          exact unquote_quote f3 rest
    | cons b t =>
      cases f1 with
      | zero => simp at hf1
      | succ f1 =>
      cases f2 with
      | zero => simp at hf2
      | succ f2 =>
      simp only [List.length_cons, Nat.add_le_add_iff_right] at hs hf1 hf2
      rw [utf8.validLoop] at hvalid
      by_cases hb : b.val < 0x80
      · -- an ASCII byte
        rw [json.appendStringLoop] at hf3 ⊢
        have hb5 : b.val < utf8.RuneSelf := hb
        rw [decode_ascii b t hb] at hvalid
        have hbne : ¬ (b.val = utf8.RuneError) := by
          simp only [utf8.RuneError]; omega
        replace hvalid : utf8.validLoop f1 t = true := by
          simpa [hbne] using hvalid
        rw [if_pos hb5] at hf3 ⊢
        by_cases hsafe : json.htmlSafeSet b = true
        · rw [if_pos hsafe] at hf3 ⊢
          have hp := htmlSafe_plain b hsafe
          cases f3 with
          | zero => simp at hf3
          | succ f3 =>
            simp only [List.length_cons, Nat.add_lt_add_iff_right] at hf3
            rw [List.cons_append, unquote_plain f3 b _ hp.1 hp.2.1 hp.2.2.1 hp.2.2.2,
              ih t hs f1 f2 f3 rest hf1 hf2 hvalid hf3, emit_some]
            rfl
        · rw [if_neg hsafe] at hf3 ⊢
          have hsafe2 : json.htmlSafeSet b = false := by simpa using hsafe
          rw [List.length_append] at hf3
          rcases escapeByte_spec b hb hsafe2 with ⟨he, hq⟩ | ⟨he, hq⟩ | ⟨he, hq⟩ | ⟨he, hq⟩
            | ⟨he, hq⟩ | ⟨he, hq⟩ | ⟨he, hq1, hq2⟩
          all_goals
            rw [he] at hf3 ⊢
            cases f3 with
            | zero => simp at hf3
            | succ f3 =>
              simp only [List.length_cons, List.length_nil] at hf3
              have hlen : (json.appendStringLoop f2 t).length < f3 := by omega
              have hih := ih t hs f1 f2 f3 rest hf1 hf2 hvalid hlen
              first
              | (rw [show [0x5C, b] ++ json.appendStringLoop f2 t ++ 0x22 :: rest
                    = 0x5C :: b :: (json.appendStringLoop f2 t ++ 0x22 :: rest) from rfl,
                  unquote_escape2 f3 b _ hq, hih, emit_some]; rfl)
              | (subst hq
                 first
                 | (rw [show [(0x5C : Byte), 0x62] ++ json.appendStringLoop f2 t ++ 0x22 :: rest
                      = 0x5C :: 0x62 :: (json.appendStringLoop f2 t ++ 0x22 :: rest) from rfl,
                      (unquote_escape_letter f3 _).1, hih, emit_some]; rfl)
                 | (rw [show [(0x5C : Byte), 0x66] ++ json.appendStringLoop f2 t ++ 0x22 :: rest
                      = 0x5C :: 0x66 :: (json.appendStringLoop f2 t ++ 0x22 :: rest) from rfl,
                      (unquote_escape_letter f3 _).2.1, hih, emit_some]; rfl)
                 | (rw [show [(0x5C : Byte), 0x6E] ++ json.appendStringLoop f2 t ++ 0x22 :: rest
                      = 0x5C :: 0x6E :: (json.appendStringLoop f2 t ++ 0x22 :: rest) from rfl,
                      (unquote_escape_letter f3 _).2.2.1, hih, emit_some]; rfl)
                 | (rw [show [(0x5C : Byte), 0x72] ++ json.appendStringLoop f2 t ++ 0x22 :: rest
                      = 0x5C :: 0x72 :: (json.appendStringLoop f2 t ++ 0x22 :: rest) from rfl,
                      (unquote_escape_letter f3 _).2.2.2.1, hih, emit_some]; rfl)
                 | (rw [show [(0x5C : Byte), 0x74] ++ json.appendStringLoop f2 t ++ 0x22 :: rest
                      = 0x5C :: 0x74 :: (json.appendStringLoop f2 t ++ 0x22 :: rest) from rfl,
                      (unquote_escape_letter f3 _).2.2.2.2, hih, emit_some]; rfl))
              | (have hg := getu4_00 _ _ (json.appendStringLoop f2 t ++ 0x22 :: rest) _ _ hq1 hq2
                 have hval : b.val / 16 * 16 + b.val % 16 = b.val := by omega
                 rw [hval] at hg
                 have hsur : json.IsSurrogate b.val = false := by
                   simp only [json.IsSurrogate, decide_eq_false_iff_not]; omega
                 have henc : utf8.EncodeRune b.val = [b] := by
                   unfold utf8.EncodeRune
                   rw [if_pos (by omega), byte_ofNat_eq _ b rfl]
                 rw [show [0x5C, 0x75, 0x30, 0x30, json.hex.getD (b.val / 16) 0,
                      json.hex.getD (b.val % 16) 0] ++ json.appendStringLoop f2 t ++ 0x22 :: rest
                    = 0x5C :: 0x75 :: 0x30 :: 0x30 :: json.hex.getD (b.val / 16) 0
                      :: json.hex.getD (b.val % 16) 0
                      :: (json.appendStringLoop f2 t ++ 0x22 :: rest) from rfl,
                  unquote_u f3 _ _ _ _ _ b.val hg hsur, hih, emit_some, henc]; rfl)
      · -- the lead byte of a multi-byte sequence
        have hge : 0x80 ≤ b.val := by omega
        have hv : ¬ ((utf8.DecodeRuneInString (b :: t)).1 = utf8.RuneError
            ∧ (utf8.DecodeRuneInString (b :: t)).2 = 1) := by
          intro h
          simp [h] at hvalid
        obtain ⟨bytes, rest0, hsplit, henc, hlen, h2, h4, hdec⟩ := decode_valid b t hge hv
        have hdrop : (b :: t).drop (utf8.DecodeRuneInString (b :: t)).2 = rest0 := by
          rw [← hlen]
          conv_lhs => rw [hsplit]
          exact List.drop_left _ _
        replace hvalid : utf8.validLoop f1 rest0 = true := by
          simpa [hv, hdrop] using hvalid
        have hlen0 : rest0.length + bytes.length = t.length + 1 := by
          have := congrArg List.length hsplit
          simp only [List.length_cons, List.length_append] at this
          omega
        have hs0 : rest0.length ≤ n := by omega
        have hf10 : rest0.length ≤ f1 := by omega
        have hf20 : rest0.length ≤ f2 := by omega
        rw [appendStringLoop_multi f2 b t bytes rest0 hge hv hsplit hlen h4 hdec] at hf3 ⊢
        cases f3 with
        | zero => simp at hf3
        | succ f3 =>
          by_cases h28 : (utf8.DecodeRuneInString (b :: t)).1 = 0x2028
              ∨ (utf8.DecodeRuneInString (b :: t)).1 = 0x2029
          · rw [if_pos h28] at hf3 ⊢
            simp only [List.length_append, List.length_cons, List.length_nil] at hf3
            have hlen3 : (json.appendStringLoop f2 rest0).length < f3 := by omega
            have hih := ih rest0 hs0 f1 f2 f3 rest hf10 hf20 hvalid hlen3
            have hhex : json.hexVal (json.hex.getD ((utf8.DecodeRuneInString (b :: t)).1 % 16) 0)
                = some ((utf8.DecodeRuneInString (b :: t)).1 % 16) := by
              rcases h28 with h | h <;> rw [h] <;> decide
            have hg := getu4_202 _ (json.appendStringLoop f2 rest0 ++ 0x22 :: rest) _ hhex
            have hval : 0x2020 + (utf8.DecodeRuneInString (b :: t)).1 % 16
                = (utf8.DecodeRuneInString (b :: t)).1 := by
              rcases h28 with h | h <;> rw [h]
            rw [hval] at hg
            have hsur : json.IsSurrogate (utf8.DecodeRuneInString (b :: t)).1 = false := by
              rcases h28 with h | h <;> rw [h] <;> decide
            rw [show [0x5C, 0x75, 0x32, 0x30, 0x32,
                  json.hex.getD ((utf8.DecodeRuneInString (b :: t)).1 % 16) 0]
                  ++ json.appendStringLoop f2 rest0 ++ 0x22 :: rest
                = 0x5C :: 0x75 :: 0x32 :: 0x30 :: 0x32
                  :: json.hex.getD ((utf8.DecodeRuneInString (b :: t)).1 % 16) 0
                  :: (json.appendStringLoop f2 rest0 ++ 0x22 :: rest) from rfl,
              unquote_u f3 _ _ _ _ _ _ hg hsur, hih, emit_some, henc, hsplit]
          · rw [if_neg h28] at hf3 ⊢
            simp only [List.length_append] at hf3
            have hlen3 : (json.appendStringLoop f2 rest0).length < f3 := by omega
            have hih := ih rest0 hs0 f1 f2 f3 rest hf10 hf20 hvalid hlen3
            cases bytes with
            | nil => simp at h2
            | cons b0 bt =>
              have hb0 : b0 = b := by
                have := hsplit
                simp only [List.cons_append, List.cons.injEq] at this
                exact this.1.symm
              subst hb0
              have hd2 := hdec (json.appendStringLoop f2 rest0 ++ 0x22 :: rest)
              rw [show (b0 :: bt) ++ json.appendStringLoop f2 rest0 ++ 0x22 :: rest
                  = b0 :: (bt ++ (json.appendStringLoop f2 rest0 ++ 0x22 :: rest)) by simp,
                unquote_multi f3 b0 _ hge]
              rw [show b0 :: (bt ++ (json.appendStringLoop f2 rest0 ++ 0x22 :: rest))
                  = (b0 :: bt) ++ (json.appendStringLoop f2 rest0 ++ 0x22 :: rest) by simp,
                hd2, ← hlen, List.drop_left, hih, emit_some, henc, hsplit]

/-! ## JSON objects: decoding what `json.Marshal` wrote -/

theorem appendString_cons (s : GoString) :
    json.appendString s = 0x22 :: (json.appendStringLoop s.length s ++ [0x22]) := rfl

/-- The string literal the encoder wrote for a valid UTF-8 string is read back
as that string, whatever follows it. -/
theorem parseString_appendString (s rest : GoString) (h : utf8.ValidString s = true) :
    json.parseString (json.appendString s ++ rest) = some (s, rest) := by
  rw [appendString_cons]
  simp only [json.parseString, List.cons_append, if_true, List.append_assoc,
    List.singleton_append]
  exact unquote_appendStringLoop s.length s (Nat.le_refl _) s.length s.length _ rest
    (Nat.le_refl _) (Nat.le_refl _) h (by simp; omega)

theorem skipSpace_cons (c : Byte) (t : GoString) (h : json.isSpace c = false) :
    json.skipSpace (c :: t) = c :: t := by
  simp [json.skipSpace, List.dropWhile, h]

theorem skipSpace_appendString (s rest : GoString) :
    json.skipSpace (json.appendString s ++ rest) = json.appendString s ++ rest := by
  rw [appendString_cons]
  exact skipSpace_cons _ _ (by decide)

/-- One member written by the encoder, read back by `parseMembers`. -/
theorem parseMembers_step (f : Nat) (k v s4 : GoString) (d : Byte)
    (hk : utf8.ValidString k = true) (hv : utf8.ValidString v = true)
    (hd : json.isSpace d = false) :
    json.parseMembers (f + 1) (json.appendString k ++ 0x3A :: (json.appendString v ++ d :: s4))
      = if d = 0x2C then (json.parseMembers f s4).map (fun l => (k, v) :: l)
        else if d = 0x7D then (if json.skipSpace s4 = [] then some [(k, v)] else none)
        else none := by
  rw [json.parseMembers]
  simp only [skipSpace_appendString, parseString_appendString _ _ hk,
    skipSpace_cons 0x3A _ (by decide), if_true, parseString_appendString _ _ hv,
    skipSpace_cons d _ hd]

theorem encodeMembers_cons_cons (kv kv2 : GoString × GoString)
    (rest : List (GoString × GoString)) :
    json.encodeMembers (kv :: kv2 :: rest)
      = json.appendString kv.1 ++ 0x3A :: (json.appendString kv.2
          ++ 0x2C :: json.encodeMembers (kv2 :: rest)) := by
  simp [json.encodeMembers]

theorem encodeMembers_singleton (kv : GoString × GoString) :
    json.encodeMembers [kv] = json.appendString kv.1 ++ 0x3A :: json.appendString kv.2 := by
  simp [json.encodeMembers]

/-- The members the encoder wrote, up to the closing brace, are read back in
order. -/
theorem parseMembers_encodeMembers (l : List (GoString × GoString)) (hl : l ≠ [])
    (hvalid : ∀ kv ∈ l, utf8.ValidString kv.1 = true ∧ utf8.ValidString kv.2 = true)
    (fuel : Nat) (hfuel : l.length ≤ fuel) :
    json.parseMembers fuel (json.encodeMembers l ++ [0x7D]) = some l := by
  induction l generalizing fuel with
  | nil => exact absurd rfl hl
  | cons kv rest ih =>
    cases fuel with
    | zero => simp at hfuel
    | succ f =>
      have hkv := hvalid kv (List.mem_cons_self _ _)
      cases rest with
      | nil =>
        rw [encodeMembers_singleton]
        rw [show json.appendString kv.1 ++ 0x3A :: json.appendString kv.2 ++ [0x7D]
            = json.appendString kv.1 ++ 0x3A :: (json.appendString kv.2 ++ 0x7D :: []) by simp,
          parseMembers_step f kv.1 kv.2 [] 0x7D hkv.1 hkv.2 (by decide)]
        simp [json.skipSpace]
      | cons kv2 rest =>
        rw [encodeMembers_cons_cons]
        rw [show json.appendString kv.1 ++ 0x3A :: (json.appendString kv.2
              ++ 0x2C :: json.encodeMembers (kv2 :: rest)) ++ [0x7D]
            = json.appendString kv.1 ++ 0x3A :: (json.appendString kv.2
              ++ 0x2C :: (json.encodeMembers (kv2 :: rest) ++ [0x7D])) by simp,
          parseMembers_step f kv.1 kv.2 _ 0x2C hkv.1 hkv.2 (by decide)]
        rw [if_pos rfl, ih (by simp) (fun x hx => hvalid x (List.mem_cons_of_mem _ hx)) f
          (by simpa using hfuel)]
        rfl

theorem appendString_length (s : GoString) : 2 ≤ (json.appendString s).length := by
  rw [appendString_cons]
  simp

theorem encodeMembers_length (l : List (GoString × GoString)) :
    l.length ≤ (json.encodeMembers l).length := by
  induction l with
  | nil => simp
  | cons kv rest ih =>
    cases rest with
    | nil =>
      rw [encodeMembers_singleton]
      have := appendString_length kv.1
      simp only [List.length_append, List.length_cons, List.length_nil]
      omega
    | cons kv2 rest =>
      rw [encodeMembers_cons_cons]
      have := appendString_length kv.1
      simp only [List.length_append, List.length_cons] at ih ⊢
      omega

theorem encodeMembers_head (l : List (GoString × GoString)) (hl : l ≠ []) :
    ∃ t, json.encodeMembers l = 0x22 :: t := by
  cases l with
  | nil => exact absurd rfl hl
  | cons kv rest =>
    cases rest with
    | nil => exact ⟨_, by rw [encodeMembers_singleton, appendString_cons]; rfl⟩
    | cons kv2 rest => exact ⟨_, by rw [encodeMembers_cons_cons, appendString_cons]; rfl⟩

/-- Decoding the object `json.Marshal` wrote for a list of members with valid
UTF-8 keys and values gives the map built from that list. -/
theorem unmarshal_object (l : List (GoString × GoString)) (hl : l ≠ [])
    (hvalid : ∀ kv ∈ l, utf8.ValidString kv.1 = true ∧ utf8.ValidString kv.2 = true) :
    json.Unmarshal ([0x7B] ++ json.encodeMembers l ++ [0x7D]) = some (GoMap.ofList l) := by
  obtain ⟨t, ht⟩ := encodeMembers_head l hl
  have hlen := encodeMembers_length l
  unfold json.Unmarshal
  rw [show [0x7B] ++ json.encodeMembers l ++ [0x7D]
      = 0x7B :: (json.encodeMembers l ++ [0x7D]) by simp,
    skipSpace_cons 0x7B _ (by decide)]
  simp only [if_true]
  have hskip : json.skipSpace (json.encodeMembers l ++ [0x7D])
      = 0x22 :: (t ++ [0x7D]) := by
    rw [ht]
    exact skipSpace_cons 0x22 _ (by decide)
  rw [hskip]
  simp only [show ¬ ((0x22 : Byte) = 0x7D) by decide, if_false]
  rw [parseMembers_encodeMembers l hl hvalid _ (by simp; omega)]
  rfl

/-! ## The request body -/

/-- A map built from pairs with distinct keys holds exactly those pairs. -/
theorem ofList_lookup (l : List (GoString × GoString)) (hnd : (l.map Prod.fst).Nodup)
    (k v : GoString) : (GoMap.ofList l).lookup k = some v ↔ (k, v) ∈ l :=
  foldl_set_lookup_iff l hnd k v

/-- Decoding what `json.Marshal` wrote for a non-empty map with valid UTF-8
keys and values gives a map with the same entries. -/
theorem unmarshal_marshal (m : Option (GoMap GoString)) (hlen : GoMap.len m > 0)
    (hvalid : ∀ kv ∈ GoMap.pairs m,
      utf8.ValidString kv.1 = true ∧ utf8.ValidString kv.2 = true) :
    ∃ body d, json.Marshal m = .ok body ∧ body ≠ [] ∧ json.Unmarshal body = some d
      ∧ ∀ k, d.lookup k = GoMap.index m k := by
  cases m with
  | none => simp [GoMap.len] at hlen
  | some m =>
    have hperm : (List.insertionSort (fun a b : GoString × GoString => a.1 ≤ b.1)
        (GoMap.pairs (some m))).Perm (GoMap.pairs (some m)) := List.perm_insertionSort _ _
    have hne : List.insertionSort (fun a b : GoString × GoString => a.1 ≤ b.1)
        (GoMap.pairs (some m)) ≠ [] := by
      intro h
      have := hperm.length_eq
      rw [h] at this
      simp [GoMap.pairs, GoMap.len] at this hlen
      omega
    refine ⟨_, GoMap.ofList _, rfl, by simp, unmarshal_object _ hne
      (fun kv hkv => hvalid kv (hperm.mem_iff.mp hkv)), ?_⟩
    intro k
    apply Option.ext
    intro v
    rw [Option.mem_def, Option.mem_def,
      ofList_lookup _ ((hperm.map Prod.fst).nodup_iff.mpr (pairs_keys_nodup (some m))),
      hperm.mem_iff, mem_pairs_iff]

/-- C2 as stated fails: for the body field `k` with the one-byte value 0xFF
(not valid UTF-8), the body sent is the JSON object with the escape of U+FFFD
in place of that byte, and it decodes to the three bytes EF BF BD, not to the
value in `Data`. -/
theorem C2_counterexample_invalid_utf8 :
    GoMap.index badUtf8.Data (str "k") = some [0xFF]
    ∧ (sendRequest refuse badUtf8 (str "/echo") http.MethodPost).sent.map (fun r => r.Body)
        = some (some (str "\x7b\"k\":\"\\ufffd\"\x7d"))
    ∧ (json.Unmarshal (str "\x7b\"k\":\"\\ufffd\"\x7d")).map (fun d => d.lookup (str "k"))
        = some (some [0xEF, 0xBF, 0xBD]) := by
  refine ⟨by rfl, by rfl, by rfl⟩

/-- C2 (amended): for every method and path, a request built from an empty
(or nil) `Data` carries no body; one built from a non-empty `Data` whose keys
and values are all valid UTF-8 carries a body that is a flat JSON object and
decodes to exactly the mapping `Data`; `{"key":"value"}` gives exactly the 15
bytes `{"key":"value"}`.  (Bytes that are not valid UTF-8 are sent as U+FFFD
and are not promised to decode to themselves.) -/
theorem C2_request_body (env : Env) (client : HTTPClient) (path method : GoString)
    (req : http.Request)
    (hsent : (sendRequest env client path method).sent = some req) :
    (GoMap.len client.Data = 0 → req.Body = none ∧ req.ContentLength = 0)
    ∧ (GoMap.len client.Data > 0 →
        (∀ kv ∈ GoMap.pairs client.Data,
          utf8.ValidString kv.1 = true ∧ utf8.ValidString kv.2 = true) →
        ∃ body d, req.Body = some body ∧ req.ContentLength = body.length
          ∧ json.Unmarshal body = some d
          ∧ ∀ k, d.lookup k = GoMap.index client.Data k)
    ∧ (sendRequest refuse keyValue (str "/echo") http.MethodPost).sent.map (fun r => r.Body)
        = some (some (str "\x7b\"key\":\"value\"\x7d"))
    ∧ (str "\x7b\"key\":\"value\"\x7d").length = 15 := by
  obtain ⟨_, requestData, req0, _, hrd, hreq0, rfl⟩ :=
    sendRequest_sent env client path method req hsent
  obtain ⟨u, _, rfl⟩ := newRequest_ok _ _ _ _ hreq0
  refine ⟨?_, ?_, by rfl, by decide⟩
  · intro hlen
    have : requestData = [] := by
      rw [if_neg (by omega)] at hrd
      simpa using hrd.symm
    subst this
    simp [outgoing]
  · intro hlen hvalid
    obtain ⟨body, d, hm, hne, hu, hd⟩ := unmarshal_marshal client.Data hlen hvalid
    rw [if_pos hlen, hm] at hrd
    have : requestData = body := by simpa using hrd.symm
    subst this
    refine ⟨requestData, d, ?_, ?_, hu, hd⟩
    · have hl : ¬ requestData.length = 0 := by
        intro h0
        exact hne (List.length_eq_zero.mp h0)
      simp [outgoing, hl]
    · simp [outgoing]

theorem C2_request_body_witness :
    (∀ req, (sendRequest refuse keyValue (str "/echo") http.MethodPost).sent = some req →
      GoMap.len keyValue.Data > 0
      ∧ (∀ kv ∈ GoMap.pairs keyValue.Data,
          utf8.ValidString kv.1 = true ∧ utf8.ValidString kv.2 = true)
      ∧ ∃ body d, req.Body = some body ∧ req.ContentLength = body.length
          ∧ json.Unmarshal body = some d
          ∧ ∀ k, d.lookup k = GoMap.index keyValue.Data k)
    ∧ (∀ req, (sendRequest refuse (New (str "http://h")) (str "/") http.MethodGet).sent
          = some req →
        GoMap.len (New (str "http://h")).Data = 0 ∧ req.Body = none ∧ req.ContentLength = 0) :=
  ⟨fun req hreq =>
    ⟨by decide, by decide,
      (C2_request_body refuse keyValue (str "/echo") http.MethodPost req hreq).2.1
        (by decide) (by decide)⟩,
   fun req hreq =>
    ⟨rfl, (C2_request_body refuse (New (str "http://h")) (str "/") http.MethodGet req hreq).1
      rfl⟩⟩

/-! ## Timeout override -/

/-- C11: on a client whose transport handle is present, `SetTimeout(d)`
returns normally and leaves the handle with timeout `d` (its other field as
it was) and `BaseURL`, `Headers`, `Data` and `Params` unchanged; a second call
overrides the first, so two calls in a row leave what the last one alone
would; 30 seconds replaces the 10-second default of `New`. -/
theorem C11_setTimeout_frame (client : HTTPClient) (c : http.Client) (d : time.Duration)
    (h : client.Client = some c) :
    (∃ client2, client.SetTimeout d = some client2
      ∧ client2.Client = some { c with Timeout := d }
      ∧ (∃ c2, client2.Client = some c2 ∧ c2.Timeout = d ∧ c2.Transport = c.Transport)
      ∧ client2.BaseURL = client.BaseURL
      ∧ client2.Headers = client.Headers
      ∧ client2.Data = client.Data
      ∧ client2.Params = client.Params)
    ∧ (∀ d2 : time.Duration,
        (client.SetTimeout d).bind (fun client2 => client2.SetTimeout d2)
          = client.SetTimeout d2)
    ∧ (∀ s : GoString, ((New s).SetTimeout (30 * time.Second)).map
          (fun client2 => client2.Client.map (fun c2 => c2.Timeout))
        = some (some 30000000000)) := by
  refine ⟨?_, ?_, ?_⟩
  · refine ⟨{ client with Client := some { c with Timeout := d } }, ?_, rfl,
      ⟨_, rfl, rfl, rfl⟩, rfl, rfl, rfl, rfl⟩
    unfold HTTPClient.SetTimeout
    rw [h]
  · intro d2
    unfold HTTPClient.SetTimeout
    rw [h]
    rfl
  · intro s
    rfl

theorem C11_setTimeout_frame_witness :
    (New (str "https://example.com")).Client = some { Timeout := defaultTimeout }
    ∧ (∃ client2, (New (str "https://example.com")).SetTimeout (30 * time.Second) = some client2
        ∧ client2.Client = some { Timeout := 30 * time.Second }
        ∧ (∃ c2, client2.Client = some c2 ∧ c2.Timeout = 30 * time.Second
            ∧ c2.Transport = none)
        ∧ client2.BaseURL = str "https://example.com"
        ∧ client2.Headers = some GoMap.make
        ∧ client2.Data = some GoMap.make
        ∧ client2.Params = some GoMap.make) :=
  ⟨rfl, (C11_setTimeout_frame (New (str "https://example.com")) { Timeout := defaultTimeout }
    (30 * time.Second) rfl).1⟩

/-! ## The client across calls -/

/-- The client a call returns is the client it was given. -/
theorem sendRequest_client (env : Env) (client : HTTPClient) (path method : GoString) :
    (sendRequest env client path method).client = client := by
  cases hhc : client.Client with
  | none => rw [sendRequest_nil env client path method hhc]
  | some hc =>
    obtain ⟨requestData, hrd⟩ := requestData_ok client
    cases hreq0 : http.NewRequest method (client.BaseURL ++ path) requestData with
    | error e =>
      rw [sendRequest_newRequest_error env client path method hc requestData e hhc hrd hreq0]
    | ok req0 =>
      rw [sendRequest_built env client path method hc requestData req0 hhc hrd hreq0]
      cases hdo : env.Do hc (outgoing env.order client req0) with
      | error err => rfl
      | ok response =>
        cases hb : response.Body with
        | error err => simp only [hb]
        | ok body => simp only [hb]

/-- The body of the request sent is a function of `Data` alone. -/
theorem sent_body (env : Env) (client : HTTPClient) (path method : GoString)
    (req : http.Request) (h : (sendRequest env client path method).sent = some req) :
    ∃ requestData,
      (if GoMap.len client.Data > 0 then json.Marshal client.Data else .ok [])
          = (Except.ok requestData : Except GoError GoString)
      ∧ req.Body = (if requestData.length = 0 then none else some requestData)
      ∧ req.ContentLength = requestData.length := by
  obtain ⟨_, requestData, req0, _, hrd, hreq0, rfl⟩ := sendRequest_sent env client path method req h
  obtain ⟨u, _, rfl⟩ := newRequest_ok _ _ _ _ hreq0
  exact ⟨requestData, hrd, rfl, rfl⟩

/-! ## Calls that reach the transport -/

/-- The request `http.NewRequest` returns when the method is a token and the
URL string parses. -/
theorem newRequest_of_parse (method urlStr body : GoString) (u : url.URL)
    (hm : http.validMethod (if method = [] then str "GET" else method) = true)
    (hp : url.Parse urlStr = .ok u) :
    http.NewRequest method urlStr body = .ok
      { Method := if method = [] then str "GET" else method
        URL := { u with Host := http.removeEmptyPort u.Host }
        Header := GoMap.make
        Body := if body.length = 0 then none else some body
        ContentLength := body.length
        Host := http.removeEmptyPort u.Host } := by
  unfold http.NewRequest
  simp only [hm, hp, Bool.not_true, Bool.false_eq_true, if_false]

/-- The error `http.NewRequest` returns when the method is a token and the URL
string does not parse. -/
theorem newRequest_of_parse_error (method urlStr body : GoString) (e : GoError)
    (hm : http.validMethod (if method = [] then str "GET" else method) = true)
    (hp : url.Parse urlStr = .error e) :
    http.NewRequest method urlStr body = .error e := by
  unfold http.NewRequest
  simp only [hm, hp, Bool.not_true, Bool.false_eq_true, if_false]

theorem sendRequest_built_sent (env : Env) (client : HTTPClient) (path method : GoString)
    (hc : http.Client) (requestData : GoString) (req0 : http.Request)
    (hhc : client.Client = some hc)
    (hrd : (if GoMap.len client.Data > 0 then json.Marshal client.Data else .ok [])
          = (Except.ok requestData : Except GoError GoString))
    (hreq0 : http.NewRequest method (client.BaseURL ++ path) requestData = .ok req0) :
    (sendRequest env client path method).sent = some (outgoing env.order client req0) := by
  rw [sendRequest_built env client path method hc requestData req0 hhc hrd hreq0]
  cases hdo : env.Do hc (outgoing env.order client req0) with
  | error err => rfl
  | ok response =>
    cases hb : response.Body with
    | error err => simp only [hb]
    | ok body => simp only [hb]

/-- With the transport handle present, a method that is a token and a URL
string that parses, the call sends a request: the one `http.NewRequest`
makes from the method, the URL string `BaseURL ++ path` and the request body,
with the headers set and the query re-encoded. -/
theorem sendRequest_sends (env : Env) (client : HTTPClient) (path method : GoString)
    (hc : http.Client) (u : url.URL)
    (hh : client.Client = some hc)
    (hm : http.validMethod (if method = [] then str "GET" else method) = true)
    (hp : url.Parse (client.BaseURL ++ path) = .ok u) :
    ∃ requestData,
      (if GoMap.len client.Data > 0 then json.Marshal client.Data else .ok [])
          = (Except.ok requestData : Except GoError GoString)
      ∧ (sendRequest env client path method).sent = some (outgoing env.order client
          { Method := if method = [] then str "GET" else method
            URL := { u with Host := http.removeEmptyPort u.Host }
            Header := GoMap.make
            Body := if requestData.length = 0 then none else some requestData
            ContentLength := requestData.length
            Host := http.removeEmptyPort u.Host }) := by
  obtain ⟨requestData, hrd⟩ := requestData_ok client
  exact ⟨requestData, hrd, sendRequest_built_sent env client path method hc requestData _ hh hrd
    (newRequest_of_parse method _ requestData u hm hp)⟩

/-! ## The URL of the request -/

/-- C9: with the transport handle present and a method that is a token, the
call constructs its request from exactly the string `BaseURL ++ path`: when
that string parses as a URL a request is sent whose URL is the parse of that
string (host with an empty port removed, query re-encoded), whatever the
other fields of the client are; when it does not parse, nothing is sent and
the call returns the parse error of that string.  A call on any other client
with the same base URL (and a transport handle) sends to the same URL and
host, the query apart, or sends nothing as well.  Nothing is inserted,
removed or collapsed: "http://h/" with "/x" is sent to host "h", path "//x",
and "http://h" with "x" to host "hx" with an empty path. -/
theorem C9_url_is_verbatim_concatenation (env : Env) (client : HTTPClient)
    (path method : GoString) (hc : http.Client)
    (hh : client.Client = some hc)
    (hm : http.validMethod (if method = [] then str "GET" else method) = true) :
    (∀ u, url.Parse (client.BaseURL ++ path) = .ok u →
      ∃ req, (sendRequest env client path method).sent = some req
        ∧ req.URL = { u with Host := http.removeEmptyPort u.Host, RawQuery := req.URL.RawQuery }
        ∧ req.Host = http.removeEmptyPort u.Host)
    ∧ (∀ e, url.Parse (client.BaseURL ++ path) = .error e →
        (sendRequest env client path method).sent = none
        ∧ (sendRequest env client path method).err
            = some (str "simplehttp: " ++ method ++ str " " ++ path
                ++ str ": creating request: " ++ e.Error env.isPrint))
    ∧ (∀ (env2 : Env) (client2 : HTTPClient) (hc2 : http.Client),
        client2.Client = some hc2 → client2.BaseURL = client.BaseURL →
        (sendRequest env2 client2 path method).sent.map
            (fun r => ({ r.URL with RawQuery := [] }, r.Host))
          = (sendRequest env client path method).sent.map
            (fun r => ({ r.URL with RawQuery := [] }, r.Host)))
    ∧ (sendRequest refuse (New (str "http://h/")) (str "/x") http.MethodGet).sent.map
        (fun r => (r.URL.Scheme, r.URL.Host, r.URL.Path, r.Host))
        = some (str "http", str "h", str "//x", str "h")
    ∧ (sendRequest refuse (New (str "http://h")) (str "x") http.MethodGet).sent.map
        (fun r => (r.URL.Scheme, r.URL.Host, r.URL.Path, r.Host))
        = some (str "http", str "hx", [], str "hx") := by
  refine ⟨?_, ?_, ?_, by rfl, by rfl⟩
  · intro u hp
    obtain ⟨requestData, _, hsent⟩ := sendRequest_sends env client path method hc u hh hm hp
    exact ⟨_, hsent, rfl, rfl⟩
  · intro e hp
    obtain ⟨requestData, hrd⟩ := requestData_ok client
    rw [sendRequest_newRequest_error env client path method hc requestData e hh hrd
      (newRequest_of_parse_error method _ requestData e hm hp)]
    exact ⟨rfl, rfl⟩
  · intro env2 client2 hc2 hh2 hbase
    cases hp : url.Parse (client.BaseURL ++ path) with
    | error e =>
      obtain ⟨d1, hrd1⟩ := requestData_ok client
      obtain ⟨d2, hrd2⟩ := requestData_ok client2
      rw [sendRequest_newRequest_error env client path method hc d1 e hh hrd1
          (newRequest_of_parse_error method _ d1 e hm hp),
        sendRequest_newRequest_error env2 client2 path method hc2 d2 e hh2 hrd2
          (newRequest_of_parse_error method _ d2 e hm (hbase ▸ hp))]
    | ok u =>
      obtain ⟨d1, _, hs1⟩ := sendRequest_sends env client path method hc u hh hm hp
      obtain ⟨d2, _, hs2⟩ := sendRequest_sends env2 client2 path method hc2 u hh2 hm
        (hbase ▸ hp)
      rw [hs1, hs2]
      rfl

theorem C9_url_is_verbatim_concatenation_witness :
    (New (str "http://h/")).Client = some { Timeout := defaultTimeout }
    ∧ http.validMethod (if http.MethodGet = [] then str "GET" else http.MethodGet) = true
    ∧ url.Parse ((New (str "http://h/")).BaseURL ++ str "/x")
        = .ok { Scheme := str "http", Host := str "h", Path := str "//x" }
    ∧ (∃ req, (sendRequest refuse (New (str "http://h/")) (str "/x") http.MethodGet).sent
          = some req
        ∧ req.URL = { Scheme := str "http", Host := str "h", Path := str "//x",
                      RawQuery := req.URL.RawQuery }
        ∧ req.Host = str "h") :=
  ⟨rfl, by decide, by rfl,
    (C9_url_is_verbatim_concatenation refuse (New (str "http://h/")) (str "/x") http.MethodGet
      { Timeout := defaultTimeout } rfl (by decide)).1
      { Scheme := str "http", Host := str "h", Path := str "//x" } (by rfl)⟩
/-! ## Headers of the request sent -/

/-- The headers of the request built from `req0`, which has none. -/
theorem outgoing_header (o : RangeOrder) (client : HTTPClient) (req0 : http.Request)
    (h0 : req0.Header = GoMap.make) :
    (outgoing o client req0).Header
      = (GoMap.range o 0 client.Headers).foldl (fun h kv => http.Header.Set h kv.1 kv.2)
          (GoMap.make : http.Header) := by
  simp only [outgoing, h0]

theorem range_canonical_nodup (o : RangeOrder) (loop : Nat) (m : Option (GoMap GoString))
    (hnd : ((GoMap.pairs m).map (fun kv => textproto.CanonicalMIMEHeaderKey kv.1)).Nodup) :
    ((GoMap.range o loop m).map (fun kv => textproto.CanonicalMIMEHeaderKey kv.1)).Nodup :=
  (((range_perm o loop m).map _).nodup_iff).mpr hnd

/-- C3 as stated fails: with the two keys `accept` and `Accept` in one header
mapping, the request sent carries a single `Accept` header holding the value
of whichever entry the `range` loop visits last: visiting `accept` first the
entry `accept: 1` is not in the request with its value, and the same client
with the loop running the other way sends the other value. -/
theorem C3_counterexample_case_colliding_keys :
    GoMap.index caseClash.Headers (str "accept") = some (str "1")
    ∧ GoMap.index caseClash.Headers (str "Accept") = some (str "2")
    ∧ (sendRequest refuse caseClash (str "/") http.MethodGet).sent.map
        (fun r => r.Header.Values (str "accept")) = some [str "2"]
    ∧ (sendRequest refuseReversed caseClash (str "/") http.MethodGet).sent.map
        (fun r => r.Header.Values (str "accept")) = some [str "1"] := by
  refine ⟨by rfl, by rfl, by rfl, by rfl⟩

/-- C3 (amended): when the keys of the header mapping stay pairwise distinct
after canonicalisation (no two differ only in letter case), and the call
gets to send a request (transport handle present, method a token, URL string
parsing), the request sent holds every entry `(k, v)` of the mapping as
header `k`, looked up under its canonical name, with the single value `v`,
and for a key made of header field bytes under any spelling that differs from
`k` in letter case only; `Header.Set` replaces whatever the name held before;
and the headers sent are the same whatever the order in which the loop visits
the entries. -/
theorem C3_headers_applied (env1 env2 : Env) (client : HTTPClient)
    (path method : GoString) (hc : http.Client) (u : url.URL)
    (hh : client.Client = some hc)
    (hm : http.validMethod (if method = [] then str "GET" else method) = true)
    (hp : url.Parse (client.BaseURL ++ path) = .ok u)
    (hnd : ((GoMap.pairs client.Headers).map
      (fun kv => textproto.CanonicalMIMEHeaderKey kv.1)).Nodup) :
    ∃ req1 req2, (sendRequest env1 client path method).sent = some req1
      ∧ (sendRequest env2 client path method).sent = some req2
      ∧ (∀ k v, (k, v) ∈ GoMap.pairs client.Headers →
          req1.Header.Values k = [v]
          ∧ req1.Header.lookup (textproto.CanonicalMIMEHeaderKey k) = some [v]
          ∧ (k.all textproto.validHeaderFieldByte = true →
              ∀ k2, strings.ToLower k2 = strings.ToLower k → req1.Header.Values k2 = [v]))
      ∧ (∀ (h : http.Header) (k v : GoString), (h.Set k v).Values k = [v])
      ∧ (∀ name, req1.Header.lookup name = req2.Header.lookup name) := by
  obtain ⟨d1, _, hs1⟩ := sendRequest_sends env1 client path method hc u hh hm hp
  obtain ⟨d2, _, hs2⟩ := sendRequest_sends env2 client path method hc u hh hm hp
  refine ⟨_, _, hs1, hs2, ?_, ?_, ?_⟩
  · intro k v hmem
    rw [outgoing_header _ _ _ rfl]
    have hmem1 : (k, v) ∈ GoMap.range env1.order 0 client.Headers :=
      (range_perm env1.order 0 client.Headers).mem_iff.mpr hmem
    have this : AList.lookup (textproto.CanonicalMIMEHeaderKey k)
        ((GoMap.range env1.order 0 client.Headers).foldl
          (fun h kv => http.Header.Set h kv.1 kv.2) (GoMap.make : http.Header)) = some [v] :=
      foldl_set_lookup_present (GoMap.range env1.order 0 client.Headers) GoMap.make
        (range_canonical_nodup env1.order 0 client.Headers hnd) (k, v) hmem1
    refine ⟨by simp only [http.Header.Values, GoMap.index]; rw [this]; rfl, this, ?_⟩
    intro hvalid k2 hcase
    simp only [http.Header.Values, GoMap.index]
    rw [canonical_case_insensitive k k2 hvalid hcase, this]
    rfl
  · intro h k v
    simp only [http.Header.Values, GoMap.index]
    rw [header_set_lookup_self]
    rfl
  · intro name
    rw [outgoing_header _ _ _ rfl, outgoing_header _ _ _ rfl]
    exact foldl_set_lookup_perm _ _ _ (range_canonical_nodup env1.order 0 client.Headers hnd)
      ((range_perm env1.order 0 client.Headers).trans
        (range_perm env2.order 0 client.Headers).symm) name

theorem C3_headers_applied_witness :
    headTestClient.Client = some { Timeout := defaultTimeout }
    ∧ http.validMethod (if http.MethodHead = [] then str "GET" else http.MethodHead) = true
    ∧ url.Parse (headTestClient.BaseURL ++ str "/header")
        = .ok { Scheme := str "http", Host := str "h", Path := str "/header" }
    ∧ ((GoMap.pairs headTestClient.Headers).map
        (fun kv => textproto.CanonicalMIMEHeaderKey kv.1)).Nodup
    ∧ (∃ req1 req2,
        (sendRequest refuse headTestClient (str "/header") http.MethodHead).sent = some req1
        ∧ (sendRequest refuseReversed headTestClient (str "/header") http.MethodHead).sent
            = some req2
        ∧ req1.Header.Values (str "accept") = [str "Application/JSON"]
        ∧ req1.Header.Values (str "ACCEPT") = [str "Application/JSON"]
        ∧ req1.Header.Values (str "Content-Type") = [str "Application/JSON"]
        ∧ ∀ name, req1.Header.lookup name = req2.Header.lookup name) :=
  ⟨rfl, by decide, by rfl, by decide,
    have ⟨req1, req2, h1, h2, h, _, hsame⟩ :=
      C3_headers_applied refuse refuseReversed headTestClient (str "/header") http.MethodHead
        { Timeout := defaultTimeout }
        { Scheme := str "http", Host := str "h", Path := str "/header" } rfl (by decide)
        (by rfl) (by decide)
    ⟨req1, req2, h1, h2, (h (str "accept") (str "Application/JSON") (by decide)).1,
      (h (str "accept") (str "Application/JSON") (by decide)).2.2 (by decide) (str "ACCEPT")
        (by decide),
      (h (str "Content-Type") (str "Application/JSON") (by decide)).1, hsame⟩⟩
/-! ## Query parameters: a path without a query string -/

theorem mem_of_mem_cut_fst (s : GoString) (sep x : Byte) (h : x ∈ (strings.Cut s sep).1) :
    x ∈ s := by
  induction s with
  | nil => simp [strings.Cut] at h
  | cons c t ih =>
    unfold strings.Cut at h
    split at h
    · simp at h
    · rcases List.mem_cons.mp h with rfl | hx
      · exact List.mem_cons_self _ _
      · exact List.mem_cons_of_mem _ (ih hx)

theorem cut_fst_of_mem (a b : GoString) (sep : Byte) (h : sep ∈ a) :
    (strings.Cut (a ++ b) sep).1 = (strings.Cut a sep).1 := by
  induction a with
  | nil => simp at h
  | cons c t ih =>
    by_cases hc : c = sep
    · simp [strings.Cut, hc]
    · have ht : sep ∈ t := by
        rcases List.mem_cons.mp h with e | e
        · exact absurd e.symm hc
        · exact e
      simp [strings.Cut, hc, ih ht]

/-- A base URL without a question mark adds no query string to a path that has
none. -/
theorem queryOf_append_eq_nil (base path : GoString) (hb : (0x3F : Byte) ∉ base)
    (hq : queryOf path = []) : queryOf (base ++ path) = [] := by
  by_cases hf : (0x23 : Byte) ∈ base
  · unfold queryOf
    rw [cut_fst_of_mem _ _ _ hf]
    exact cut_eq_nil_of_not_mem _ _ (fun hmem => hb (mem_of_mem_cut_fst _ _ _ hmem))
  · unfold queryOf at hq ⊢
    rw [cut_fst_append _ _ _ hf, cut_skip _ _ _ hb]
    exact hq

/-- C4 as stated fails: the path `/p` has no query string, yet with the base
URL `http://h?x=1` and the single parameter `y=2` the request sent has the raw
query `x=1%2Fp&y=2`, which parses to the key `x` with the value `1/p` besides
the entry of `Params`: the query string of the base URL takes the path into
its last value and stays in the request. -/
theorem C4_counterexample_query_in_base_url :
    queryOf (str "/p") = []
    ∧ GoMap.pairs queryInBase.Params = [(str "y", str "2")]
    ∧ (sendRequest refuse queryInBase (str "/p") http.MethodGet).sent.map
        (fun r => r.URL.RawQuery) = some (str "x=1%2Fp&y=2")
    ∧ (url.ParseQuery (str "x=1%2Fp&y=2")).Get (str "x") = [str "1/p"]
    ∧ GoMap.index queryInBase.Params (str "x") = none := by
  refine ⟨by decide, by rfl, by rfl, by rfl, by rfl⟩

/-- C4 (amended): for a base URL that holds no question mark and a path with
no query string, a call that gets to send (transport handle present, method a
token, URL string parsing) sends a request whose raw query contains the
percent-encoded pair `k=v` of every entry of `Params`; parsing that raw query
gives, for every key, exactly the single value `Params` holds for it and
nothing for any other key; and every such call whose `Params` hold the same
entries, whatever the order in which its loop visits them and whatever its
other arguments, sends the same raw query.  `{"foo":"bar"}` gives `foo=bar`,
`{"a":"1","b":"2"}` gives `a=1&b=2`. -/
theorem C4_params_encoded (env : Env) (client : HTTPClient) (path method : GoString)
    (hc : http.Client) (u : url.URL)
    (hh : client.Client = some hc)
    (hm : http.validMethod (if method = [] then str "GET" else method) = true)
    (hp : url.Parse (client.BaseURL ++ path) = .ok u)
    (hb : (0x3F : Byte) ∉ client.BaseURL)
    (hq : queryOf path = []) :
    ∃ req, (sendRequest env client path method).sent = some req
      ∧ (∀ k v, GoMap.index client.Params k = some v →
          url.QueryEscape k ++ [0x3D] ++ url.QueryEscape v <:+: req.URL.RawQuery)
      ∧ (∀ k, (url.ParseQuery req.URL.RawQuery).lookup k
          = (GoMap.index client.Params k).map (fun v => [v]))
      ∧ (∀ (env2 : Env) (client2 : HTTPClient) (path2 method2 : GoString)
          (hc2 : http.Client) (u2 : url.URL), client2.Client = some hc2 →
          http.validMethod (if method2 = [] then str "GET" else method2) = true →
          url.Parse (client2.BaseURL ++ path2) = .ok u2 →
          (0x3F : Byte) ∉ client2.BaseURL → queryOf path2 = [] →
          (GoMap.pairs client2.Params).Perm (GoMap.pairs client.Params) →
          ∃ req2, (sendRequest env2 client2 path2 method2).sent = some req2
            ∧ req2.URL.RawQuery = req.URL.RawQuery)
      ∧ (sendRequest refuse fooBar (str "/query-parameter") http.MethodGet).sent.map
          (fun r => r.URL.RawQuery) = some (str "foo=bar")
      ∧ (sendRequest refuse abParams (str "/query-parameter") http.MethodGet).sent.map
          (fun r => r.URL.RawQuery) = some (str "a=1&b=2") := by
  have key : ∀ (env : Env) (client : HTTPClient) (path method : GoString)
      (hc : http.Client) (u : url.URL), client.Client = some hc →
      http.validMethod (if method = [] then str "GET" else method) = true →
      url.Parse (client.BaseURL ++ path) = .ok u →
      (0x3F : Byte) ∉ client.BaseURL → queryOf path = [] →
      ∃ req, (sendRequest env client path method).sent = some req
        ∧ req.URL.RawQuery = url.Values.Encode
          ((GoMap.range env.order 1 client.Params).foldl
            (fun q kv => url.Values.Add q kv.1 kv.2) GoMap.make) := by
    intro env client path method hc u hh hm hp hb hq
    obtain ⟨_, _, hsent⟩ := sendRequest_sends env client path method hc u hh hm hp
    refine ⟨_, hsent, ?_⟩
    have hraw := sent_rawQuery env client path method _ hsent
    rw [queryOf_append_eq_nil _ _ hb hq] at hraw
    exact hraw
  obtain ⟨req, hsent, hraw⟩ := key env client path method hc u hh hm hp hb hq
  have hget : ∀ k, url.Values.Get ((GoMap.range env.order 1 client.Params).foldl
      (fun q kv => url.Values.Add q kv.1 kv.2) GoMap.make) k
        = (GoMap.index client.Params k).toList := by
    intro k
    rw [get_foldl_add, get_make, List.nil_append, valuesOf_range]
  refine ⟨req, hsent, ?_, ?_, ?_, by rfl, by rfl⟩
  · intro k v hidx
    rw [hraw]
    apply encodePair_infix_encode _ k v
    rw [hget, hidx]
    simp
  · intro k
    rw [hraw, lookup_parseQuery_encode, hget]
    cases GoMap.index client.Params k <;> simp
  · intro env2 client2 path2 method2 hc2 u2 hh2 hm2 hp2 hb2 hq2 hperm
    obtain ⟨req2, hsent2, hraw2⟩ := key env2 client2 path2 method2 hc2 u2 hh2 hm2 hp2 hb2 hq2
    refine ⟨req2, hsent2, ?_⟩
    rw [hraw, hraw2]
    apply encode_congr
    intro k
    rw [lookup_eq_none_of_get_nil_foldl, lookup_eq_none_of_get_nil_foldl, valuesOf_range,
      valuesOf_range, index_perm _ _ hperm k]

theorem C4_params_encoded_witness :
    abParams.Client = some { Timeout := defaultTimeout }
    ∧ http.validMethod (if http.MethodGet = [] then str "GET" else http.MethodGet) = true
    ∧ url.Parse (abParams.BaseURL ++ str "/query-parameter")
        = .ok { Scheme := str "http", Host := str "h", Path := str "/query-parameter" }
    ∧ (0x3F : Byte) ∉ abParams.BaseURL
    ∧ queryOf (str "/query-parameter") = []
    ∧ (∃ req, (sendRequest refuseReversed abParams (str "/query-parameter") http.MethodGet).sent
          = some req
        ∧ str "a=1" <:+: req.URL.RawQuery ∧ str "b=2" <:+: req.URL.RawQuery
        ∧ (url.ParseQuery req.URL.RawQuery).lookup (str "a") = some [str "1"]
        ∧ (url.ParseQuery req.URL.RawQuery).lookup (str "c") = none
        ∧ ∃ req2, (sendRequest refuse abParams (str "/other") http.MethodPost).sent = some req2
            ∧ req2.URL.RawQuery = req.URL.RawQuery) :=
  ⟨rfl, by decide, by rfl, by decide, by decide,
    have ⟨req, hsent, hin, hparse, hsame, _⟩ :=
      C4_params_encoded refuseReversed abParams (str "/query-parameter") http.MethodGet
        { Timeout := defaultTimeout }
        { Scheme := str "http", Host := str "h", Path := str "/query-parameter" }
        rfl (by decide) (by rfl) (by decide) (by decide)
    ⟨req, hsent, hin (str "a") (str "1") (by rfl), hin (str "b") (str "2") (by rfl),
      hparse (str "a"), hparse (str "c"),
      hsame refuse abParams (str "/other") http.MethodPost { Timeout := defaultTimeout }
        { Scheme := str "http", Host := str "h", Path := str "/other" }
        rfl (by decide) (by rfl) (by decide) (by decide) (List.Perm.refl _)⟩⟩

/-! ## Query parameters: a path with a query string -/

/-- The query string of the URL string is the one of the path when the base
URL holds neither a question mark nor a number sign. -/
theorem queryOf_append (base path : GoString) (h1 : (0x3F : Byte) ∉ base)
    (h2 : (0x23 : Byte) ∉ base) : queryOf (base ++ path) = queryOf path := by
  unfold queryOf
  rw [cut_fst_append _ _ _ h2, cut_skip _ _ _ h1]

theorem index_eq_none_of_len (m : Option (GoMap GoString)) (hlen : GoMap.len m = 0)
    (k : GoString) : GoMap.index m k = none := by
  cases m with
  | none => rfl
  | some m =>
    have he : m.entries = [] := by simpa [GoMap.len] using hlen
    have : k ∉ m.keys := by simp [AList.keys, he]
    exact AList.lookup_eq_none.mpr this

/-- C5 as stated fails: the path `/p?a=1` carries the query string `a=1`, from
which `url.ParseQuery` reads the pair `a=1`; yet with the base URL
`http://h#f` and no parameter at all the request sent has an empty raw query:
base URL and path are joined as they are, so the path and its query string
fall into the fragment of the base URL.  With the base URL `http://h?x=1` the
path's query string ends up inside the value of `x`, and the key `a` is not
in the request either. -/
theorem C5_counterexample_path_query_lost :
    queryOf (str "/p?a=1") = str "a=1"
    ∧ (url.ParseQuery (queryOf (str "/p?a=1"))).Get (str "a") = [str "1"]
    ∧ GoMap.len (New (str "http://h#f")).Params = 0
    ∧ (sendRequest refuse (New (str "http://h#f")) (str "/p?a=1") http.MethodGet).sent.map
        (fun r => (r.URL.RawQuery, r.URL.Fragment)) = some ([], str "f/p?a=1")
    ∧ (sendRequest refuse (New (str "http://h?x=1")) (str "/p?a=1") http.MethodGet).sent.map
        (fun r => r.URL.RawQuery) = some (str "x=1%2Fp%3Fa%3D1")
    ∧ (url.ParseQuery (str "x=1%2Fp%3Fa%3D1")).Get (str "a") = [] := by
  refine ⟨by decide, by rfl, by rfl, by rfl, by rfl, by rfl⟩

/-- C5 (amended): for a base URL that holds neither a question mark nor a
number sign, a call that gets to send (transport handle present, method a
token, URL string parsing) sends a request whose query holds, for every key,
the values `url.ParseQuery` reads for that key from the query string of the
path, in their order, followed by the value `Params` holds for the key, if
any: a parameter whose key is already in the path adds a value and replaces
none, and with no parameters the values read from the path are all there and
nothing else is. -/
theorem C5_query_appended (env : Env) (client : HTTPClient) (path method : GoString)
    (hc : http.Client) (u : url.URL)
    (hh : client.Client = some hc)
    (hm : http.validMethod (if method = [] then str "GET" else method) = true)
    (hp : url.Parse (client.BaseURL ++ path) = .ok u)
    (hb1 : (0x3F : Byte) ∉ client.BaseURL)
    (hb2 : (0x23 : Byte) ∉ client.BaseURL) :
    ∃ req, (sendRequest env client path method).sent = some req
      ∧ (∀ k, (url.ParseQuery req.URL.RawQuery).Get k
          = (url.ParseQuery (queryOf path)).Get k ++ (GoMap.index client.Params k).toList)
      ∧ (∀ k x, x ∈ (url.ParseQuery (queryOf path)).Get k →
          url.QueryEscape k ++ [0x3D] ++ url.QueryEscape x <:+: req.URL.RawQuery)
      ∧ (GoMap.len client.Params = 0 → ∀ k, (url.ParseQuery req.URL.RawQuery).Get k
          = (url.ParseQuery (queryOf path)).Get k) := by
  have key : ∃ req, (sendRequest env client path method).sent = some req
      ∧ req.URL.RawQuery = url.Values.Encode
          ((GoMap.range env.order 1 client.Params).foldl
            (fun q kv => url.Values.Add q kv.1 kv.2) (url.ParseQuery (queryOf path))) := by
    obtain ⟨_, _, hsent⟩ := sendRequest_sends env client path method hc u hh hm hp
    refine ⟨_, hsent, ?_⟩
    have hraw := sent_rawQuery env client path method _ hsent
    rw [queryOf_append _ _ hb1 hb2] at hraw
    exact hraw
  obtain ⟨req, hsent, hraw⟩ := key
  have hmain : ∀ k, (url.ParseQuery req.URL.RawQuery).Get k
        = (url.ParseQuery (queryOf path)).Get k ++ (GoMap.index client.Params k).toList := by
    intro k
    rw [hraw, get_parseQuery_encode, get_foldl_add, valuesOf_range]
  refine ⟨req, hsent, hmain, ?_, ?_⟩
  · intro k x hx
    rw [hraw]
    apply encodePair_infix_encode _ k x
    rw [get_foldl_add]
    exact List.mem_append_left _ hx
  · intro hlen k
    rw [hmain k, index_eq_none_of_len _ hlen k]
    simp

theorem C5_query_appended_witness :
    extraA.Client = some { Timeout := defaultTimeout }
    ∧ http.validMethod (if http.MethodGet = [] then str "GET" else http.MethodGet) = true
    ∧ url.Parse (extraA.BaseURL ++ str "/p?a=1&z=%7E")
        = .ok { Scheme := str "http", Host := str "h", Path := str "/p",
                RawQuery := str "a=1&z=%7E" }
    ∧ (0x3F : Byte) ∉ extraA.BaseURL
    ∧ (0x23 : Byte) ∉ extraA.BaseURL
    ∧ (url.ParseQuery (queryOf (str "/p?a=1&z=%7E"))).Get (str "a")
          ++ (GoMap.index extraA.Params (str "a")).toList = [str "1", str "2"]
    ∧ (∃ req, (sendRequest refuse extraA (str "/p?a=1&z=%7E") http.MethodGet).sent = some req
        ∧ (url.ParseQuery req.URL.RawQuery).Get (str "a")
            = (url.ParseQuery (queryOf (str "/p?a=1&z=%7E"))).Get (str "a")
              ++ (GoMap.index extraA.Params (str "a")).toList)
    ∧ (sendRequest refuse extraA (str "/p?a=1&z=%7E") http.MethodGet).sent.map
        (fun r => r.URL.RawQuery) = some (str "a=1&a=2&z=~") :=
  ⟨rfl, by decide, by rfl, by decide, by decide, by rfl,
    have ⟨req, hsent, hget, _⟩ :=
      C5_query_appended refuse extraA (str "/p?a=1&z=%7E") http.MethodGet
        { Timeout := defaultTimeout }
        { Scheme := str "http", Host := str "h", Path := str "/p", RawQuery := str "a=1&z=%7E" }
        rfl (by decide) (by rfl) (by decide) (by decide)
    ⟨req, hsent, hget (str "a")⟩, by rfl⟩

/-- The request for the path `/p?a=1;b=2` with no parameters has an empty raw
query, and of `x=%zz&d=4` only `d=4` is sent: the block commented "add query
params, if any" writes back the encoding of what `URL.Query` could read,
whether or not there is a parameter to add. -/
theorem sent_query_rewritten_without_params :
    GoMap.len (New (str "http://h")).Params = 0
    ∧ queryOf (str "/p?a=1;b=2") = str "a=1;b=2"
    ∧ (sendRequest refuse (New (str "http://h")) (str "/p?a=1;b=2") http.MethodGet).sent.map
        (fun r => r.URL.RawQuery) = some []
    ∧ (sendRequest refuse (New (str "http://h")) (str "/p?x=%zz&d=4") http.MethodGet).sent.map
        (fun r => r.URL.RawQuery) = some (str "d=4") := by
  refine ⟨by rfl, by decide, by rfl, by rfl⟩

/-! ## Successive calls -/

/-- The raw query of the request built does not depend on the order in which
the parameters are visited. -/
theorem outgoing_rawQuery_order (o1 o2 : RangeOrder) (client : HTTPClient)
    (req0 : http.Request) :
    (outgoing o1 client req0).URL.RawQuery = (outgoing o2 client req0).URL.RawQuery := by
  simp only [outgoing]
  apply encode_congr
  intro k
  rw [lookup_foldl_add, lookup_foldl_add, valuesOf_range, valuesOf_range]

/-- Apart from the headers, the request built does not depend on the order in
which the loops visit their maps. -/
theorem outgoing_order (o1 o2 : RangeOrder) (client : HTTPClient) (req0 : http.Request) :
    (outgoing o1 client req0).Method = (outgoing o2 client req0).Method
    ∧ (outgoing o1 client req0).URL = (outgoing o2 client req0).URL
    ∧ (outgoing o1 client req0).Host = (outgoing o2 client req0).Host
    ∧ (outgoing o1 client req0).Body = (outgoing o2 client req0).Body
    ∧ (outgoing o1 client req0).ContentLength = (outgoing o2 client req0).ContentLength := by
  refine ⟨rfl, ?_, rfl, rfl, rfl⟩
  have h := outgoing_rawQuery_order o1 o2 client req0
  simp only [outgoing] at h ⊢
  rw [h]

/-- Whether a call sends a request does not depend on the network or on the
visiting order of the loops. -/
theorem sent_none_iff (env1 env2 : Env) (client : HTTPClient) (path method : GoString) :
    (sendRequest env1 client path method).sent = none
      ↔ (sendRequest env2 client path method).sent = none := by
  cases hhc : client.Client with
  | none =>
    rw [sendRequest_nil env1 client path method hhc, sendRequest_nil env2 client path method hhc]
  | some hc =>
    obtain ⟨requestData, hrd⟩ := requestData_ok client
    cases hreq0 : http.NewRequest method (client.BaseURL ++ path) requestData with
    | error e =>
      rw [sendRequest_newRequest_error env1 client path method hc requestData e hhc hrd hreq0,
        sendRequest_newRequest_error env2 client path method hc requestData e hhc hrd hreq0]
    | ok req0 =>
      rw [sendRequest_built_sent env1 client path method hc requestData req0 hhc hrd hreq0,
        sendRequest_built_sent env2 client path method hc requestData req0 hhc hrd hreq0]
      simp

/-- C12 as stated fails: with the two header keys `accept` and `Accept` the
client is the same after a first call, yet a second call with the same
arguments, whose loop over `Headers` runs in another order, sends another
request: the first carries `Accept: 2`, the second `Accept: 1`. -/
theorem C12_counterexample_second_call_differs :
    (sendRequest refuse caseClash (str "/") http.MethodGet).client = caseClash
    ∧ (sendRequest refuse caseClash (str "/") http.MethodGet).sent.map
        (fun r => r.Header.Values (str "Accept")) = some [str "2"]
    ∧ (sendRequest refuseReversed
        (sendRequest refuse caseClash (str "/") http.MethodGet).client
        (str "/") http.MethodGet).sent.map
        (fun r => r.Header.Values (str "Accept")) = some [str "1"]
    ∧ (sendRequest refuseReversed
        (sendRequest refuse caseClash (str "/") http.MethodGet).client
        (str "/") http.MethodGet).sent
        ≠ (sendRequest refuse caseClash (str "/") http.MethodGet).sent := by
  refine ⟨by rfl, by rfl, by rfl, ?_⟩
  intro h
  have h2 := congrArg (Option.map (fun r => http.Header.Values r.Header (str "Accept"))) h
  exact absurd h2 (by decide)

/-- The encoder never writes an empty text. -/
theorem marshal_ne_nil (m : Option (GoMap GoString)) :
    ¬ json.Marshal m = (Except.ok [] : Except GoError GoString) := by
  intro h
  cases m with
  | none => exact absurd (Except.ok.inj h) (by decide)
  | some m =>
    have h2 := Except.ok.inj h
    simp at h2

/-- C12 (amended): whatever the outcome, the client after a call of
`sendRequest` is the client before it, with the same `BaseURL`, `Headers`,
`Data`, `Params` and transport timeout, and a second call with the same
arguments sends a request exactly when the first did.  When the first call
gets to send (transport handle present, method a token, URL string parsing),
so does a second call with the same arguments on the client it left, whatever
the network answered or answers and in whatever order the loops of either call
visit the maps, and the two requests have the same method, URL (raw query
included), host, body and content length; they have the same headers provided
the keys of `Headers` stay pairwise distinct after canonicalisation.  Every
later call that gets to send, whatever its path and method, sends the body of
the first again, which is not empty when `Data` has an entry. -/
theorem C12_call_leaves_client_unchanged (env env2 : Env) (client : HTTPClient)
    (path method : GoString) :
    (sendRequest env client path method).client = client
    ∧ (sendRequest env client path method).client.BaseURL = client.BaseURL
    ∧ (sendRequest env client path method).client.Headers = client.Headers
    ∧ (sendRequest env client path method).client.Data = client.Data
    ∧ (sendRequest env client path method).client.Params = client.Params
    ∧ (sendRequest env client path method).client.Client.map (fun c => c.Timeout)
        = client.Client.map (fun c => c.Timeout)
    ∧ ((sendRequest env2 (sendRequest env client path method).client path method).sent = none
        ↔ (sendRequest env client path method).sent = none)
    ∧ (∀ (hc : http.Client) (u : url.URL), client.Client = some hc →
        http.validMethod (if method = [] then str "GET" else method) = true →
        url.Parse (client.BaseURL ++ path) = .ok u →
        ∃ req1 req2, (sendRequest env client path method).sent = some req1
          ∧ (sendRequest env2 (sendRequest env client path method).client path method).sent
              = some req2
          ∧ req2.Method = req1.Method ∧ req2.URL = req1.URL ∧ req2.Host = req1.Host
          ∧ req2.Body = req1.Body ∧ req2.ContentLength = req1.ContentLength
          ∧ (((GoMap.pairs client.Headers).map
                (fun kv => textproto.CanonicalMIMEHeaderKey kv.1)).Nodup →
              ∀ name, req2.Header.lookup name = req1.Header.lookup name)
          ∧ ∀ (path2 method2 : GoString) (u2 : url.URL),
              http.validMethod (if method2 = [] then str "GET" else method2) = true →
              url.Parse (client.BaseURL ++ path2) = .ok u2 →
              ∃ req3,
                (sendRequest env2 (sendRequest env client path method).client path2 method2).sent
                  = some req3
                ∧ req3.Body = req1.Body ∧ req3.ContentLength = req1.ContentLength
                ∧ (GoMap.len client.Data > 0 → ∃ body, req3.Body = some body ∧ body ≠ [])) := by
  have hcl := sendRequest_client env client path method
  refine ⟨hcl, by rw [hcl], by rw [hcl], by rw [hcl], by rw [hcl], by rw [hcl], ?_, ?_⟩
  · rw [hcl]
    exact sent_none_iff env2 env client path method
  · intro hc u hh hm hp
    rw [hcl]
    obtain ⟨d1, hd1, hs1⟩ := sendRequest_sends env client path method hc u hh hm hp
    obtain ⟨d2, hd2, hs2⟩ := sendRequest_sends env2 client path method hc u hh hm hp
    have hd : d2 = d1 := by
      rw [hd1] at hd2
      exact (Except.ok.inj hd2).symm
    subst hd
    obtain ⟨h1, h2, h3, h4, h5⟩ := outgoing_order env2.order env.order client
      { Method := if method = [] then str "GET" else method
        URL := { u with Host := http.removeEmptyPort u.Host }
        Header := GoMap.make
        Body := if d2.length = 0 then none else some d2
        ContentLength := d2.length
        Host := http.removeEmptyPort u.Host }
    refine ⟨_, _, hs1, hs2, h1, h2, h3, h4, h5, ?_, ?_⟩
    · intro hnd name
      rw [outgoing_header _ _ _ rfl, outgoing_header _ _ _ rfl]
      exact foldl_set_lookup_perm _ _ _ (range_canonical_nodup env2.order 0 client.Headers hnd)
        ((range_perm env2.order 0 client.Headers).trans
          (range_perm env.order 0 client.Headers).symm) name
    · intro path2 method2 u2 hm2 hp2
      obtain ⟨d3, hd3, hs3⟩ := sendRequest_sends env2 client path2 method2 hc u2 hh hm2 hp2
      have hd : d3 = d2 := by
        rw [hd1] at hd3
        exact (Except.ok.inj hd3).symm
      subst hd
      refine ⟨_, hs3, rfl, rfl, ?_⟩
      intro hlen
      have hne : d3 ≠ [] := by
        rw [if_pos hlen] at hd1
        intro he
        subst he
        exact absurd hd1 (marshal_ne_nil client.Data)
      refine ⟨d3, ?_, hne⟩
      simp only [outgoing]
      rw [if_neg (fun h => hne (List.length_eq_zero.mp h))]

theorem C12_call_leaves_client_unchanged_witness :
    keyValue.Client = some { Timeout := defaultTimeout }
    ∧ http.validMethod (if http.MethodPost = [] then str "GET" else http.MethodPost) = true
    ∧ url.Parse (keyValue.BaseURL ++ str "/echo")
        = .ok { Scheme := str "http", Host := str "h", Path := str "/echo" }
    ∧ ((GoMap.pairs keyValue.Headers).map
        (fun kv => textproto.CanonicalMIMEHeaderKey kv.1)).Nodup
    ∧ http.validMethod (if http.MethodDelete = [] then str "GET" else http.MethodDelete) = true
    ∧ url.Parse (keyValue.BaseURL ++ str "/")
        = .ok { Scheme := str "http", Host := str "h", Path := str "/" }
    ∧ GoMap.len keyValue.Data > 0
    ∧ (sendRequest tooMany keyValue (str "/echo") http.MethodPost).client.Data = keyValue.Data
    ∧ (∃ req1 req2,
        (sendRequest tooMany keyValue (str "/echo") http.MethodPost).sent = some req1
        ∧ (sendRequest refuseReversed
            (sendRequest tooMany keyValue (str "/echo") http.MethodPost).client
            (str "/echo") http.MethodPost).sent = some req2
        ∧ req2.Method = req1.Method ∧ req2.URL = req1.URL ∧ req2.Body = req1.Body
        ∧ (∀ name, req2.Header.lookup name = req1.Header.lookup name)
        ∧ ∃ req3,
            (sendRequest refuseReversed
              (sendRequest tooMany keyValue (str "/echo") http.MethodPost).client
              (str "/") http.MethodDelete).sent = some req3
            ∧ req3.Body = req1.Body
            ∧ ∃ body, req3.Body = some body ∧ body ≠ [])
    ∧ (sendRequest refuseReversed
          (sendRequest tooMany keyValue (str "/echo") http.MethodPost).client
          (str "/") http.MethodDelete).sent.map (fun r => (r.Body, r.ContentLength))
        = some (some (str "\x7b\"key\":\"value\"\x7d"), 15) :=
  have h := C12_call_leaves_client_unchanged tooMany refuseReversed keyValue (str "/echo")
    http.MethodPost
  ⟨rfl, by decide, by rfl, by decide, by decide, by rfl, by decide, h.2.2.2.1,
    have ⟨req1, req2, h1, h2, hmeth, hurl, _, hbody, _, hhead, hlater⟩ :=
      h.2.2.2.2.2.2.2 { Timeout := defaultTimeout }
        { Scheme := str "http", Host := str "h", Path := str "/echo" } rfl (by decide) (by rfl)
    have ⟨req3, h3, hb3, _, hne⟩ := hlater (str "/") http.MethodDelete
      { Scheme := str "http", Host := str "h", Path := str "/" } (by decide) (by rfl)
    ⟨req1, req2, h1, h2, hmeth, hurl, hbody, hhead (by decide), req3, h3, hb3, hne (by decide)⟩,
    by rfl⟩

end simplehttp
